import Mathlib

/-!
# sircd: a shallow embedding of `MainFile.c`

The server keeps three global tables (`p`, `user_list`, `channel_list`).  They are
embedded as one record `Server`, passed explicitly; every call of `Rio_writen` and
`Close` is appended to the record's `wire`, so that what a handler sends can be
stated.  A pointer into a table is the index of its slot, a null pointer is `none`.
C strings are embedded as the list of their characters (terminator excluded);
fixed-size tables are lists, the constant `FD_SETSIZE` of `<sys/select.h>` being
the length of the tables.

A C function either returns, or leaves through `app_error` (which ends the
process), or does something the C language gives no meaning to (a write past a
buffer, a read through a null pointer or outside a table, the use of an object
that was never initialised).  The three cases are the constructors of `Outcome`.
An uninitialised character buffer that the code reads as a string is a parameter
(`name0`) of the function that declares it.

The file has three parts: the embedding of the code, with the sample states used
to exercise the theorems; the lemmas (representation invariant, what each handler
changes and writes); the claims `C1`, `C2`, ... in order.
-/

namespace Sircd

/-! ## Constants -/

/-- The macro `MAX_MSG_TOKENS`. -/
def MAX_MSG_TOKENS : Nat := 10

/-- The macro `MAX_MSG_LEN`. -/
def MAX_MSG_LEN : Nat := 512

/-- The macro `MAX_NAME_LEN`. -/
def MAX_NAME_LEN : Nat := 64

/-- The macro `ANONYMOUS`. -/
def ANONYMOUS : List Char := "ANONYMOUS".toList

/-- The macro `MAXLINE` of `csapp.h`, the size of the buffer `rep` in `reply`. -/
def MAXLINE : Nat := 8192

/-- The value of `sizeof(char *)`: the handlers apply `sizeof` to a parameter of
type `char *`, which yields the size of a pointer (8 on an LP64 target). -/
def sizeof_char_ptr : Nat := 8

/-- The value of `(size_t)-1`, returned by `get_msg` when no terminator is found. -/
def SIZE_MAX : Nat := 2 ^ 64 - 1

/-! ## Outcomes -/

/-- How a call ends. -/
inductive Outcome (α : Type) where
  | ok (a : α)
  | app_error
  | undefined
deriving DecidableEq, Repr

namespace Outcome

/-- Sequencing: the continuation runs only after a normal return. -/
def bind {α β : Type} : Outcome α → (α → Outcome β) → Outcome β
  | ok a, f => f a
  | app_error, _ => app_error
  | undefined, _ => undefined

end Outcome

/-! ## Strings -/

/-- The C library's `strstr(hay, needle)`: offset of the first occurrence. -/
def strstr : List Char → List Char → Option Nat
  | [], needle => if needle = [] then some 0 else none
  | c :: cs, needle =>
    if needle.isPrefixOf (c :: cs) then some 0
    else (strstr cs needle).map (· + 1)

/-- The C library's `strchr(s, c)` for a character other than the terminator:
offset of the first occurrence. -/
def strchr : List Char → Char → Option Nat
  | [], _ => none
  | x :: xs, c => if x = c then some 0 else (strchr xs c).map (· + 1)

/-- The first part of `get_msg`: the offset of `end` in `buf` and the width of the
terminator found there, CR LF being searched first, then LF alone. -/
def get_msg_end (buf : List Char) : Option (Nat × Nat) :=
  match strstr buf ['\r', '\n'] with
  | some e => some (e, 2)
  | none =>
    match strstr buf ['\n'] with
    | some e => some (e, 1)
    | none => none

/-- The function `get_msg(buf, msg)`: the returned `size_t` and the string held by
`msg` afterwards (`msg` on entry holds the second argument). -/
def get_msg (buf msg : List Char) : Nat × List Char :=
  match get_msg_end buf with
  | some (e, w) => (e + w, buf.take e)
  | none => (SIZE_MAX, msg)

/-- The loop of `tokenize`, with `k` iterations left before `i` reaches
`MAX_MSG_TOKENS`: the strings written to `tokens[i]`, `tokens[i+1]`, ... in order. -/
def tokenize_loop (delim : Char) : Nat → List Char → List (List Char)
  | 0, _ => []
  | k + 1, current =>
    match strchr current delim with
    | some off =>
      match current.drop (off + 1) with
      | ':' :: trailing => [current.take off, trailing]
      | rest => current.take off :: tokenize_loop delim k rest
    | none => [current]

/-- The copies that `tokenize(in_buf, tokens, delim)` makes: the strings it copies
towards the slots `tokens[0]`, `tokens[1]`, ... in order, and, as the length of the
list, the count it returns.  The function has no test of its own on the length of a
string or on the slot of the trailing token: whether the copies stay inside the
array is `tokens_fit`, and the call with its array is `tokenize_call`. -/
def tokenize (in_buf : List Char) (delim : Char) : List (List Char) :=
  tokenize_loop delim MAX_MSG_TOKENS in_buf

/-- Every write of `tokenize` stays inside `char tokens[MAX_MSG_TOKENS][MAX_MSG_LEN+1]`. -/
def tokens_fit (tokens : List (List Char)) : Bool :=
  decide (tokens.length ≤ MAX_MSG_TOKENS) && tokens.all (fun t => decide (t.length ≤ MAX_MSG_LEN))

/-- The call `tokenize(in_buf, tokens, delim)` on an array
`char tokens[MAX_MSG_TOKENS][MAX_MSG_LEN+1]`, as `parse_cmd` and `handle_privmsg` make
it: the strings that the rows hold afterwards, when every copy stays inside its row
and inside the array.  A string longer than `MAX_MSG_LEN` runs over its row, into the
row that the next copy fills, and an eleventh string runs over the array: the call
then has no defined result. -/
def tokenize_call (in_buf : List Char) (delim : Char) : Outcome (List (List Char)) :=
  if tokens_fit (tokenize in_buf delim) then Outcome.ok (tokenize in_buf delim)
  else Outcome.undefined

/-! ## Data model -/

/-- The struct `pool`.  The two `fd_set`s are embedded as the list of the descriptors
they contain; `clientrio[i]` is determined by `clientfd[i]` (it is initialised by
`add_client` and only ever copied afterwards) and is left out. -/
structure pool where
  maxfd : Int
  read_set : List Int
  ready_set : List Int
  nready : Int
  maxi : Int
  clientfd : List Int
deriving DecidableEq, Repr

/-- The struct `user`. -/
structure user where
  hostname : List Char
  realname : List Char
  username : List Char
  nickname : List Char
  fd : Int
  index : Nat
  channel : Int
deriving DecidableEq, Repr

/-- The struct `channel`. -/
structure channel where
  channelname : List Char
  index : Nat
  follower : List Int
deriving DecidableEq, Repr

/-- A call of the platform layer that the server makes. -/
inductive Syscall where
  | writen (fd : Int) (bytes : List Char)
  | close (fd : Int)
deriving DecidableEq, Repr

/-- The global variables `p`, `user_list` and `channel_list` (a null pointer is
`none`), with the calls made to the platform layer so far. -/
structure Server where
  p : pool
  user_list : List (Option user)
  channel_list : List (Option channel)
  wire : List Syscall
deriving DecidableEq, Repr

/-- The constant `FD_SETSIZE`: the number of slots of the tables. -/
def FD_SETSIZE (s : Server) : Nat := s.p.clientfd.length

/-! ## Loops -/

/-- A `for` loop over the elements of a table, the body run on each in order. -/
def for_each {σ α : Type} (body : σ → α → Outcome σ) : List α → σ → Outcome σ
  | [], s => Outcome.ok s
  | a :: rest, s => (body s a).bind (fun s1 => for_each body rest s1)

/-- A search loop that stops at the first element satisfying `pred`: its index. -/
def first_index {α : Type} (pred : α → Bool) : List α → Option Nat
  | [] => none
  | x :: xs => if pred x then some 0 else (first_index pred xs).map (· + 1)

/-- The loop shared by the `find_*` functions: the first slot holding a record that
satisfies `pred`, and that record. -/
def find_first {α : Type} (pred : α → Bool) : List (Option α) → Option (Nat × α)
  | [] => none
  | none :: rest => (find_first pred rest).map (fun r => (r.1 + 1, r.2))
  | some a :: rest =>
    if pred a then some (0, a)
    else (find_first pred rest).map (fun r => (r.1 + 1, r.2))

/-! ## Pool -/

/-- The function `init_pool(listenfd)`, on tables of `n` slots; the two user and
channel tables are zero-initialised globals.  The fields `ready_set` and `nready`,
which `init_pool` leaves to the first `Select` of `main`, start empty. -/
def init_pool (n : Nat) (listenfd : Int) : Server :=
  { p := { maxfd := listenfd, read_set := [listenfd], ready_set := [], nready := 0,
           maxi := -1, clientfd := List.replicate n (-1) },
    user_list := List.replicate n none,
    channel_list := List.replicate n none,
    wire := [] }

/-- The function `init_user(id, fd)`. -/
def init_user (s : Server) (id : Nat) (fd : Int) : Server :=
  let u : user := { hostname := ANONYMOUS, realname := ANONYMOUS, username := ANONYMOUS,
                    nickname := ANONYMOUS, fd := fd, index := id, channel := -1 }
  { s with user_list := s.user_list.set id (some u) }

/-- The function `add_client(connfd)`. -/
def add_client (s : Server) (connfd : Int) : Outcome Server :=
  let s0 : Server := { s with p := { s.p with nready := s.p.nready - 1 } }
  match first_index (fun c => decide (c < 0)) s0.p.clientfd with
  | some i =>
    let p1 : pool := { s0.p with clientfd := s0.p.clientfd.set i connfd,
                                 read_set := connfd :: s0.p.read_set }
    let s1 : Server := { s0 with p := p1 }
    let s2 := init_user s1 i connfd
    let s3 : Server :=
      if s2.p.maxfd < connfd then { s2 with p := { s2.p with maxfd := connfd } } else s2
    let s4 : Server :=
      if s3.p.maxi < (i : Int) then { s3 with p := { s3.p with maxi := i } } else s3
    Outcome.ok s4
  | none => Outcome.app_error

/-- The function `reply(fd, msg, ...)`, applied to the formatted text: the text is
built in `char rep[MAXLINE]` and written to `fd`. -/
def reply (s : Server) (fd : Int) (rep : List Char) : Outcome Server :=
  if rep.length < MAXLINE then
    Outcome.ok { s with wire := s.wire ++ [Syscall.writen fd rep] }
  else Outcome.undefined

/-! ## Find methods -/

/-- The function `find_channel_by_name`: the index returned and the channel stored
in `*c`; `none` stands for the result -1. -/
def find_channel_by_name (s : Server) (channelname : List Char) : Option (Nat × channel) :=
  find_first (fun c => decide (channelname = c.channelname)) s.channel_list

/-- The function `find_user_by_fd`: the index returned and the user stored in `*u`. -/
def find_user_by_fd (s : Server) (fd : Int) : Option (Nat × user) :=
  find_first (fun u => decide (u.fd = fd)) s.user_list

/-- The function `find_user_by_nick`: the index returned and the user stored in `*u`. -/
def find_user_by_nick (s : Server) (nickname : List Char) : Option (Nat × user) :=
  find_first (fun u => decide (u.nickname = nickname)) s.user_list

/-- The read `user_list[i]->...` for an `int i`: outside the table or through a
null pointer it has no defined result. -/
def user_at (s : Server) (i : Int) : Outcome user :=
  if 0 ≤ i then
    match s.user_list[i.toNat]? with
    | some (some u) => Outcome.ok u
    | _ => Outcome.undefined
  else Outcome.undefined

/-- The read `channel_list[i]->...` for an `int i`. -/
def channel_at (s : Server) (i : Int) : Outcome channel :=
  if 0 ≤ i then
    match s.channel_list[i.toNat]? with
    | some (some c) => Outcome.ok c
    | _ => Outcome.undefined
  else Outcome.undefined

/-! ## Command handlers -/

/-- The three lines sent once both a nickname and a username are known. -/
def motd (s : Server) (fd : Int) (hostname nickname : List Char) : Outcome Server :=
  (reply s fd (":".toList ++ hostname ++ " 375 ".toList ++ nickname ++ " :- ".toList
      ++ hostname ++ " Message of the day - \r\n".toList)).bind fun s1 =>
  (reply s1 fd (":".toList ++ hostname ++ " 372 ".toList ++ nickname
      ++ " :- Register\r\n".toList)).bind fun s2 =>
  reply s2 fd (":".toList ++ hostname ++ " 376 ".toList ++ nickname
      ++ " :End of /MOTD command\r\n".toList)

/-- The function `handle_nick(fd, nickname)`.  The `strcpy` into the 64-byte field
`u->nickname` is defined only for a string of fewer than 64 characters. -/
def handle_nick (s : Server) (fd : Int) (nickname : List Char) : Outcome Server :=
  if MAX_NAME_LEN < sizeof_char_ptr then
    reply s fd ("NICK: ".toList ++ nickname ++ " is too long to be a nickname\r\n".toList)
  else
    match find_user_by_fd s fd with
    | none => Outcome.app_error
    | some (uid, u) =>
      let stripped := (get_msg nickname nickname).2
      let in_use : Bool :=
        match find_user_by_nick s stripped with
        | some (_, nick_user) => decide (nick_user.fd ≠ fd)
        | none => false
      if in_use then reply s fd "NICKNAMEINUSE\r\n".toList
      else if MAX_NAME_LEN ≤ stripped.length then Outcome.undefined
      else
        let u1 : user := { u with nickname := stripped }
        let s1 : Server := { s with user_list := s.user_list.set uid (some u1) }
        if u1.username ≠ ANONYMOUS then motd s1 fd u1.hostname stripped
        else Outcome.ok s1

/-- The function `handle_user(fd, username, hostname, realname)`; each of the three
`strcpy` is defined only for a string of fewer than 64 characters. -/
def handle_user (s : Server) (fd : Int) (username hostname realname : List Char) :
    Outcome Server :=
  if MAX_NAME_LEN < sizeof_char_ptr then
    reply s fd ("USER: ".toList ++ username ++ " is too long to be a username\r\n".toList)
  else if MAX_NAME_LEN < sizeof_char_ptr then
    reply s fd ("USER: ".toList ++ hostname ++ " is too long to be a hostname\r\n".toList)
  else if MAX_NAME_LEN < sizeof_char_ptr then
    reply s fd ("USER: ".toList ++ realname ++ " is too long to be a realname\r\n".toList)
  else
    match find_user_by_fd s fd with
    | none => Outcome.app_error
    | some (uid, u) =>
      if MAX_NAME_LEN ≤ username.length then Outcome.undefined
      else if MAX_NAME_LEN ≤ hostname.length then Outcome.undefined
      else if MAX_NAME_LEN ≤ realname.length then Outcome.undefined
      else
        let u1 : user := { u with username := username, hostname := hostname,
                                  realname := realname }
        let s1 : Server := { s with user_list := s.user_list.set uid (some u1) }
        if u1.nickname ≠ ANONYMOUS then motd s1 fd u1.hostname u1.nickname
        else Outcome.ok s1

/-- The departure notice of `handle_part`. -/
def part_notice (nickname who channelname : List Char) : List Char :=
  ":".toList ++ nickname ++ "!".toList ++ who ++ "@".toList ++ channelname
    ++ " QUIT :\r\n".toList

/-- The loop of `handle_part` over the slots of `c->follower`: the contents of the
array afterwards, and the server. -/
def handle_part_loop (u : user) (fd : Int) (c : channel) :
    List Int → Server → Outcome (List Int × Server)
  | [], s => Outcome.ok ([], s)
  | f :: rest, s =>
    if 0 ≤ f then
      if f = (u.index : Int) then
        (reply s fd (part_notice u.nickname u.nickname c.channelname)).bind fun s1 =>
        (handle_part_loop u fd c rest s1).bind fun r =>
        Outcome.ok (-1 :: r.1, r.2)
      else
        (user_at s f).bind fun mate =>
        (reply s mate.fd (part_notice u.nickname mate.nickname c.channelname)).bind fun s1 =>
        (handle_part_loop u fd c rest s1).bind fun r =>
        Outcome.ok (f :: r.1, r.2)
    else
      (handle_part_loop u fd c rest s).bind fun r =>
      Outcome.ok (f :: r.1, r.2)

/-- The function `handle_part(fd)`. -/
def handle_part (s : Server) (fd : Int) : Outcome Server :=
  match find_user_by_fd s fd with
  | none => Outcome.app_error
  | some (uid, u) =>
    if u.channel < 0 then
      reply s fd "PART: You have not followed a channel\r\n".toList
    else
      let c_id := u.channel
      let u1 : user := { u with channel := -1 }
      let s1 : Server := { s with user_list := s.user_list.set uid (some u1) }
      (channel_at s1 c_id).bind fun c =>
      (handle_part_loop u1 fd c c.follower s1).bind fun r =>
      let c1 : channel := { c with follower := r.1 }
      Outcome.ok { r.2 with channel_list := r.2.channel_list.set c_id.toNat (some c1) }

/-- The function `handle_quit(fd)`.  When no user has descriptor `fd` the store to
`p->clientfd[-1]` has no defined result. -/
def handle_quit (s : Server) (fd : Int) : Outcome Server :=
  (handle_part s fd).bind fun s1 =>
  match find_user_by_fd s1 fd with
  | none => Outcome.undefined
  | some (id, _) =>
    let p1 : pool := { s1.p with read_set := s1.p.read_set.filter (fun x => decide (x ≠ fd)),
                                 clientfd := s1.p.clientfd.set id (-1) }
    Outcome.ok { s1 with p := p1, user_list := s1.user_list.set id none,
                         wire := s1.wire ++ [Syscall.close fd] }

/-- The local buffer `char name[MAX_NAME_LEN]` of `handle_join` and `handle_who` after
`if(get_msg(channelname, name) < 0) strcpy(name, channelname);`, where `name0` is
what the uninitialised buffer holds on entry.  The `memcpy` of `get_msg` writes
`len` bytes, so that `len` must not exceed the buffer; a buffer that holds no
terminator is not a string. -/
def local_name (channelname name0 : List Char) : Outcome (List Char) :=
  if (get_msg_end channelname).any (fun ew => decide (MAX_NAME_LEN < ew.1 + ew.2)) then
    Outcome.undefined
  else
    let r := get_msg channelname name0
    let name := if r.1 < 0 then channelname else r.2
    if MAX_NAME_LEN ≤ name.length then Outcome.undefined else Outcome.ok name

/-- The first part of `handle_join`: the channel `c` to join, found by name or
created in the first empty slot of `channel_list`; the result is the slot of `c`.
When the table has no empty slot, `c` points to memory that was never initialised. -/
def join_channel (s : Server) (name : List Char) : Outcome (Server × Nat) :=
  match find_channel_by_name s name with
  | some (cid, _) => Outcome.ok (s, cid)
  | none =>
    match first_index (fun slot => slot.isNone) s.channel_list with
    | some i =>
      let c : channel := { channelname := name, index := i,
                           follower := List.replicate (FD_SETSIZE s) (-1) }
      Outcome.ok ({ s with channel_list := s.channel_list.set i (some c) }, i)
    | none => Outcome.undefined

/-- The loop "Add the follower" of `handle_join`, for the user in slot `uid` and the
channel in slot `cid`. -/
def join_add (s : Server) (fd : Int) (uid cid : Nat) (u : user) (c : channel) :
    Outcome Server :=
  match first_index (fun f => decide (f < 0)) c.follower with
  | some i =>
    let c1 : channel := { c with follower := c.follower.set i (u.index : Int) }
    let u1 : user := { u with channel := (c.index : Int) }
    let s1 : Server := { s with channel_list := s.channel_list.set cid (some c1),
                                user_list := s.user_list.set uid (some u1) }
    reply s1 fd (":".toList ++ u.nickname ++ " JOIN ".toList ++ c.channelname
      ++ "\r\n".toList)
  | none => Outcome.ok s

/-- The body of the loop "List the user and declare to them" of `handle_join`. -/
def join_declare (fd : Int) (u : user) (c : channel) (s : Server) (m_id : Int) :
    Outcome Server :=
  if 0 ≤ m_id then
    (user_at s m_id).bind fun mate =>
    (reply s fd (mate.nickname ++ " ".toList)).bind fun s1 =>
    if m_id ≠ (u.index : Int) then
      reply s1 mate.fd (":".toList ++ u.nickname ++ " JOIN ".toList ++ c.channelname
        ++ "\r\n".toList)
    else Outcome.ok s1
  else Outcome.ok s

/-- The function `handle_join(fd, channelname)`; `name0` is what the uninitialised
local buffer `name` holds on entry. -/
def handle_join (s : Server) (fd : Int) (channelname name0 : List Char) : Outcome Server :=
  if MAX_NAME_LEN < sizeof_char_ptr then
    reply s fd ("JOIN: ".toList ++ channelname
      ++ " is too long to be a channelname\r\n".toList)
  else
    match find_user_by_fd s fd with
    | none => Outcome.app_error
    | some (uid, u0) =>
      (local_name channelname name0).bind fun name =>
      (join_channel s name).bind fun sc =>
      (if 0 ≤ u0.channel then handle_part sc.1 fd else Outcome.ok sc.1).bind fun s2 =>
      (user_at s2 (uid : Int)).bind fun u =>
      (channel_at s2 (sc.2 : Int)).bind fun c =>
      (join_add s2 fd uid sc.2 u c).bind fun s3 =>
      (user_at s3 (uid : Int)).bind fun u3 =>
      (channel_at s3 (sc.2 : Int)).bind fun c3 =>
      (reply s3 fd (":JOIN 353 ".toList ++ u3.nickname ++ " = ".toList ++ c3.channelname
        ++ " : ".toList)).bind fun s4 =>
      (for_each (join_declare fd u3 c3) c3.follower s4).bind fun s5 =>
      (reply s5 fd "\r\n".toList).bind fun s6 =>
      reply s6 fd (":JOIN 366 ".toList ++ u3.nickname ++ " ".toList ++ c3.channelname
        ++ " :End of /NAMES list\r\n".toList)

/-- The body of the loop of `handle_who` over `c->follower`. -/
def who_row (fd : Int) (s : Server) (m_id : Int) : Outcome Server :=
  if 0 ≤ m_id then
    (user_at s m_id).bind fun mate =>
    reply s fd (" ".toList ++ mate.username ++ " ".toList ++ mate.realname ++ " ".toList
      ++ mate.hostname ++ " ".toList ++ mate.nickname)
  else Outcome.ok s

/-- The function `handle_who(fd, channelname)`; `name0` is what the uninitialised
local buffer `name` holds on entry. -/
def handle_who (s : Server) (fd : Int) (channelname name0 : List Char) : Outcome Server :=
  (local_name channelname name0).bind fun name =>
  match find_user_by_fd s fd with
  | none => Outcome.app_error
  | some (_, u) =>
    match find_channel_by_name s name with
    | none => reply s fd "WHO: No such channel\r\n".toList
    | some (_, c) =>
      (reply s fd (":WHO 352 ".toList ++ u.nickname ++ " ".toList ++ name)).bind fun s1 =>
      (for_each (who_row fd) c.follower s1).bind fun s2 =>
      (reply s2 fd " H :0 The MOTD\r\n".toList).bind fun s3 =>
      reply s3 fd (":WHO 315 ".toList ++ u.nickname ++ " ".toList ++ c.channelname
        ++ " :End of /WHO list\r\n".toList)

/-- The body of the loop of `handle_list` over `channel_list`; `cnt` is the number of
slots of `c->follower` that are not negative, printed by `%d`. -/
def list_row (fd : Int) (u : user) (s : Server) (slot : Option channel) : Outcome Server :=
  match slot with
  | some c =>
    let cnt := c.follower.countP (fun f => decide (0 ≤ f))
    reply s fd (":LIST 322 ".toList ++ u.nickname ++ " ".toList ++ c.channelname
      ++ " ".toList ++ (Nat.repr cnt).toList)
  | none => Outcome.ok s

/-- The function `handle_list(fd)`. -/
def handle_list (s : Server) (fd : Int) : Outcome Server :=
  match find_user_by_fd s fd with
  | none => Outcome.app_error
  | some (_, u) =>
    (reply s fd (":LIST 321 ".toList ++ u.nickname
      ++ " Channel :Users Name\r\n".toList)).bind fun s1 =>
    (for_each (list_row fd u) s1.channel_list s1).bind fun s2 =>
    (reply s2 fd "\r\n".toList).bind fun s3 =>
    reply s3 fd (":LIST 323 ".toList ++ u.nickname ++ " :End of /LIST\r\n".toList)

/-- The line relayed by `handle_privmsg`. -/
def privmsg_line (nickname target msg : List Char) : List Char :=
  ":".toList ++ nickname ++ " PRIVMSG ".toList ++ target ++ " :".toList ++ msg
    ++ "\r\n".toList

/-- The inner loop body of `handle_privmsg`: one slot of `c->follower`. -/
def privmsg_relay (line : List Char) (s : Server) (f : Int) : Outcome Server :=
  if 0 ≤ f then (user_at s f).bind fun dest => reply s dest.fd line
  else Outcome.ok s

/-- The outer loop body of `handle_privmsg`: one entry of `list`. -/
def privmsg_target (fd : Int) (sender : user) (msg : List Char) (s : Server)
    (entry : List Char) : Outcome Server :=
  let target := (get_msg entry entry).2
  match find_channel_by_name s target with
  | some (_, c) =>
    for_each (privmsg_relay (privmsg_line sender.nickname c.channelname msg)) c.follower s
  | none =>
    match find_user_by_nick s target with
    | some (_, dest) =>
      (reply s sender.fd (privmsg_line sender.nickname dest.nickname msg)).bind fun s1 =>
      reply s1 dest.fd (privmsg_line sender.nickname dest.nickname msg)
    | none => reply s fd ("PRIVMSG: ".toList ++ target ++ " not found\r\n".toList)

/-- The function `handle_privmsg(fd, to_nick, msg)`. -/
def handle_privmsg (s : Server) (fd : Int) (to_nick msg : List Char) : Outcome Server :=
  let stripped := (get_msg msg msg).2
  match find_user_by_fd s fd with
  | none => Outcome.app_error
  | some (_, sender) =>
    let list := tokenize to_nick ','
    if tokens_fit list then for_each (privmsg_target fd sender stripped) list s
    else Outcome.undefined

/-! ## Command processor -/

/-- The string that starts at `msg`: the bytes before the first zero byte. -/
def cstr (msg : List Char) : List Char := msg.takeWhile (fun c => decide (c ≠ Char.ofNat 0))

/-- The body of the last loop of `parse_cmd`: `Rio_writen(connfd, msg, n)` for a
slot that holds a positive descriptor belonging to `ready_set`. -/
def transfer (msg : List Char) (n : Nat) (s : Server) (connfd : Int) : Outcome Server :=
  if 0 < connfd ∧ connfd ∈ s.p.ready_set then
    Outcome.ok { s with wire := s.wire ++ [Syscall.writen connfd (msg.take n)] }
  else Outcome.ok s

/-- The function `parse_cmd(fd, msg, n)`; `name0` is what the stack holds where
`handle_join` or `handle_who` place their local buffer `name`. -/
def parse_cmd (s : Server) (fd : Int) (msg : List Char) (n : Nat) (name0 : List Char) :
    Outcome Server :=
  let argv := tokenize (cstr msg) ' '
  let argc := argv.length
  if !tokens_fit argv then Outcome.undefined
  else if argc = 0 then Outcome.ok s
  else
    let argv0 := (get_msg (argv.getD 0 []) (argv.getD 0 [])).2
    if argv0 = "NICK".toList then
      if argc < 2 then reply s fd ("Usage: ".toList ++ argv0 ++ " <nickname>\r\n".toList)
      else handle_nick s fd (argv.getD 1 [])
    else if argv0 = "USER".toList then
      if argc < 4 then
        reply s fd ("Usage: ".toList ++ argv0
          ++ " <username> <hostname> <realname>\r\n".toList)
      else handle_user s fd (argv.getD 1 []) (argv.getD 2 []) (argv.getD 3 [])
    else if argv0 = "JOIN".toList then
      if argc < 2 then reply s fd ("Usage: ".toList ++ argv0 ++ " <channel>\r\n".toList)
      else handle_join s fd (argv.getD 1 []) name0
    else if argv0 = "WHO".toList then
      if argc < 2 then reply s fd ("Usage: ".toList ++ argv0 ++ " <channel>\r\n".toList)
      else handle_who s fd (argv.getD 1 []) name0
    else if argv0 = "LIST".toList then handle_list s fd
    else if argv0 = "PRIVMSG".toList then
      if argc < 3 then reply s fd ("Usage: ".toList ++ argv0 ++ " <to> <message>\r\n".toList)
      else handle_privmsg s fd (argv.getD 1 []) (argv.getD 2 [])
    else if argv0 = "PART".toList then handle_part s fd
    else for_each (transfer msg n) (s.p.clientfd.take (s.p.maxi + 1).toNat) s

/-! ## Reachable states and the representation invariant -/

/-- The states the server passes through as long as every call stays inside its
arrays: `main` initialises the pool, then repeats `Select` (which stores the ready
descriptors, all of them watched), `add_client` on a descriptor that `Accept`
returns (not negative, and not one of the open client descriptors) and, through
`check_clients`, `parse_cmd` on a line read or `handle_quit` at the end of a stream.
A call is a step only when it has a defined result (`Outcome.ok`).  The server at
work also comes back from a call that writes past a field or a buffer (a name of 64
bytes or more, a token of more than 512 bytes) and goes on from a state of which C
says nothing: such a state is not in this relation, and nothing proved of this
relation is a statement about it. -/
inductive Reachable (n : Nat) : Server → Prop where
  | init (listenfd : Int) : Reachable n (init_pool n listenfd)
  | select (s : Server) (ready : List Int) :
      Reachable n s → (∀ fd ∈ ready, fd ∈ s.p.read_set) →
      Reachable n { s with p := { s.p with ready_set := ready, nready := ready.length } }
  | accept (s s1 : Server) (connfd : Int) :
      Reachable n s → 0 ≤ connfd → connfd ∉ s.p.clientfd →
      add_client s connfd = Outcome.ok s1 → Reachable n s1
  | command (s s1 : Server) (fd : Int) (msg : List Char) (len : Nat) (name0 : List Char) :
      Reachable n s → parse_cmd s fd msg len name0 = Outcome.ok s1 → Reachable n s1
  | disconnect (s s1 : Server) (fd : Int) :
      Reachable n s → handle_quit s fd = Outcome.ok s1 → Reachable n s1

/-- The part of the representation invariant that concerns `p->clientfd` and
`user_list`, tables of `n` slots: a user record sits in the slot its `index` names,
next to its descriptor; descriptors are distinct; an identity field is a string
that fits its array; a nickname other than the default has one holder; the field
`channel` is -1 or an index. -/
structure UsersOk (n : Nat) (clientfd : List Int) (users : List (Option user)) : Prop where
  len_fd : clientfd.length = n
  len_users : users.length = n
  user_ok : ∀ (i : Nat) (u : user), users[i]? = some (some u) →
    u.index = i ∧ clientfd[i]? = some u.fd ∧ 0 ≤ u.fd
  free_ok : ∀ (i : Nat), users[i]? = some none → clientfd[i]? = some (-1)
  fd_inj : ∀ (i j : Nat) (u v : user), users[i]? = some (some u) →
    users[j]? = some (some v) → u.fd = v.fd → i = j
  name_len : ∀ (i : Nat) (u : user), users[i]? = some (some u) →
    u.hostname.length < MAX_NAME_LEN ∧ u.realname.length < MAX_NAME_LEN ∧
    u.username.length < MAX_NAME_LEN ∧ u.nickname.length < MAX_NAME_LEN
  nick_inj : ∀ (i j : Nat) (u v : user), users[i]? = some (some u) →
    users[j]? = some (some v) → u.nickname = v.nickname →
    i = j ∨ u.nickname = ANONYMOUS
  channel_ge : ∀ (i : Nat) (u : user), users[i]? = some (some u) → -1 ≤ u.channel

/-- The part of the representation invariant that concerns `channel_list`: a channel
record sits in the slot its `index` names, its name fits its array and is the name
of no other channel, and no index occurs twice among its followers. -/
structure ChansOk (n : Nat) (chans : List (Option channel)) : Prop where
  len_chans : chans.length = n
  chan_ok : ∀ (j : Nat) (c : channel), chans[j]? = some (some c) →
    c.index = j ∧ c.follower.length = n
  follower_inj : ∀ (j : Nat) (c : channel) (k l : Nat) (f : Int),
    chans[j]? = some (some c) → c.follower[k]? = some f →
    c.follower[l]? = some f → 0 ≤ f → k = l
  chan_len : ∀ (j : Nat) (c : channel), chans[j]? = some (some c) →
    c.channelname.length < MAX_NAME_LEN
  chan_inj : ∀ (j l : Nat) (c d : channel), chans[j]? = some (some c) →
    chans[l]? = some (some d) → c.channelname = d.channelname → j = l

/-- The part of the representation invariant that links the two tables: a follower
is a user whose `channel` is the channel it follows, and conversely. -/
structure LinkOk (users : List (Option user)) (chans : List (Option channel)) : Prop where
  follower_ok : ∀ (j : Nat) (c : channel) (k : Nat) (f : Int),
    chans[j]? = some (some c) → c.follower[k]? = some f → 0 ≤ f →
    ∃ u : user, users[f.toNat]? = some (some u) ∧ u.channel = (j : Int)
  member_ok : ∀ (i : Nat) (u : user), users[i]? = some (some u) → 0 ≤ u.channel →
    ∃ c : channel, chans[u.channel.toNat]? = some (some c) ∧ (i : Int) ∈ c.follower

/-- The representation invariant of the three tables `p->clientfd`, `user_list` and
`channel_list`, each of `n` slots. -/
structure Consistent (n : Nat) (clientfd : List Int) (users : List (Option user))
    (chans : List (Option channel)) : Prop where
  users_ok : UsersOk n clientfd users
  chans_ok : ChansOk n chans
  link_ok : LinkOk users chans

/-- The representation invariant, of a state. -/
def Inv (n : Nat) (s : Server) : Prop :=
  Consistent n s.p.clientfd s.user_list s.channel_list

/-- What the loop of `handle_part` leaves in `c->follower`: the slots holding the
index `uid` are reset to -1. -/
def unfollow (uid : Nat) (fs : List Int) : List Int :=
  fs.map (fun f => if f = (uid : Int) then -1 else f)

/-- Two states that differ in `wire` at most. -/
def wire_only (s s1 : Server) : Prop :=
  s1.p = s.p ∧ s1.user_list = s.user_list ∧ s1.channel_list = s.channel_list

/-! ## What the loops write -/

/-- The texts written to descriptor `fd` among the calls `w`, in order. -/
def sent_to (fd : Int) : List Syscall → List (List Char)
  | [] => []
  | Syscall.writen fd1 bytes :: rest =>
    if fd1 = fd then bytes :: sent_to fd rest else sent_to fd rest
  | Syscall.close _ :: rest => sent_to fd rest

/-- The calls made by a loop whose body makes the calls `ev a` on the element `a`. -/
def events_of {α : Type} (ev : α → List Syscall) : List α → List Syscall
  | [] => []
  | a :: rest => ev a ++ events_of ev rest

/-- The call made by the inner loop of `handle_privmsg` on a slot that holds `f`. -/
def relay_event (users : List (Option user)) (line : List Char) (f : Int) : List Syscall :=
  if 0 ≤ f then
    match users[f.toNat]? with
    | some (some dest) => [Syscall.writen dest.fd line]
    | _ => []
  else []

/-- The calls made by the outer loop of `handle_privmsg` on an entry `t` that holds
no line feed: the relay to the followers of the channel named `t`, else the two
copies for the first user with nickname `t`, else the line that reports `t`. -/
def privmsg_events (s : Server) (fd : Int) (sender : user) (msg t : List Char) :
    List Syscall :=
  match find_channel_by_name s t with
  | some (_, c) =>
    events_of (relay_event s.user_list (privmsg_line sender.nickname c.channelname msg))
      c.follower
  | none =>
    match find_user_by_nick s t with
    | some (_, dest) =>
      [Syscall.writen sender.fd (privmsg_line sender.nickname dest.nickname msg),
       Syscall.writen dest.fd (privmsg_line sender.nickname dest.nickname msg)]
    | none => [Syscall.writen fd ("PRIVMSG: ".toList ++ t ++ " not found\r\n".toList)]

/-- The texts appended to the 353 line by the last loop of `handle_join`: the
nickname, followed by a space, of the user in each slot of `c->follower` that is
not negative, in slot order. -/
def member_names (users : List (Option user)) (fs : List Int) : List (List Char) :=
  fs.filterMap fun f =>
    if 0 ≤ f then
      match users[f.toNat]? with
      | some (some mate) => some (mate.nickname ++ " ".toList)
      | _ => none
    else none

/-- The strings `ps` written one after the other with the character `d` between
two neighbours. -/
def join_with (d : Char) : List (List Char) → List Char
  | [] => []
  | [p] => p
  | p :: q :: rest => p ++ d :: join_with d (q :: rest)

/-- Some occurrence of the character `d` in the line is immediately followed by a
colon. -/
def delim_colon (d : Char) : List Char → Bool
  | x :: y :: rest => (x == d && y == ':') || delim_colon d (y :: rest)
  | _ => false

/-- The string `needle` occurs in `hay` at offset `i`. -/
def occurs_at (needle hay : List Char) (i : Nat) : Bool :=
  needle.isPrefixOf (hay.drop i)

/-- Repeated framing with `get_msg`, at most `k` times: `get_msg` is applied to
the buffer, the line it yields is kept and the buffer is advanced by the count it
returns, until it returns `(size_t)-1`.  The result is the lines framed, in order,
and the bytes left in the buffer. -/
def frame_loop : Nat → List Char → List (List Char) × List Char
  | 0, buf => ([], buf)
  | k + 1, buf =>
    let r := get_msg buf []
    if r.1 = SIZE_MAX then ([], buf)
    else
      let rest := frame_loop k (buf.drop r.1)
      (r.2 :: rest.1, rest.2)

/-- Repeated framing of a buffer until `get_msg` finds no complete line; every
call that frames a line consumes at least one byte, so that one more round than
the buffer has bytes is enough. -/
def frame_all (buf : List Char) : List (List Char) × List Char :=
  frame_loop (buf.length + 1) buf

/-- The lines, each followed by CR LF, one after the other. -/
def wire_lines : List (List Char) → List Char
  | [] => []
  | l :: rest => l ++ ['\r', '\n'] ++ wire_lines rest

/-! ## Sample states

States of a server with two slots, `listenfd` being 3, used to exercise the
theorems below. -/

/-- A user record as `init_user` leaves it. -/
def fresh_user (id : Nat) (fd : Int) : user :=
  { hostname := ANONYMOUS, realname := ANONYMOUS, username := ANONYMOUS,
    nickname := ANONYMOUS, fd := fd, index := id, channel := -1 }

/-- The server after `init_pool`. -/
def st_init : Server := init_pool 2 3

/-- The server after one client, descriptor 4, connected. -/
def st_one : Server :=
  { p := { maxfd := 4, read_set := [4, 3], ready_set := [], nready := -1, maxi := 0,
           clientfd := [4, -1] },
    user_list := [some (fresh_user 0 4), none],
    channel_list := [none, none],
    wire := [] }

/-- The server after a second client, descriptor 5, connected. -/
def st_two : Server :=
  { p := { maxfd := 5, read_set := [5, 4, 3], ready_set := [], nready := -2, maxi := 1,
           clientfd := [4, 5] },
    user_list := [some (fresh_user 0 4), some (fresh_user 1 5)],
    channel_list := [none, none],
    wire := [] }

/-- The server after the only client sent `JOIN #x`. -/
def st_joined : Server :=
  { p := { maxfd := 4, read_set := [4, 3], ready_set := [], nready := -1, maxi := 0,
           clientfd := [4, -1] },
    user_list := [some { fresh_user 0 4 with channel := 0 }, none],
    channel_list := [some { channelname := "#x".toList, index := 0, follower := [0, -1] }, none],
    wire := [Syscall.writen 4 ":ANONYMOUS JOIN #x\r\n".toList,
             Syscall.writen 4 ":JOIN 353 ANONYMOUS = #x : ".toList,
             Syscall.writen 4 "ANONYMOUS ".toList,
             Syscall.writen 4 "\r\n".toList,
             Syscall.writen 4 ":JOIN 366 ANONYMOUS #x :End of /NAMES list\r\n".toList] }

/-- The server after the first of two clients sent `NICK bob`. -/
def st_bob : Server :=
  { st_two with user_list := [some { fresh_user 0 4 with nickname := "bob".toList },
                              some (fresh_user 1 5)] }

/-- The server with one client, after `Select` reported its descriptor ready. -/
def st_ready : Server :=
  { st_one with p := { st_one.p with ready_set := [4], nready := 1 } }

/-- The server after the first of two clients sent `JOIN #x`. -/
def st_pair_first : Server :=
  { p := { maxfd := 5, read_set := [5, 4, 3], ready_set := [], nready := -2, maxi := 1,
           clientfd := [4, 5] },
    user_list := [some { fresh_user 0 4 with channel := 0 }, some (fresh_user 1 5)],
    channel_list := [some { channelname := "#x".toList, index := 0, follower := [0, -1] },
                     none],
    wire := [Syscall.writen 4 ":ANONYMOUS JOIN #x\r\n".toList,
             Syscall.writen 4 ":JOIN 353 ANONYMOUS = #x : ".toList,
             Syscall.writen 4 "ANONYMOUS ".toList,
             Syscall.writen 4 "\r\n".toList,
             Syscall.writen 4 ":JOIN 366 ANONYMOUS #x :End of /NAMES list\r\n".toList] }

/-- The server with two clients, after `Select` reported the first descriptor ready
and not the second. -/
def st_first_ready : Server :=
  { st_two with p := { st_two.p with ready_set := [4], nready := 1 } }

/-- The server after the first client sent `JOIN #x` and the second `JOIN #y`. -/
def st_split : Server :=
  { p := { maxfd := 5, read_set := [5, 4, 3], ready_set := [], nready := -2, maxi := 1,
           clientfd := [4, 5] },
    user_list := [some { fresh_user 0 4 with channel := 0 },
                  some { fresh_user 1 5 with channel := 1 }],
    channel_list := [some { channelname := "#x".toList, index := 0, follower := [0, -1] },
                     some { channelname := "#y".toList, index := 1, follower := [1, -1] }],
    wire := [Syscall.writen 4 ":ANONYMOUS JOIN #x\r\n".toList,
             Syscall.writen 4 ":JOIN 353 ANONYMOUS = #x : ".toList,
             Syscall.writen 4 "ANONYMOUS ".toList,
             Syscall.writen 4 "\r\n".toList,
             Syscall.writen 4 ":JOIN 366 ANONYMOUS #x :End of /NAMES list\r\n".toList,
             Syscall.writen 5 ":ANONYMOUS JOIN #y\r\n".toList,
             Syscall.writen 5 ":JOIN 353 ANONYMOUS = #y : ".toList,
             Syscall.writen 5 "ANONYMOUS ".toList,
             Syscall.writen 5 "\r\n".toList,
             Syscall.writen 5 ":JOIN 366 ANONYMOUS #y :End of /NAMES list\r\n".toList] }

/-! ## The multiplexer

`check_clients` reads through the Rio package of csapp.c, which is not part of
the source at hand; the package and the descriptors it reads from are modelled. -/

/-- Modelled from the spec: the platform side of the open descriptors, which is
outside the source: for each descriptor the results that the successive calls of
`read` on it deliver ("read available bytes into a buffer for a handle, returning
byte count or end-of-stream"), one chunk of bytes for each call, the empty chunk
standing for the end of the stream.  A descriptor with no chunk left has nothing
to deliver yet. -/
abbrev Net := List (Int × List (List Char))

/-- Modelled from the spec: the size `RIO_BUFSIZE` of the internal buffer of a
`rio_t`, declared in csapp.h, which is not part of the source. -/
def RIO_BUFSIZE : Nat := 8192

/-- Modelled from the spec: the struct `rio_t` of csapp.h, which is not part of
the source: the descriptor, and the bytes read from it that no caller has been
handed yet ("a per-connection receive buffer holding bytes read but not yet
resolved into a complete line"). -/
structure rio_t where
  rio_fd : Int
  rio_buf : List Char
deriving DecidableEq, Repr

/-- Modelled from the spec: `Rio_readinitb(rp, fd)` of csapp.c, which is not part
of the source: an empty read buffer tied to the descriptor. -/
def Rio_readinitb (fd : Int) : rio_t := { rio_fd := fd, rio_buf := [] }

/-- Modelled from the spec: the call `read(fd, buf, RIO_BUFSIZE)` on which the Rio
package rests ("read available bytes into a buffer for a handle"): the next chunk
of the descriptor, or as much of it as the buffer takes, and what is left to
deliver.  No result when the descriptor has nothing to deliver: the call blocks. -/
def net_read : Net → Int → Option (List Char × Net)
  | [], _ => none
  | (fd1, chunks) :: rest, fd =>
    if fd1 = fd then
      match chunks with
      | [] => none
      | c :: cs =>
        if c.length ≤ RIO_BUFSIZE then some (c, (fd1, cs) :: rest)
        else some (c.take RIO_BUFSIZE, (fd1, c.drop RIO_BUFSIZE :: cs) :: rest)
    else (net_read rest fd).map (fun r => (r.1, (fd1, chunks) :: r.2))

/-- Modelled from the spec: `rio_read(rp, &c, 1)` of csapp.c, which is not part of
the source: the next byte of the read buffer, which is first refilled by one `read`
when it is empty; no byte at the end of the stream. -/
def rio_read_byte (rp : rio_t) (net : Net) : Option (Option Char × rio_t × Net) :=
  match rp.rio_buf with
  | c :: rest => some (some c, { rp with rio_buf := rest }, net)
  | [] =>
    match net_read net rp.rio_fd with
    | none => none
    | some ([], net1) => some (none, rp, net1)
    | some (c :: rest, net1) => some (some c, { rp with rio_buf := rest }, net1)

/-- Modelled from the spec: the loop of `Rio_readlineb`, with `k` bytes of the
caller's buffer left: bytes are taken one at a time up to and including the first
line feed, or to the end of the stream. -/
def rio_readlineb_loop : Nat → rio_t → Net → List Char → Option (List Char × rio_t × Net)
  | 0, rp, net, acc => some (acc, rp, net)
  | k + 1, rp, net, acc =>
    match rio_read_byte rp net with
    | none => none
    | some (none, rp1, net1) => some (acc, rp1, net1)
    | some (some c, rp1, net1) =>
      if c = '\n' then some (acc ++ [c], rp1, net1)
      else rio_readlineb_loop k rp1 net1 (acc ++ [c])

/-- Modelled from the spec: `Rio_readlineb(rp, usrbuf, maxlen)` of csapp.c, which
is not part of the source: the bytes of the next line, terminator included, stored
in `usrbuf` (their number is the value returned, 0 at the end of the stream), the
read buffer afterwards and what the descriptors have left to deliver.  No result
when the call blocks. -/
def Rio_readlineb (rp : rio_t) (net : Net) (maxlen : Nat) :
    Option (List Char × rio_t × Net) :=
  rio_readlineb_loop (maxlen - 1) rp net []

/-- The server with the descriptors it reads from; `handed` records the calls of
`parse_cmd` made by `check_clients`, the descriptor and the line of each. -/
structure World where
  srv : Server
  net : Net
  handed : List (Int × List Char)
deriving DecidableEq

/-- The body of the loop of `check_clients` for slot `i`.  The local `rio` is a copy
of `p->clientrio[i]`, which is as `add_client` initialised it; the copy is used for
one call of `Rio_readlineb` and is not stored back.  No result when the read
blocks. -/
def check_client (name0 : List Char) (w : World) (i : Nat) : Option (Outcome World) :=
  match w.srv.p.clientfd[i]? with
  | none => some Outcome.undefined
  | some connfd =>
    let rio := Rio_readinitb connfd
    if 0 < connfd ∧ connfd ∈ w.srv.p.ready_set then
      let srv1 : Server := { w.srv with p := { w.srv.p with nready := w.srv.p.nready - 1 } }
      match Rio_readlineb rio w.net MAXLINE with
      | none => none
      | some (buf, _, net1) =>
        if 0 < buf.length then
          some ((parse_cmd srv1 connfd buf buf.length name0).bind fun srv2 =>
            Outcome.ok { srv := srv2, net := net1, handed := w.handed ++ [(connfd, buf)] })
        else
          some ((handle_quit srv1 connfd).bind fun srv2 =>
            Outcome.ok { srv := srv2, net := net1, handed := w.handed })
    else some (Outcome.ok w)

/-- The loop of `check_clients` over the slots left to visit; it ends as soon as
`p->nready` is not positive. -/
def check_clients_loop (name0 : List Char) : List Nat → World → Option (Outcome World)
  | [], w => some (Outcome.ok w)
  | i :: rest, w =>
    if 0 < w.srv.p.nready then
      match check_client name0 w i with
      | some (Outcome.ok w1) => check_clients_loop name0 rest w1
      | r => r
    else some (Outcome.ok w)

/-- The function `check_clients()`.  The slots visited are `0` to `p->maxi`, which
nothing called from the loop assigns; `name0` is what the stack holds where
`handle_join` or `handle_who` place their local buffer `name`. -/
def check_clients (name0 : List Char) (w : World) : Option (Outcome World) :=
  check_clients_loop name0 (List.range (w.srv.p.maxi + 1).toNat) w

/-- The server of `st_ready` after its client sent `NICK alice` and was served. -/
def st_alice : Server :=
  { st_ready with p := { st_ready.p with nready := 0 },
                  user_list := [some { fresh_user 0 4 with nickname := "alice".toList }, none] }

/-- The server with one ready client, whose descriptor delivers two lines in one
`read`. -/
def w_two_lines : World :=
  { srv := st_ready, net := [(4, ["NICK alice\r\nJOIN #x\r\n".toList])], handed := [] }

/-- The next round: `Select` reported the descriptor ready again once the line
`LIST` had arrived. -/
def w_next_round : World :=
  { srv := { st_alice with p := { st_alice.p with nready := 1 } },
    net := [(4, ["LIST\r\n".toList])],
    handed := [(4, "NICK alice\r\n".toList)] }

/-! ## Outcomes: basic facts -/

@[simp] theorem Outcome.bind_ok {α β : Type} (a : α) (f : α → Outcome β) :
    (Outcome.ok a).bind f = f a := rfl

@[simp] theorem Outcome.bind_app_error {α β : Type} (f : α → Outcome β) :
    (Outcome.app_error : Outcome α).bind f = Outcome.app_error := rfl

@[simp] theorem Outcome.bind_undefined {α β : Type} (f : α → Outcome β) :
    (Outcome.undefined : Outcome α).bind f = Outcome.undefined := rfl

theorem Outcome.bind_eq_ok {α β : Type} {x : Outcome α} {f : α → Outcome β} {b : β} :
    x.bind f = Outcome.ok b ↔ ∃ a, x = Outcome.ok a ∧ f a = Outcome.ok b := by
  cases x <;> simp [Outcome.bind]

/-! ## Search loops -/

theorem find_first_some {α : Type} (pred : α → Bool) :
    ∀ (l : List (Option α)) (i : Nat) (a : α), find_first pred l = some (i, a) →
      l[i]? = some (some a) ∧ pred a = true ∧
      ∀ (j : Nat) (b : α), j < i → l[j]? = some (some b) → pred b = false := by
  intro l
  induction l with
  | nil => intro i a h; simp [find_first] at h
  | cons x rest ih =>
    intro i a h
    cases x with
    | none =>
      simp only [find_first, Option.map_eq_some'] at h
      obtain ⟨⟨i0, a0⟩, h0, h1⟩ := h
      simp only [Prod.mk.injEq] at h1
      obtain ⟨rfl, rfl⟩ := h1
      obtain ⟨h2, h3, h4⟩ := ih i0 a0 h0
      refine ⟨by simpa using h2, h3, ?_⟩
      intro j b hj hb
      cases j with
      | zero => simp at hb
      | succ j => exact h4 j b (by omega) (by simpa using hb)
    | some y =>
      simp only [find_first] at h
      by_cases hp : pred y = true
      · simp only [hp, if_true, Option.some.injEq, Prod.mk.injEq] at h
        obtain ⟨rfl, rfl⟩ := h
        exact ⟨by simp, hp, by intro j b hj; omega⟩
      · simp only [hp, Option.map_eq_some', Bool.false_eq_true, if_false] at h
        obtain ⟨⟨i0, a0⟩, h0, h1⟩ := h
        simp only [Prod.mk.injEq] at h1
        obtain ⟨rfl, rfl⟩ := h1
        obtain ⟨h2, h3, h4⟩ := ih i0 a0 h0
        refine ⟨by simpa using h2, h3, ?_⟩
        intro j b hj hb
        cases j with
        | zero =>
          simp only [List.getElem?_cons_zero, Option.some.injEq] at hb
          subst hb
          simpa using hp
        | succ j => exact h4 j b (by omega) (by simpa using hb)

theorem find_first_none {α : Type} (pred : α → Bool) :
    ∀ (l : List (Option α)), find_first pred l = none →
      ∀ (j : Nat) (b : α), l[j]? = some (some b) → pred b = false := by
  intro l
  induction l with
  | nil => intro _ j b hb; simp at hb
  | cons x rest ih =>
    intro h j b hb
    cases x with
    | none =>
      simp only [find_first, Option.map_eq_none'] at h
      cases j with
      | zero => simp at hb
      | succ j => exact ih h j b (by simpa using hb)
    | some y =>
      simp only [find_first] at h
      by_cases hp : pred y = true
      · simp [hp] at h
      · simp only [hp, Option.map_eq_none', Bool.false_eq_true, if_false] at h
        cases j with
        | zero =>
          simp only [List.getElem?_cons_zero, Option.some.injEq] at hb
          subst hb
          simpa using hp
        | succ j => exact ih h j b (by simpa using hb)

theorem find_first_of_first {α : Type} (pred : α → Bool) (l : List (Option α)) (i : Nat) (a : α)
    (h : l[i]? = some (some a)) (hp : pred a = true)
    (hmin : ∀ (j : Nat) (b : α), j < i → l[j]? = some (some b) → pred b = false) :
    find_first pred l = some (i, a) := by
  cases hf : find_first pred l with
  | none => have := find_first_none pred l hf i a h; simp [hp] at this
  | some r =>
    obtain ⟨i0, a0⟩ := r
    obtain ⟨h1, h2, h3⟩ := find_first_some pred l i0 a0 hf
    rcases Nat.lt_trichotomy i0 i with hlt | heq | hgt
    · have := hmin i0 a0 hlt h1; simp [h2] at this
    · subst heq; rw [h] at h1; simp at h1; subst h1; rfl
    · have := h3 i a hgt h; simp [hp] at this

theorem first_index_some {α : Type} (pred : α → Bool) :
    ∀ (l : List α) (i : Nat), first_index pred l = some i →
      (∃ a, l[i]? = some a ∧ pred a = true) ∧
      ∀ (j : Nat) (b : α), j < i → l[j]? = some b → pred b = false := by
  intro l
  induction l with
  | nil => intro i h; simp [first_index] at h
  | cons x rest ih =>
    intro i h
    simp only [first_index] at h
    by_cases hp : pred x = true
    · simp only [hp, if_true, Option.some.injEq] at h
      subst h
      exact ⟨⟨x, by simp, hp⟩, by intro j b hj; omega⟩
    · simp only [hp, Option.map_eq_some', Bool.false_eq_true, if_false] at h
      obtain ⟨i0, h0, rfl⟩ := h
      obtain ⟨⟨a, h2, h3⟩, h4⟩ := ih i0 h0
      refine ⟨⟨a, by simpa using h2, h3⟩, ?_⟩
      intro j b hj hb
      cases j with
      | zero =>
        simp only [List.getElem?_cons_zero, Option.some.injEq] at hb
        subst hb
        simpa using hp
      | succ j => exact h4 j b (by omega) (by simpa using hb)

theorem set_cases {α : Type} (l : List α) (i j : Nat) (a b : α)
    (h : (l.set i a)[j]? = some b) : (j = i ∧ b = a) ∨ (j ≠ i ∧ l[j]? = some b) := by
  rw [List.getElem?_set] at h
  by_cases hij : i = j
  · subst hij
    simp only [if_true] at h
    split at h
    · left; simp at h; exact ⟨rfl, h.symm⟩
    · simp at h
  · right
    simp only [hij, if_false] at h
    exact ⟨fun e => hij e.symm, h⟩

theorem set_at {α : Type} (l : List α) (i : Nat) (a b : α) (h : l[i]? = some b) :
    (l.set i a)[i]? = some a := by
  have hlt : i < l.length := by
    rcases List.getElem?_eq_some.mp h with ⟨hl, _⟩; exact hl
  simp [List.getElem?_set, hlt]

theorem set_other {α : Type} (l : List α) (i j : Nat) (a : α) (h : j ≠ i) :
    (l.set i a)[j]? = l[j]? := by
  simp [List.getElem?_set, Ne.symm h]

/-- Rewriting the user in slot `uid`, descriptor and index kept, keeps the user
table well formed, provided the new nickname is held by nobody else or is the
default one. -/
theorem UsersOk.users_set {n : Nat} {fds : List Int} {users : List (Option user)}
    (h : UsersOk n fds users) (uid : Nat) (u u1 : user)
    (hu : users[uid]? = some (some u))
    (hfd : u1.fd = u.fd) (hidx : u1.index = u.index) (hge : -1 ≤ u1.channel)
    (hlen : u1.hostname.length < MAX_NAME_LEN ∧ u1.realname.length < MAX_NAME_LEN ∧
      u1.username.length < MAX_NAME_LEN ∧ u1.nickname.length < MAX_NAME_LEN)
    (hnick : ∀ (j : Nat) (v : user), j ≠ uid → users[j]? = some (some v) →
      v.nickname = u1.nickname → u1.nickname = ANONYMOUS) :
    UsersOk n fds (users.set uid (some u1)) := by
  constructor
  · exact h.len_fd
  · simpa using h.len_users
  · intro i w hw
    rcases set_cases _ _ _ _ _ hw with ⟨rfl, hw1⟩ | ⟨_, hw1⟩
    · simp only [Option.some.injEq] at hw1
      subst hw1
      rw [hfd, hidx]
      exact h.user_ok _ u hu
    · exact h.user_ok i w hw1
  · intro i hi
    rcases set_cases _ _ _ _ _ hi with ⟨rfl, hw1⟩ | ⟨_, hw1⟩
    · simp at hw1
    · exact h.free_ok i hw1
  · intro i j w v hw hv hwv
    rcases set_cases _ _ _ _ _ hw with ⟨rfl, hw1⟩ | ⟨hiu, hw1⟩
    · rcases set_cases _ _ _ _ _ hv with ⟨rfl, hv1⟩ | ⟨hju, hv1⟩
      · rfl
      · simp only [Option.some.injEq] at hw1
        subst hw1
        exact h.fd_inj _ j u v hu hv1 (by rw [← hfd]; exact hwv)
    · rcases set_cases _ _ _ _ _ hv with ⟨rfl, hv1⟩ | ⟨hju, hv1⟩
      · simp only [Option.some.injEq] at hv1
        subst hv1
        exact h.fd_inj i _ w u hw1 hu (by rw [← hfd]; exact hwv)
      · exact h.fd_inj i j w v hw1 hv1 hwv
  · intro i w hw
    rcases set_cases _ _ _ _ _ hw with ⟨rfl, hw1⟩ | ⟨_, hw1⟩
    · simp only [Option.some.injEq] at hw1
      subst hw1
      exact hlen
    · exact h.name_len i w hw1
  · intro i j w v hw hv hwv
    rcases set_cases _ _ _ _ _ hw with ⟨rfl, hw1⟩ | ⟨hiu, hw1⟩
    · rcases set_cases _ _ _ _ _ hv with ⟨rfl, hv1⟩ | ⟨hju, hv1⟩
      · left; rfl
      · simp only [Option.some.injEq] at hw1
        subst hw1
        right
        exact hnick j v hju hv1 hwv.symm
    · rcases set_cases _ _ _ _ _ hv with ⟨rfl, hv1⟩ | ⟨hju, hv1⟩
      · simp only [Option.some.injEq] at hv1
        subst hv1
        right
        rw [hwv]
        exact hnick i w hiu hw1 hwv
      · exact h.nick_inj i j w v hw1 hv1 hwv
  · intro i w hw
    rcases set_cases _ _ _ _ _ hw with ⟨rfl, hw1⟩ | ⟨_, hw1⟩
    · simp only [Option.some.injEq] at hw1
      subst hw1
      exact hge
    · exact h.channel_ge i w hw1

/-- Rewriting the user in slot `uid` with its nickname kept. -/
theorem UsersOk.users_set_same_nick {n : Nat} {fds : List Int} {users : List (Option user)}
    (h : UsersOk n fds users) (uid : Nat) (u u1 : user)
    (hu : users[uid]? = some (some u))
    (hfd : u1.fd = u.fd) (hidx : u1.index = u.index) (hnk : u1.nickname = u.nickname)
    (hge : -1 ≤ u1.channel)
    (hlen : u1.hostname.length < MAX_NAME_LEN ∧ u1.realname.length < MAX_NAME_LEN ∧
      u1.username.length < MAX_NAME_LEN) :
    UsersOk n fds (users.set uid (some u1)) := by
  refine h.users_set uid u u1 hu hfd hidx hge ⟨hlen.1, hlen.2.1, hlen.2.2, ?_⟩ ?_
  · rw [hnk]; exact (h.name_len uid u hu).2.2.2
  · intro j v hj hv hvn
    rw [hnk] at hvn ⊢
    rcases h.nick_inj j uid v u hv hu hvn with e | e
    · exact absurd e hj
    · rw [← hvn]; exact e

/-- Rewriting fields of the user in slot `uid` other than `channel` keeps the link
between the tables. -/
theorem LinkOk.link_set {users : List (Option user)} {chans : List (Option channel)}
    (h : LinkOk users chans) (uid : Nat) (u u1 : user)
    (hu : users[uid]? = some (some u)) (hch : u1.channel = u.channel) :
    LinkOk (users.set uid (some u1)) chans := by
  have hnew := set_at users uid (some u1) (some u) hu
  constructor
  · intro j c k f hc hk hf
    obtain ⟨w, hw, hwc⟩ := h.follower_ok j c k f hc hk hf
    by_cases hfu : f.toNat = uid
    · refine ⟨u1, ?_, ?_⟩
      · rw [hfu]; exact hnew
      · rw [hfu, hu] at hw
        simp only [Option.some.injEq] at hw
        subst hw
        rw [hch]; exact hwc
    · exact ⟨w, by rw [set_other _ _ _ _ hfu]; exact hw, hwc⟩
  · intro i w hw hwc
    rcases set_cases _ _ _ _ _ hw with ⟨rfl, hw1⟩ | ⟨_, hw1⟩
    · simp only [Option.some.injEq] at hw1
      subst hw1
      rw [hch] at hwc ⊢
      exact h.member_ok _ u hu hwc
    · exact h.member_ok i w hw1 hwc


theorem unfold_unfollow_cons (uid : Nat) (f : Int) (fs : List Int) :
    unfollow uid (f :: fs) = (if f = (uid : Int) then -1 else f) :: unfollow uid fs := rfl

theorem unfollow_get (uid : Nat) (fs : List Int) (k : Nat) (f : Int)
    (h : (unfollow uid fs)[k]? = some f) (hf : 0 ≤ f) : fs[k]? = some f ∧ f ≠ (uid : Int) := by
  simp only [unfollow, List.getElem?_map, Option.map_eq_some'] at h
  obtain ⟨g, hg, hgf⟩ := h
  by_cases e : g = (uid : Int)
  · rw [if_pos e] at hgf
    omega
  · rw [if_neg e] at hgf
    subst hgf
    exact ⟨hg, e⟩

theorem unfollow_get_of (uid : Nat) (fs : List Int) (k : Nat) (f : Int)
    (h : fs[k]? = some f) (hf : f ≠ (uid : Int)) : (unfollow uid fs)[k]? = some f := by
  simp [unfollow, List.getElem?_map, h, hf]

theorem unfollow_not_mem (uid : Nat) (fs : List Int) : (uid : Int) ∉ unfollow uid fs := by
  intro h
  simp only [unfollow, List.mem_map] at h
  obtain ⟨g, _, hg⟩ := h
  by_cases e : g = (uid : Int)
  · rw [if_pos e] at hg
    omega
  · rw [if_neg e] at hg
    exact e hg

theorem unfollow_mem (uid : Nat) (fs : List Int) (f : Int) (h : f ∈ fs) (hf : f ≠ (uid : Int)) :
    f ∈ unfollow uid fs := by
  simp only [unfollow, List.mem_map]
  exact ⟨f, h, by simp [hf]⟩

/-- Rewriting the followers of the channel in slot `cid` keeps the channel table well
formed, provided no index occurs twice among the new followers. -/
theorem ChansOk.chans_set {n : Nat} {chans : List (Option channel)} (h : ChansOk n chans)
    (cid : Nat) (c c1 : channel) (hc : chans[cid]? = some (some c))
    (hidx : c1.index = c.index) (hname : c1.channelname = c.channelname)
    (hlen : c1.follower.length = c.follower.length)
    (hinj : ∀ (k l : Nat) (f : Int), c1.follower[k]? = some f → c1.follower[l]? = some f →
      0 ≤ f → k = l) :
    ChansOk n (chans.set cid (some c1)) := by
  constructor
  · simpa using h.len_chans
  · intro j d hd
    rcases set_cases _ _ _ _ _ hd with ⟨rfl, hd1⟩ | ⟨_, hd1⟩
    · simp only [Option.some.injEq] at hd1
      subst hd1
      rw [hidx, hlen]
      exact h.chan_ok _ c hc
    · exact h.chan_ok j d hd1
  · intro j d k l f hd hk hl hf
    rcases set_cases _ _ _ _ _ hd with ⟨rfl, hd1⟩ | ⟨_, hd1⟩
    · simp only [Option.some.injEq] at hd1
      subst hd1
      exact hinj k l f hk hl hf
    · exact h.follower_inj j d k l f hd1 hk hl hf
  · intro j d hd
    rcases set_cases _ _ _ _ _ hd with ⟨rfl, hd1⟩ | ⟨_, hd1⟩
    · simp only [Option.some.injEq] at hd1
      subst hd1
      rw [hname]
      exact h.chan_len _ c hc
    · exact h.chan_len j d hd1
  · intro j l d e hd he hde
    rcases set_cases _ _ _ _ _ hd with ⟨rfl, hd1⟩ | ⟨hj, hd1⟩
    · rcases set_cases _ _ _ _ _ he with ⟨rfl, he1⟩ | ⟨hl, he1⟩
      · rfl
      · simp only [Option.some.injEq] at hd1
        subst hd1
        exact h.chan_inj _ l c e hc he1 (by rw [← hname]; exact hde)
    · rcases set_cases _ _ _ _ _ he with ⟨rfl, he1⟩ | ⟨hl, he1⟩
      · simp only [Option.some.injEq] at he1
        subst he1
        exact h.chan_inj j _ d c hd1 hc (by rw [← hname]; exact hde)
      · exact h.chan_inj j l d e hd1 he1 hde

/-- A new channel with no follower, stored in an empty slot under a name that no
channel has, keeps the channel table well formed. -/
theorem ChansOk.chans_create {n : Nat} {chans : List (Option channel)} (h : ChansOk n chans)
    (i : Nat) (name : List Char) (hi : chans[i]? = some none)
    (hlen : name.length < MAX_NAME_LEN)
    (hnew : ∀ (j : Nat) (c : channel), chans[j]? = some (some c) → c.channelname ≠ name) :
    ChansOk n (chans.set i
      (some { channelname := name, index := i, follower := List.replicate n (-1) })) := by
  constructor
  · simpa using h.len_chans
  · intro j d hd
    rcases set_cases _ _ _ _ _ hd with ⟨rfl, hd1⟩ | ⟨_, hd1⟩
    · simp only [Option.some.injEq] at hd1
      subst hd1
      simp
    · exact h.chan_ok j d hd1
  · intro j d k l f hd hk hl hf
    rcases set_cases _ _ _ _ _ hd with ⟨rfl, hd1⟩ | ⟨_, hd1⟩
    · simp only [Option.some.injEq] at hd1
      subst hd1
      simp only [List.getElem?_replicate] at hk
      split at hk
      · simp only [Option.some.injEq] at hk
        omega
      · simp at hk
    · exact h.follower_inj j d k l f hd1 hk hl hf
  · intro j d hd
    rcases set_cases _ _ _ _ _ hd with ⟨rfl, hd1⟩ | ⟨_, hd1⟩
    · simp only [Option.some.injEq] at hd1
      subst hd1
      exact hlen
    · exact h.chan_len j d hd1
  · intro j l d e hd he hde
    rcases set_cases _ _ _ _ _ hd with ⟨rfl, hd1⟩ | ⟨hj, hd1⟩
    · rcases set_cases _ _ _ _ _ he with ⟨rfl, he1⟩ | ⟨hl, he1⟩
      · rfl
      · simp only [Option.some.injEq] at hd1
        subst hd1
        exact absurd hde.symm (hnew l e he1)
    · rcases set_cases _ _ _ _ _ he with ⟨rfl, he1⟩ | ⟨hl, he1⟩
      · simp only [Option.some.injEq] at he1
        subst he1
        exact absurd hde (hnew j d hd1)
      · exact h.chan_inj j l d e hd1 he1 hde

/-- A new channel with no follower keeps the link between the tables. -/
theorem LinkOk.link_create {users : List (Option user)} {chans : List (Option channel)}
    (h : LinkOk users chans) (n i : Nat) (name : List Char) (hi : chans[i]? = some none) :
    LinkOk users (chans.set i
      (some { channelname := name, index := i, follower := List.replicate n (-1) })) := by
  constructor
  · intro j d k f hd hk hf
    rcases set_cases _ _ _ _ _ hd with ⟨rfl, hd1⟩ | ⟨_, hd1⟩
    · simp only [Option.some.injEq] at hd1
      subst hd1
      simp only [List.getElem?_replicate] at hk
      split at hk
      · simp only [Option.some.injEq] at hk
        omega
      · simp at hk
    · exact h.follower_ok j d k f hd1 hk hf
  · intro j w hw hwc
    obtain ⟨c, hc, hm⟩ := h.member_ok j w hw hwc
    have hne : w.channel.toNat ≠ i := by
      intro e
      rw [e, hi] at hc
      simp at hc
    exact ⟨c, by rw [set_other _ _ _ _ hne]; exact hc, hm⟩


/-- The effect of `handle_part` keeps the link between the tables. -/
theorem LinkOk.link_part {users : List (Option user)} {chans : List (Option channel)}
    (h : LinkOk users chans) (uid : Nat) (u u1 : user) (c : channel)
    (hU : users[uid]? = some (some u)) (hch : 0 ≤ u.channel)
    (hC : chans[u.channel.toNat]? = some (some c)) (hu1 : u1.channel = -1) :
    LinkOk (users.set uid (some u1))
      (chans.set u.channel.toNat (some { c with follower := unfollow uid c.follower })) := by
  constructor
  · intro j d k f hd hk hf
    rcases set_cases _ _ _ _ _ hd with ⟨rfl, hd1⟩ | ⟨hj, hd1⟩
    · simp only [Option.some.injEq] at hd1
      subst hd1
      obtain ⟨hk1, hne⟩ := unfollow_get uid c.follower k f hk hf
      obtain ⟨w, hw, hwc⟩ := h.follower_ok _ c k f hC hk1 hf
      have hfu : f.toNat ≠ uid := by omega
      exact ⟨w, by rw [set_other _ _ _ _ hfu]; exact hw, hwc⟩
    · obtain ⟨w, hw, hwc⟩ := h.follower_ok j d k f hd1 hk hf
      have hfu : f.toNat ≠ uid := by
        intro e
        rw [e, hU] at hw
        simp only [Option.some.injEq] at hw
        subst hw
        apply hj
        omega
      exact ⟨w, by rw [set_other _ _ _ _ hfu]; exact hw, hwc⟩
  · intro i w hw hwc
    rcases set_cases _ _ _ _ _ hw with ⟨rfl, hw1⟩ | ⟨hi, hw1⟩
    · simp only [Option.some.injEq] at hw1
      subst hw1
      omega
    · obtain ⟨d, hd, hm⟩ := h.member_ok i w hw1 hwc
      by_cases e : w.channel.toNat = u.channel.toNat
      · rw [e] at hd ⊢
        rw [hC] at hd
        simp only [Option.some.injEq] at hd
        subst hd
        refine ⟨_, set_at _ _ _ _ hC, ?_⟩
        exact unfollow_mem uid c.follower (i : Int) hm (by omega)
      · exact ⟨d, by rw [set_other _ _ _ _ e]; exact hd, hm⟩

theorem unfollow_inj {n : Nat} {chans : List (Option channel)} (h : ChansOk n chans)
    (cid uid : Nat) (c : channel) (hC : chans[cid]? = some (some c))
    (k l : Nat) (f : Int) (hk : (unfollow uid c.follower)[k]? = some f)
    (hl : (unfollow uid c.follower)[l]? = some f) (hf : 0 ≤ f) : k = l :=
  h.follower_inj cid c k l f hC (unfollow_get uid _ k f hk hf).1
    (unfollow_get uid _ l f hl hf).1 hf

/-- A user that follows no channel is in no follower array. -/
theorem LinkOk.not_follower {users : List (Option user)} {chans : List (Option channel)}
    (h : LinkOk users chans) (uid : Nat) (u : user) (hU : users[uid]? = some (some u))
    (hneg : u.channel < 0) (j : Nat) (c : channel) (hC : chans[j]? = some (some c)) :
    (uid : Int) ∉ c.follower := by
  intro hm
  obtain ⟨k, hk⟩ := List.mem_iff_getElem?.mp hm
  obtain ⟨w, hw, hwc⟩ := h.follower_ok j c k (uid : Int) hC hk (by omega)
  simp only [Int.toNat_ofNat] at hw
  rw [hU] at hw
  simp only [Option.some.injEq] at hw
  subst hw
  omega

theorem join_inj {n : Nat} {users : List (Option user)} {chans : List (Option channel)}
    (hc : ChansOk n chans) (h : LinkOk users chans) (uid cid i : Nat) (u : user) (c : channel)
    (hU : users[uid]? = some (some u)) (hneg : u.channel < 0)
    (hC : chans[cid]? = some (some c))
    (k l : Nat) (f : Int) (hk : (c.follower.set i (uid : Int))[k]? = some f)
    (hl : (c.follower.set i (uid : Int))[l]? = some f) (hf : 0 ≤ f) : k = l := by
  have hnot := h.not_follower uid u hU hneg cid c hC
  rcases set_cases _ _ _ _ _ hk with ⟨rfl, hk1⟩ | ⟨hki, hk1⟩
  · rcases set_cases _ _ _ _ _ hl with ⟨rfl, hl1⟩ | ⟨hli, hl1⟩
    · rfl
    · subst hk1
      exact absurd (List.mem_iff_getElem?.mpr ⟨l, hl1⟩) hnot
  · rcases set_cases _ _ _ _ _ hl with ⟨rfl, hl1⟩ | ⟨hli, hl1⟩
    · subst hl1
      exact absurd (List.mem_iff_getElem?.mpr ⟨k, hk1⟩) hnot
    · exact hc.follower_inj cid c k l f hC hk1 hl1 hf

/-- The effect of the loop "Add the follower" keeps the link between the tables. -/
theorem LinkOk.link_join {users : List (Option user)} {chans : List (Option channel)}
    (h : LinkOk users chans) (uid cid i : Nat) (u u1 : user) (c : channel) (f0 : Int)
    (hU : users[uid]? = some (some u)) (hneg : u.channel < 0)
    (hC : chans[cid]? = some (some c)) (hi : c.follower[i]? = some f0) (hf0 : f0 < 0)
    (hu1 : u1.channel = (cid : Int)) :
    LinkOk (users.set uid (some u1))
      (chans.set cid (some { c with follower := c.follower.set i (uid : Int) })) := by
  have hnewU := set_at users uid (some u1) (some u) hU
  have hnewC := set_at chans cid (some { c with follower := c.follower.set i (uid : Int) })
    (some c) hC
  constructor
  · intro j d k f hd hk hf
    rcases set_cases _ _ _ _ _ hd with ⟨rfl, hd1⟩ | ⟨hj, hd1⟩
    · simp only [Option.some.injEq] at hd1
      subst hd1
      rcases set_cases _ _ _ _ _ hk with ⟨rfl, hk1⟩ | ⟨hki, hk1⟩
      · subst hk1
        exact ⟨u1, by simpa using hnewU, hu1⟩
      · obtain ⟨w, hw, hwc⟩ := h.follower_ok _ c k f hC hk1 hf
        have hfu : f.toNat ≠ uid := by
          intro e
          rw [e, hU] at hw
          simp only [Option.some.injEq] at hw
          subst hw
          omega
        exact ⟨w, by rw [set_other _ _ _ _ hfu]; exact hw, hwc⟩
    · obtain ⟨w, hw, hwc⟩ := h.follower_ok j d k f hd1 hk hf
      have hfu : f.toNat ≠ uid := by
        intro e
        rw [e, hU] at hw
        simp only [Option.some.injEq] at hw
        subst hw
        omega
      exact ⟨w, by rw [set_other _ _ _ _ hfu]; exact hw, hwc⟩
  · intro j w hw hwc
    rcases set_cases _ _ _ _ _ hw with ⟨rfl, hw1⟩ | ⟨hj, hw1⟩
    · simp only [Option.some.injEq] at hw1
      subst hw1
      refine ⟨_, by rw [hu1]; simpa using hnewC, ?_⟩
      exact List.mem_iff_getElem?.mpr ⟨i, set_at _ _ _ _ hi⟩
    · obtain ⟨d, hd, hm⟩ := h.member_ok j w hw1 hwc
      by_cases e : w.channel.toNat = cid
      · rw [e] at hd ⊢
        rw [hC] at hd
        simp only [Option.some.injEq] at hd
        subst hd
        refine ⟨_, hnewC, ?_⟩
        obtain ⟨k, hk⟩ := List.mem_iff_getElem?.mp hm
        have hki : k ≠ i := by
          intro e2
          rw [e2, hi] at hk
          simp only [Option.some.injEq] at hk
          omega
        exact List.mem_iff_getElem?.mpr ⟨k, by rw [set_other _ _ _ _ hki]; exact hk⟩
      · exact ⟨d, by rw [set_other _ _ _ _ e]; exact hd, hm⟩

/-- The effect of `add_client`, on a descriptor that is not in the table, keeps
the user table well formed. -/
theorem UsersOk.users_add {n : Nat} {fds : List Int} {users : List (Option user)}
    (h : UsersOk n fds users) (i : Nat) (connfd f0 : Int) (hi : fds[i]? = some f0)
    (hf0 : f0 < 0) (hc : 0 ≤ connfd) (hfresh : connfd ∉ fds) :
    users[i]? = some none ∧
    UsersOk n (fds.set i connfd) (users.set i
      (some { hostname := ANONYMOUS, realname := ANONYMOUS, username := ANONYMOUS,
              nickname := ANONYMOUS, fd := connfd, index := i, channel := -1 })) := by
  have hlt : i < fds.length := by
    rcases List.getElem?_eq_some.mp hi with ⟨hl, _⟩; exact hl
  have hnone : users[i]? = some none := by
    have hlt2 : i < users.length := by rw [h.len_users, ← h.len_fd]; exact hlt
    cases hx : users[i]? with
    | none => simp at hx; omega
    | some x =>
      cases x with
      | none => rfl
      | some w =>
        have := (h.user_ok i w hx).2
        rw [hi] at this
        simp only [Option.some.injEq] at this
        omega
  refine ⟨hnone, ?_⟩
  constructor
  · simpa using h.len_fd
  · simpa using h.len_users
  · intro j w hw
    rcases set_cases _ _ _ _ _ hw with ⟨rfl, hw1⟩ | ⟨hj, hw1⟩
    · simp only [Option.some.injEq] at hw1
      subst hw1
      exact ⟨rfl, set_at _ _ _ _ hi, hc⟩
    · rw [set_other _ _ _ _ hj]
      exact h.user_ok j w hw1
  · intro j hj
    rcases set_cases _ _ _ _ _ hj with ⟨rfl, hw1⟩ | ⟨hji, hw1⟩
    · simp at hw1
    · rw [set_other _ _ _ _ hji]
      exact h.free_ok j hw1
  · intro j l w v hw hv hwv
    rcases set_cases _ _ _ _ _ hw with ⟨rfl, hw1⟩ | ⟨hj, hw1⟩
    · rcases set_cases _ _ _ _ _ hv with ⟨rfl, hv1⟩ | ⟨hl, hv1⟩
      · rfl
      · simp only [Option.some.injEq] at hw1
        subst hw1
        have := (h.user_ok l v hv1).2.1
        exact absurd (List.mem_iff_getElem?.mpr ⟨l, by rw [this, ← hwv]⟩) hfresh
    · rcases set_cases _ _ _ _ _ hv with ⟨rfl, hv1⟩ | ⟨hl, hv1⟩
      · simp only [Option.some.injEq] at hv1
        subst hv1
        have := (h.user_ok j w hw1).2.1
        exact absurd (List.mem_iff_getElem?.mpr ⟨j, by rw [this, hwv]⟩) hfresh
      · exact h.fd_inj j l w v hw1 hv1 hwv
  · intro j w hw
    rcases set_cases _ _ _ _ _ hw with ⟨rfl, hw1⟩ | ⟨hj, hw1⟩
    · simp only [Option.some.injEq] at hw1
      subst hw1
      simp [ANONYMOUS, MAX_NAME_LEN]
    · exact h.name_len j w hw1
  · intro j l w v hw hv hwv
    rcases set_cases _ _ _ _ _ hw with ⟨rfl, hw1⟩ | ⟨hj, hw1⟩
    · simp only [Option.some.injEq] at hw1
      subst hw1
      right; rfl
    · rcases set_cases _ _ _ _ _ hv with ⟨rfl, hv1⟩ | ⟨hl, hv1⟩
      · simp only [Option.some.injEq] at hv1
        subst hv1
        right; exact hwv
      · exact h.nick_inj j l w v hw1 hv1 hwv
  · intro j w hw
    rcases set_cases _ _ _ _ _ hw with ⟨rfl, hw1⟩ | ⟨hj, hw1⟩
    · simp only [Option.some.injEq] at hw1
      subst hw1
      simp
    · exact h.channel_ge j w hw1

/-- A new user that follows no channel, stored in an empty slot, keeps the link
between the tables. -/
theorem LinkOk.link_add {users : List (Option user)} {chans : List (Option channel)}
    (h : LinkOk users chans) (i : Nat) (unew : user) (hi : users[i]? = some none)
    (hch : unew.channel = -1) :
    LinkOk (users.set i (some unew)) chans := by
  constructor
  · intro j d k f hd hk hf
    obtain ⟨w, hw, hwc⟩ := h.follower_ok j d k f hd hk hf
    have hfu : f.toNat ≠ i := by
      intro e
      rw [e, hi] at hw
      simp at hw
    exact ⟨w, by rw [set_other _ _ _ _ hfu]; exact hw, hwc⟩
  · intro j w hw hwc
    rcases set_cases _ _ _ _ _ hw with ⟨rfl, hw1⟩ | ⟨hj, hw1⟩
    · simp only [Option.some.injEq] at hw1
      subst hw1
      omega
    · exact h.member_ok j w hw1 hwc

/-- Emptying the slot of a user keeps the user table well formed. -/
theorem UsersOk.users_remove {n : Nat} {fds : List Int} {users : List (Option user)}
    (h : UsersOk n fds users) (uid : Nat) (u : user) (hU : users[uid]? = some (some u)) :
    UsersOk n (fds.set uid (-1)) (users.set uid none) := by
  have hfd := (h.user_ok uid u hU).2.1
  constructor
  · simpa using h.len_fd
  · simpa using h.len_users
  · intro j w hw
    rcases set_cases _ _ _ _ _ hw with ⟨rfl, hw1⟩ | ⟨hj, hw1⟩
    · simp at hw1
    · rw [set_other _ _ _ _ hj]
      exact h.user_ok j w hw1
  · intro j hj
    by_cases e : j = uid
    · subst e
      exact set_at _ _ _ _ hfd
    · rw [set_other _ _ _ _ e] at hj ⊢
      exact h.free_ok j hj
  · intro j l w v hw hv hwv
    rcases set_cases _ _ _ _ _ hw with ⟨rfl, hw1⟩ | ⟨hj, hw1⟩
    · simp at hw1
    · rcases set_cases _ _ _ _ _ hv with ⟨rfl, hv1⟩ | ⟨hl, hv1⟩
      · simp at hv1
      · exact h.fd_inj j l w v hw1 hv1 hwv
  · intro j w hw
    rcases set_cases _ _ _ _ _ hw with ⟨rfl, hw1⟩ | ⟨hj, hw1⟩
    · simp at hw1
    · exact h.name_len j w hw1
  · intro j l w v hw hv hwv
    rcases set_cases _ _ _ _ _ hw with ⟨rfl, hw1⟩ | ⟨hj, hw1⟩
    · simp at hw1
    · rcases set_cases _ _ _ _ _ hv with ⟨rfl, hv1⟩ | ⟨hl, hv1⟩
      · simp at hv1
      · exact h.nick_inj j l w v hw1 hv1 hwv
  · intro j w hw
    rcases set_cases _ _ _ _ _ hw with ⟨rfl, hw1⟩ | ⟨hj, hw1⟩
    · simp at hw1
    · exact h.channel_ge j w hw1

/-- Emptying the slot of a user that follows no channel keeps the link between the
tables. -/
theorem LinkOk.link_remove {users : List (Option user)} {chans : List (Option channel)}
    (h : LinkOk users chans) (uid : Nat) (u : user) (hU : users[uid]? = some (some u))
    (hneg : u.channel < 0) :
    LinkOk (users.set uid none) chans := by
  constructor
  · intro j d k f hd hk hf
    obtain ⟨w, hw, hwc⟩ := h.follower_ok j d k f hd hk hf
    have hfu : f.toNat ≠ uid := by
      intro e
      rw [e, hU] at hw
      simp only [Option.some.injEq] at hw
      subst hw
      omega
    exact ⟨w, by rw [set_other _ _ _ _ hfu]; exact hw, hwc⟩
  · intro j w hw hwc
    rcases set_cases _ _ _ _ _ hw with ⟨rfl, hw1⟩ | ⟨hj, hw1⟩
    · simp at hw1
    · exact h.member_ok j w hw1 hwc


/-! ## Handlers that only write -/

theorem wire_only.refl (s : Server) : wire_only s s := ⟨rfl, rfl, rfl⟩

theorem wire_only.trans {s s1 s2 : Server} (h1 : wire_only s s1) (h2 : wire_only s1 s2) :
    wire_only s s2 :=
  ⟨h2.1.trans h1.1, h2.2.1.trans h1.2.1, h2.2.2.trans h1.2.2⟩

theorem Inv.of_wire_only {n : Nat} {s s1 : Server} (h : Inv n s) (hw : wire_only s s1) :
    Inv n s1 := by
  unfold Inv at *
  rw [hw.1, hw.2.1, hw.2.2]
  exact h

theorem reply_eq_ok {s s1 : Server} {fd : Int} {rep : List Char}
    (h : reply s fd rep = Outcome.ok s1) :
    rep.length < MAXLINE ∧ s1 = { s with wire := s.wire ++ [Syscall.writen fd rep] } := by
  unfold reply at h
  split at h
  · rename_i hlt
    simp only [Outcome.ok.injEq] at h
    exact ⟨hlt, h.symm⟩
  · simp at h

theorem reply_ok_of_lt (s : Server) (fd : Int) (rep : List Char) (h : rep.length < MAXLINE) :
    reply s fd rep = Outcome.ok { s with wire := s.wire ++ [Syscall.writen fd rep] } := by
  simp [reply, h]

theorem reply_wire_only {s s1 : Server} {fd : Int} {rep : List Char}
    (h : reply s fd rep = Outcome.ok s1) : wire_only s s1 := by
  obtain ⟨_, rfl⟩ := reply_eq_ok h
  exact ⟨rfl, rfl, rfl⟩

theorem for_each_wire_only {α : Type} (body : Server → α → Outcome Server)
    (hb : ∀ (s : Server) (a : α) (s1 : Server), body s a = Outcome.ok s1 → wire_only s s1) :
    ∀ (l : List α) (s s1 : Server), for_each body l s = Outcome.ok s1 → wire_only s s1 := by
  intro l
  induction l with
  | nil =>
    intro s s1 h
    simp only [for_each, Outcome.ok.injEq] at h
    subst h
    exact wire_only.refl s
  | cons a rest ih =>
    intro s s1 h
    simp only [for_each] at h
    obtain ⟨s2, h2, h3⟩ := Outcome.bind_eq_ok.mp h
    exact (hb s a s2 h2).trans (ih s2 s1 h3)

theorem motd_wire_only {s s1 : Server} {fd : Int} {hostname nickname : List Char}
    (h : motd s fd hostname nickname = Outcome.ok s1) : wire_only s s1 := by
  unfold motd at h
  obtain ⟨s2, h2, h⟩ := Outcome.bind_eq_ok.mp h
  obtain ⟨s3, h3, h⟩ := Outcome.bind_eq_ok.mp h
  exact (reply_wire_only h2).trans ((reply_wire_only h3).trans (reply_wire_only h))

theorem who_row_wire_only (fd : Int) (s : Server) (m_id : Int) (s1 : Server)
    (h : who_row fd s m_id = Outcome.ok s1) : wire_only s s1 := by
  unfold who_row at h
  split at h
  · obtain ⟨mate, _, h⟩ := Outcome.bind_eq_ok.mp h
    exact reply_wire_only h
  · simp only [Outcome.ok.injEq] at h
    subst h
    exact wire_only.refl s

theorem handle_who_wire_only {s s1 : Server} {fd : Int} {channelname name0 : List Char}
    (h : handle_who s fd channelname name0 = Outcome.ok s1) : wire_only s s1 := by
  unfold handle_who at h
  obtain ⟨name, _, h⟩ := Outcome.bind_eq_ok.mp h
  split at h
  · simp at h
  · split at h
    · exact reply_wire_only h
    · obtain ⟨s2, h2, h⟩ := Outcome.bind_eq_ok.mp h
      obtain ⟨s3, h3, h⟩ := Outcome.bind_eq_ok.mp h
      obtain ⟨s4, h4, h⟩ := Outcome.bind_eq_ok.mp h
      exact (reply_wire_only h2).trans (((for_each_wire_only _ (who_row_wire_only fd) _ _ _ h3).trans
        (reply_wire_only h4)).trans (reply_wire_only h))

theorem list_row_wire_only (fd : Int) (u : user) (s : Server) (slot : Option channel)
    (s1 : Server) (h : list_row fd u s slot = Outcome.ok s1) : wire_only s s1 := by
  unfold list_row at h
  split at h
  · exact reply_wire_only h
  · simp only [Outcome.ok.injEq] at h
    subst h
    exact wire_only.refl s

theorem handle_list_wire_only {s s1 : Server} {fd : Int}
    (h : handle_list s fd = Outcome.ok s1) : wire_only s s1 := by
  unfold handle_list at h
  split at h
  · simp at h
  · obtain ⟨s2, h2, h⟩ := Outcome.bind_eq_ok.mp h
    obtain ⟨s3, h3, h⟩ := Outcome.bind_eq_ok.mp h
    obtain ⟨s4, h4, h⟩ := Outcome.bind_eq_ok.mp h
    exact (reply_wire_only h2).trans (((for_each_wire_only _ (list_row_wire_only fd _) _ _ _ h3).trans
      (reply_wire_only h4)).trans (reply_wire_only h))

theorem privmsg_relay_wire_only (line : List Char) (s : Server) (f : Int) (s1 : Server)
    (h : privmsg_relay line s f = Outcome.ok s1) : wire_only s s1 := by
  unfold privmsg_relay at h
  split at h
  · obtain ⟨mate, _, h⟩ := Outcome.bind_eq_ok.mp h
    exact reply_wire_only h
  · simp only [Outcome.ok.injEq] at h
    subst h
    exact wire_only.refl s

theorem privmsg_target_wire_only (fd : Int) (sender : user) (msg : List Char) (s : Server)
    (entry : List Char) (s1 : Server)
    (h : privmsg_target fd sender msg s entry = Outcome.ok s1) : wire_only s s1 := by
  unfold privmsg_target at h
  simp only at h
  split at h
  · exact for_each_wire_only _ (privmsg_relay_wire_only _) _ _ _ h
  · split at h
    · obtain ⟨s2, h2, h⟩ := Outcome.bind_eq_ok.mp h
      exact (reply_wire_only h2).trans (reply_wire_only h)
    · exact reply_wire_only h

theorem handle_privmsg_wire_only {s s1 : Server} {fd : Int} {to_nick msg : List Char}
    (h : handle_privmsg s fd to_nick msg = Outcome.ok s1) : wire_only s s1 := by
  unfold handle_privmsg at h
  simp only at h
  split at h
  · simp at h
  · split at h
    · exact for_each_wire_only _ (privmsg_target_wire_only _ _ _) _ _ _ h
    · simp at h

theorem transfer_wire_only (msg : List Char) (n : Nat) (s : Server) (connfd : Int)
    (s1 : Server) (h : transfer msg n s connfd = Outcome.ok s1) : wire_only s s1 := by
  unfold transfer at h
  split at h <;>
  · simp only [Outcome.ok.injEq] at h
    subst h
    exact ⟨rfl, rfl, rfl⟩


/-! ## Handlers that change the tables -/

theorem sizeof_check : ¬ (MAX_NAME_LEN < sizeof_char_ptr) := by decide

theorem find_user_by_fd_some {s : Server} {fd : Int} {uid : Nat} {u : user}
    (h : find_user_by_fd s fd = some (uid, u)) :
    s.user_list[uid]? = some (some u) ∧ u.fd = fd := by
  obtain ⟨h1, h2, _⟩ := find_first_some _ _ _ _ h
  exact ⟨h1, by simpa using h2⟩

/-- What `handle_nick` does when it returns. -/
theorem handle_nick_cases {s s1 : Server} {fd : Int} {nickname : List Char}
    (h : handle_nick s fd nickname = Outcome.ok s1) :
    ∃ (uid : Nat) (u : user), find_user_by_fd s fd = some (uid, u) ∧
      (((∃ (k : Nat) (v : user), find_user_by_nick s (get_msg nickname nickname).2 = some (k, v)
            ∧ v.fd ≠ fd) ∧
          s1 = { s with wire := s.wire ++ [Syscall.writen fd "NICKNAMEINUSE\r\n".toList] }) ∨
       ((∀ (k : Nat) (v : user), find_user_by_nick s (get_msg nickname nickname).2 = some (k, v)
            → v.fd = fd) ∧
          (get_msg nickname nickname).2.length < MAX_NAME_LEN ∧
          wire_only { s with user_list := (s.user_list.set uid
            (some { u with nickname := (get_msg nickname nickname).2 })) } s1)) := by
  unfold handle_nick at h
  rw [if_neg sizeof_check] at h
  split at h
  · simp at h
  · rename_i uid u hfind
    refine ⟨uid, u, hfind, ?_⟩
    simp only at h
    split at h
    · rename_i hin
      left
      constructor
      · split at hin
        · rename_i k v hk
          exact ⟨k, v, hk, by simpa using hin⟩
        · simp at hin
      · exact (reply_eq_ok h).2
    · rename_i hin
      right
      split at h
      · simp at h
      · rename_i hlen
        refine ⟨?_, by omega, ?_⟩
        · intro k v hk
          rw [hk] at hin
          simpa using hin
        · split at h
          · exact motd_wire_only h
          · simp only [Outcome.ok.injEq] at h
            subst h
            exact wire_only.refl _

theorem find_user_by_nick_some {s : Server} {nick : List Char} {k : Nat} {v : user}
    (h : find_user_by_nick s nick = some (k, v)) :
    s.user_list[k]? = some (some v) ∧ v.nickname = nick := by
  obtain ⟨h1, h2, _⟩ := find_first_some _ _ _ _ h
  exact ⟨h1, by simpa using h2⟩

theorem find_user_by_nick_isSome {s : Server} {nick : List Char} {j : Nat} {v : user}
    (hv : s.user_list[j]? = some (some v)) (hn : v.nickname = nick) :
    ∃ (k : Nat) (w : user), find_user_by_nick s nick = some (k, w) := by
  cases hf : find_user_by_nick s nick with
  | none =>
    have := find_first_none _ _ hf j v hv
    simp [hn] at this
  | some r => exact ⟨r.1, r.2, rfl⟩

theorem handle_nick_inv {n : Nat} {s s1 : Server} {fd : Int} {nickname : List Char}
    (hi : Inv n s) (h : handle_nick s fd nickname = Outcome.ok s1) : Inv n s1 := by
  obtain ⟨uid, u, hfind, hc⟩ := handle_nick_cases h
  obtain ⟨hU, hfd⟩ := find_user_by_fd_some hfind
  rcases hc with ⟨_, rfl⟩ | ⟨hfree, hlen, hw⟩
  · exact hi
  · refine Inv.of_wire_only ?_ hw
    have hnl := hi.users_ok.name_len uid u hU
    refine ⟨hi.users_ok.users_set uid u _ hU rfl rfl (hi.users_ok.channel_ge uid u hU)
        ⟨hnl.1, hnl.2.1, hnl.2.2.1, hlen⟩ ?_,
      hi.chans_ok, hi.link_ok.link_set uid u _ hU rfl⟩
    intro j v hj hv hvn
    obtain ⟨k, w, hk⟩ := find_user_by_nick_isSome hv hvn
    have hwfd := hfree k w hk
    obtain ⟨hW, hwn⟩ := find_user_by_nick_some hk
    have hku : k = uid := hi.users_ok.fd_inj k uid w u hW hU (by rw [hwfd, hfd])
    subst hku
    rw [hU] at hW
    simp only [Option.some.injEq] at hW
    subst hW
    show (get_msg nickname nickname).2 = ANONYMOUS
    rcases hi.users_ok.nick_inj j k v u hv hU (by rw [hvn]; exact hwn.symm) with e | e
    · exact absurd e hj
    · rw [← e]; exact hvn.symm

/-- What `handle_user` does when it returns. -/
theorem handle_user_cases {s s1 : Server} {fd : Int} {username hostname realname : List Char}
    (h : handle_user s fd username hostname realname = Outcome.ok s1) :
    ∃ (uid : Nat) (u : user), find_user_by_fd s fd = some (uid, u) ∧
      username.length < MAX_NAME_LEN ∧ hostname.length < MAX_NAME_LEN ∧
      realname.length < MAX_NAME_LEN ∧
      wire_only { s with user_list := (s.user_list.set uid
        (some { u with username := username, hostname := hostname, realname := realname })) }
        s1 := by
  unfold handle_user at h
  rw [if_neg sizeof_check, if_neg sizeof_check, if_neg sizeof_check] at h
  split at h
  · simp at h
  · rename_i uid u hfind
    refine ⟨uid, u, hfind, ?_⟩
    split at h
    · simp at h
    · split at h
      · simp at h
      · split at h
        · simp at h
        · refine ⟨by omega, by omega, by omega, ?_⟩
          simp only at h
          split at h
          · exact motd_wire_only h
          · simp only [Outcome.ok.injEq] at h
            subst h
            exact wire_only.refl _

theorem handle_user_inv {n : Nat} {s s1 : Server} {fd : Int}
    {username hostname realname : List Char}
    (hi : Inv n s) (h : handle_user s fd username hostname realname = Outcome.ok s1) :
    Inv n s1 := by
  obtain ⟨uid, u, hfind, h1, h2, h3, hw⟩ := handle_user_cases h
  obtain ⟨hU, hfd⟩ := find_user_by_fd_some hfind
  refine Inv.of_wire_only ?_ hw
  exact ⟨hi.users_ok.users_set_same_nick uid u _ hU rfl rfl rfl
      (hi.users_ok.channel_ge uid u hU) ⟨h2, h3, h1⟩,
    hi.chans_ok, hi.link_ok.link_set uid u _ hU rfl⟩


theorem user_at_eq_ok {s : Server} {i : Int} {u : user} (h : user_at s i = Outcome.ok u) :
    0 ≤ i ∧ s.user_list[i.toNat]? = some (some u) := by
  unfold user_at at h
  split at h
  · rename_i hi
    split at h
    · rename_i v hv
      simp only [Outcome.ok.injEq] at h
      subst h
      exact ⟨hi, hv⟩
    · simp at h
  · simp at h

theorem channel_at_eq_ok {s : Server} {i : Int} {c : channel}
    (h : channel_at s i = Outcome.ok c) :
    0 ≤ i ∧ s.channel_list[i.toNat]? = some (some c) := by
  unfold channel_at at h
  split at h
  · rename_i hi
    split at h
    · rename_i v hv
      simp only [Outcome.ok.injEq] at h
      subst h
      exact ⟨hi, hv⟩
    · simp at h
  · simp at h

theorem handle_part_loop_ok (u : user) (fd : Int) (c : channel) :
    ∀ (fs : List Int) (s : Server) (r : List Int × Server),
      handle_part_loop u fd c fs s = Outcome.ok r →
      r.1 = unfollow u.index fs ∧ wire_only s r.2 := by
  intro fs
  induction fs with
  | nil =>
    intro s r h
    simp only [handle_part_loop, Outcome.ok.injEq] at h
    subst h
    exact ⟨rfl, wire_only.refl s⟩
  | cons f rest ih =>
    intro s r h
    simp only [handle_part_loop] at h
    split at h
    · split at h
      · rename_i hf
        obtain ⟨s2, h2, h⟩ := Outcome.bind_eq_ok.mp h
        obtain ⟨r2, h3, h⟩ := Outcome.bind_eq_ok.mp h
        simp only [Outcome.ok.injEq] at h
        subst h
        obtain ⟨e1, e2⟩ := ih s2 r2 h3
        exact ⟨by simp [unfold_unfollow_cons, hf, e1], (reply_wire_only h2).trans e2⟩
      · rename_i hf
        obtain ⟨mate, _, h⟩ := Outcome.bind_eq_ok.mp h
        obtain ⟨s2, h2, h⟩ := Outcome.bind_eq_ok.mp h
        obtain ⟨r2, h3, h⟩ := Outcome.bind_eq_ok.mp h
        simp only [Outcome.ok.injEq] at h
        subst h
        obtain ⟨e1, e2⟩ := ih s2 r2 h3
        exact ⟨by simp [unfold_unfollow_cons, hf, e1], (reply_wire_only h2).trans e2⟩
    · rename_i hf
      obtain ⟨r2, h3, h⟩ := Outcome.bind_eq_ok.mp h
      simp only [Outcome.ok.injEq] at h
      subst h
      obtain ⟨e1, e2⟩ := ih s r2 h3
      refine ⟨?_, e2⟩
      have : f ≠ (u.index : Int) := by omega
      simp [unfold_unfollow_cons, this, e1]

/-- What `handle_part` does when it returns. -/
theorem handle_part_cases {s s1 : Server} {fd : Int}
    (h : handle_part s fd = Outcome.ok s1) :
    ∃ (uid : Nat) (u : user), find_user_by_fd s fd = some (uid, u) ∧
      ((u.channel < 0 ∧ s1 = { s with wire := s.wire ++
          [Syscall.writen fd "PART: You have not followed a channel\r\n".toList] }) ∨
       (0 ≤ u.channel ∧ ∃ c : channel, s.channel_list[u.channel.toNat]? = some (some c) ∧
          s1.p = s.p ∧
          s1.user_list = s.user_list.set uid (some { u with channel := -1 }) ∧
          s1.channel_list = s.channel_list.set u.channel.toNat
            (some { c with follower := unfollow u.index c.follower }))) := by
  unfold handle_part at h
  split at h
  · simp at h
  · rename_i uid u hfind
    refine ⟨uid, u, hfind, ?_⟩
    split at h
    · rename_i hneg
      left
      exact ⟨hneg, (reply_eq_ok h).2⟩
    · rename_i hpos
      right
      simp only at h
      obtain ⟨c, hc, h⟩ := Outcome.bind_eq_ok.mp h
      obtain ⟨r, hr, h⟩ := Outcome.bind_eq_ok.mp h
      simp only [Outcome.ok.injEq] at h
      obtain ⟨hc0, hc1⟩ := channel_at_eq_ok hc
      obtain ⟨e1, e2⟩ := handle_part_loop_ok _ _ _ _ _ _ hr
      refine ⟨by omega, c, hc1, ?_, ?_, ?_⟩
      · rw [← h]; exact e2.1
      · rw [← h]; exact e2.2.1
      · rw [← h]
        show r.2.channel_list.set _ _ = _
        rw [e2.2.2, e1]

theorem handle_part_inv {n : Nat} {s s1 : Server} {fd : Int}
    (hi : Inv n s) (h : handle_part s fd = Outcome.ok s1) : Inv n s1 := by
  obtain ⟨uid, u, hfind, hc⟩ := handle_part_cases h
  obtain ⟨hU, hfd⟩ := find_user_by_fd_some hfind
  rcases hc with ⟨_, rfl⟩ | ⟨hpos, c, hC, hp, hul, hcl⟩
  · exact hi
  · have hidx := (hi.users_ok.user_ok uid u hU).1
    have hnl := hi.users_ok.name_len uid u hU
    have hunf : unfollow u.index c.follower = unfollow uid c.follower := by rw [hidx]
    unfold Inv
    rw [hp, hul, hcl, hunf]
    refine ⟨hi.users_ok.users_set_same_nick uid u _ hU rfl rfl rfl (by simp)
        ⟨hnl.1, hnl.2.1, hnl.2.2.1⟩,
      ?_, hi.link_ok.link_part uid u _ c hU hpos hC rfl⟩
    exact hi.chans_ok.chans_set _ c _ hC rfl rfl (by simp [unfollow])
      (fun k l f hk hl hf => unfollow_inj hi.chans_ok _ uid c hC k l f hk hl hf)

/-- After `handle_part` the caller follows no channel. -/
theorem handle_part_channel {s s1 : Server} {fd : Int} {uid : Nat} {u : user}
    (h : handle_part s fd = Outcome.ok s1) (hfind : find_user_by_fd s fd = some (uid, u)) :
    ∃ u1 : user, s1.user_list[uid]? = some (some u1) ∧ u1.channel < 0 ∧
      find_user_by_fd s1 fd = some (uid, u1) := by
  obtain ⟨uid0, u0, hfind0, hc⟩ := handle_part_cases h
  rw [hfind] at hfind0
  simp only [Option.some.injEq, Prod.mk.injEq] at hfind0
  obtain ⟨rfl, rfl⟩ := hfind0
  obtain ⟨hU, hfd⟩ := find_user_by_fd_some hfind
  rcases hc with ⟨hneg, rfl⟩ | ⟨hpos, c, hC, hp, hul, hcl⟩
  · exact ⟨u, hU, hneg, hfind⟩
  · refine ⟨{ u with channel := -1 }, ?_, by simp, ?_⟩
    · rw [hul]; exact set_at _ _ _ _ hU
    · obtain ⟨h1, h2, h3⟩ := find_first_some _ _ _ _ hfind
      unfold find_user_by_fd
      rw [hul]
      apply find_first_of_first
      · exact set_at _ _ _ _ hU
      · simpa using h2
      · intro j b hj hb
        rw [set_other _ _ _ _ (by omega)] at hb
        exact h3 j b hj hb


/-- What `handle_quit` does when it returns. -/
theorem handle_quit_cases {s s1 : Server} {fd : Int}
    (h : handle_quit s fd = Outcome.ok s1) :
    ∃ (s0 : Server) (uid : Nat) (u1 : user), handle_part s fd = Outcome.ok s0 ∧
      find_user_by_fd s0 fd = some (uid, u1) ∧ u1.channel < 0 ∧
      s1.p.clientfd = s0.p.clientfd.set uid (-1) ∧
      s1.p.read_set = s0.p.read_set.filter (fun x => decide (x ≠ fd)) ∧
      s1.user_list = s0.user_list.set uid none ∧
      s1.channel_list = s0.channel_list ∧
      s1.wire = s0.wire ++ [Syscall.close fd] := by
  unfold handle_quit at h
  obtain ⟨s0, h0, h⟩ := Outcome.bind_eq_ok.mp h
  obtain ⟨uid, u, hfind, _⟩ := handle_part_cases h0
  obtain ⟨u1, hU1, hneg, hfind1⟩ := handle_part_channel h0 hfind
  rw [hfind1] at h
  simp only [Outcome.ok.injEq] at h
  subst h
  exact ⟨s0, uid, u1, h0, hfind1, hneg, rfl, rfl, rfl, rfl, rfl⟩

theorem handle_quit_inv {n : Nat} {s s1 : Server} {fd : Int}
    (hi : Inv n s) (h : handle_quit s fd = Outcome.ok s1) : Inv n s1 := by
  obtain ⟨s0, uid, u1, h0, hfind, hneg, e1, _, e2, e3, _⟩ := handle_quit_cases h
  have hi0 := handle_part_inv hi h0
  obtain ⟨hU, _⟩ := find_user_by_fd_some hfind
  unfold Inv
  rw [e1, e2, e3]
  exact ⟨hi0.users_ok.users_remove uid u1 hU, hi0.chans_ok, hi0.link_ok.link_remove uid u1 hU hneg⟩

/-- What `add_client` does when it returns. -/
theorem add_client_cases {s s1 : Server} {connfd : Int}
    (h : add_client s connfd = Outcome.ok s1) :
    ∃ (i : Nat) (f0 : Int), first_index (fun c => decide (c < 0)) s.p.clientfd = some i ∧
      s.p.clientfd[i]? = some f0 ∧ f0 < 0 ∧
      s1.p.clientfd = s.p.clientfd.set i connfd ∧
      s1.p.read_set = connfd :: s.p.read_set ∧
      s1.user_list = s.user_list.set i
        (some { hostname := ANONYMOUS, realname := ANONYMOUS, username := ANONYMOUS,
                nickname := ANONYMOUS, fd := connfd, index := i, channel := -1 }) ∧
      s1.channel_list = s.channel_list ∧ s1.wire = s.wire := by
  unfold add_client at h
  simp only at h
  split at h
  · rename_i i hi
    obtain ⟨⟨f0, hf0, hneg⟩, _⟩ := first_index_some _ _ _ hi
    refine ⟨i, f0, hi, hf0, by simpa using hneg, ?_⟩
    simp only [Outcome.ok.injEq] at h
    subst h
    simp only [init_user]
    split <;> split <;> simp
  · simp at h

theorem add_client_inv {n : Nat} {s s1 : Server} {connfd : Int}
    (hi : Inv n s) (hc : 0 ≤ connfd) (hfresh : connfd ∉ s.p.clientfd)
    (h : add_client s connfd = Outcome.ok s1) : Inv n s1 := by
  obtain ⟨i, f0, _, hf0, hneg, e1, _, e2, e3, _⟩ := add_client_cases h
  obtain ⟨hnone, hu⟩ := hi.users_ok.users_add i connfd f0 hf0 hneg hc hfresh
  unfold Inv
  rw [e1, e2, e3]
  exact ⟨hu, hi.chans_ok, hi.link_ok.link_add i _ hnone rfl⟩

theorem local_name_len {channelname name0 name : List Char}
    (h : local_name channelname name0 = Outcome.ok name) : name.length < MAX_NAME_LEN := by
  unfold local_name at h
  split at h
  · simp at h
  · simp only [Nat.not_lt_zero, if_false] at h
    split at h
    · simp at h
    · rename_i hlen
      simp only [Outcome.ok.injEq] at h
      subst h
      omega

theorem find_channel_by_name_some {s : Server} {name : List Char} {cid : Nat} {c : channel}
    (h : find_channel_by_name s name = some (cid, c)) :
    s.channel_list[cid]? = some (some c) ∧ c.channelname = name := by
  obtain ⟨h1, h2, _⟩ := find_first_some _ _ _ _ h
  exact ⟨h1, (by simpa using h2 : name = c.channelname).symm⟩

/-- What the first part of `handle_join` does when it is defined. -/
theorem join_channel_cases {s : Server} {name : List Char} {sc : Server × Nat}
    (h : join_channel s name = Outcome.ok sc) :
    sc.1.p = s.p ∧ sc.1.user_list = s.user_list ∧ sc.1.wire = s.wire ∧
    ((∃ c : channel, find_channel_by_name s name = some (sc.2, c) ∧ sc.1 = s) ∨
     (find_channel_by_name s name = none ∧
      first_index (fun slot => slot.isNone) s.channel_list = some sc.2 ∧
      s.channel_list[sc.2]? = some none ∧
      sc.1.channel_list = s.channel_list.set sc.2
        (some { channelname := name, index := sc.2,
                follower := List.replicate (FD_SETSIZE s) (-1) }))) := by
  unfold join_channel at h
  split at h
  · rename_i cid c hfind
    simp only [Outcome.ok.injEq] at h
    subst h
    exact ⟨rfl, rfl, rfl, Or.inl ⟨c, hfind, rfl⟩⟩
  · rename_i hnone
    split at h
    · rename_i i hi
      simp only [Outcome.ok.injEq] at h
      subst h
      refine ⟨rfl, rfl, rfl, Or.inr ⟨hnone, hi, ?_, rfl⟩⟩
      obtain ⟨⟨x, hx, hxn⟩, _⟩ := first_index_some _ _ _ hi
      cases x with
      | none => exact hx
      | some c => simp at hxn
    · simp at h

theorem join_channel_inv {n : Nat} {s : Server} {name : List Char} {sc : Server × Nat}
    (hi : Inv n s) (hlen : name.length < MAX_NAME_LEN)
    (h : join_channel s name = Outcome.ok sc) :
    Inv n sc.1 ∧ ∃ c : channel, sc.1.channel_list[sc.2]? = some (some c) ∧
      c.channelname = name := by
  obtain ⟨e1, e2, _, hc⟩ := join_channel_cases h
  rcases hc with ⟨c, hfind, e⟩ | ⟨hnone, _, hslot, e3⟩
  · rw [e]
    exact ⟨hi, c, find_channel_by_name_some hfind⟩
  · have hN : FD_SETSIZE s = n := hi.users_ok.len_fd
    rw [hN] at e3
    constructor
    · unfold Inv
      rw [e1, e2, e3]
      refine ⟨hi.users_ok, hi.chans_ok.chans_create sc.2 name hslot hlen ?_,
        hi.link_ok.link_create n sc.2 name hslot⟩
      intro j c hc hcn
      have := find_first_none _ _ hnone j c hc
      simp [hcn] at this
    · exact ⟨_, by rw [e3]; exact set_at _ _ _ _ hslot, rfl⟩

theorem join_add_inv {n : Nat} {s s3 : Server} {fd : Int} {uid cid : Nat} {u : user}
    {c : channel} (hi : Inv n s) (hU : s.user_list[uid]? = some (some u))
    (hneg : u.channel < 0) (hC : s.channel_list[cid]? = some (some c))
    (h : join_add s fd uid cid u c = Outcome.ok s3) : Inv n s3 := by
  unfold join_add at h
  split at h
  · rename_i i hidx
    obtain ⟨⟨f0, hf0, hf0neg⟩, _⟩ := first_index_some _ _ _ hidx
    simp only at h
    refine Inv.of_wire_only ?_ (reply_wire_only h)
    have huidx := (hi.users_ok.user_ok uid u hU).1
    have hcidx := (hi.chans_ok.chan_ok cid c hC).1
    have hnl := hi.users_ok.name_len uid u hU
    unfold Inv
    simp only
    rw [huidx]
    refine ⟨hi.users_ok.users_set_same_nick uid u _ hU rfl ?_ rfl (by simp; omega)
        ⟨hnl.1, hnl.2.1, hnl.2.2.1⟩,
      hi.chans_ok.chans_set cid c _ hC rfl rfl (by simp) ?_,
      hi.link_ok.link_join uid cid i u _ c f0 hU hneg hC hf0 (by simpa using hf0neg) ?_⟩
    · exact huidx.symm
    · intro k l f hk hl hf
      exact join_inj hi.chans_ok hi.link_ok uid cid i u c hU hneg hC k l f hk hl hf
    · simp [hcidx]
  · simp only [Outcome.ok.injEq] at h
    subst h
    exact hi

theorem join_declare_wire_only (fd : Int) (u : user) (c : channel) (s : Server) (m_id : Int)
    (s1 : Server) (h : join_declare fd u c s m_id = Outcome.ok s1) : wire_only s s1 := by
  unfold join_declare at h
  split at h
  · obtain ⟨mate, _, h⟩ := Outcome.bind_eq_ok.mp h
    obtain ⟨s2, h2, h⟩ := Outcome.bind_eq_ok.mp h
    split at h
    · exact (reply_wire_only h2).trans (reply_wire_only h)
    · simp only [Outcome.ok.injEq] at h
      subst h
      exact reply_wire_only h2
  · simp only [Outcome.ok.injEq] at h
    subst h
    exact wire_only.refl s

theorem handle_join_inv {n : Nat} {s s1 : Server} {fd : Int} {channelname name0 : List Char}
    (hi : Inv n s) (h : handle_join s fd channelname name0 = Outcome.ok s1) : Inv n s1 := by
  unfold handle_join at h
  rw [if_neg sizeof_check] at h
  split at h
  · simp at h
  · rename_i uid u0 hfind
    obtain ⟨name, hname, h⟩ := Outcome.bind_eq_ok.mp h
    obtain ⟨sc, hsc, h⟩ := Outcome.bind_eq_ok.mp h
    obtain ⟨s2, hs2, h⟩ := Outcome.bind_eq_ok.mp h
    obtain ⟨u, hu, h⟩ := Outcome.bind_eq_ok.mp h
    obtain ⟨c, hc, h⟩ := Outcome.bind_eq_ok.mp h
    obtain ⟨s3, hs3, h⟩ := Outcome.bind_eq_ok.mp h
    obtain ⟨u3, _, h⟩ := Outcome.bind_eq_ok.mp h
    obtain ⟨c3, _, h⟩ := Outcome.bind_eq_ok.mp h
    obtain ⟨s4, hs4, h⟩ := Outcome.bind_eq_ok.mp h
    obtain ⟨s5, hs5, h⟩ := Outcome.bind_eq_ok.mp h
    obtain ⟨s6, hs6, h⟩ := Outcome.bind_eq_ok.mp h
    obtain ⟨hisc, _⟩ := join_channel_inv hi (local_name_len hname) hsc
    obtain ⟨ep, eu, _, _⟩ := join_channel_cases hsc
    have hfind1 : find_user_by_fd sc.1 fd = some (uid, u0) := by
      unfold find_user_by_fd at hfind ⊢
      rw [eu]; exact hfind
    obtain ⟨hU0, _⟩ := find_user_by_fd_some hfind1
    have hu2 := (user_at_eq_ok hu).2
    have hc2 := (channel_at_eq_ok hc).2
    simp only [Int.toNat_ofNat] at hu2 hc2
    have hi2 : Inv n s2 ∧ u.channel < 0 := by
      split at hs2
      · obtain ⟨u1, hU1, hneg, _⟩ := handle_part_channel hs2 hfind1
        rw [hu2] at hU1
        simp only [Option.some.injEq] at hU1
        subst hU1
        exact ⟨handle_part_inv hisc hs2, hneg⟩
      · rename_i hneg
        simp only [Outcome.ok.injEq] at hs2
        subst hs2
        rw [hU0] at hu2
        simp only [Option.some.injEq] at hu2
        subst hu2
        exact ⟨hisc, by omega⟩
    have hi3 := join_add_inv hi2.1 hu2 hi2.2 hc2 hs3
    refine Inv.of_wire_only hi3 ?_
    exact (reply_wire_only hs4).trans (((for_each_wire_only _ (join_declare_wire_only fd u3 c3)
      _ _ _ hs5).trans (reply_wire_only hs6)).trans (reply_wire_only h))

theorem parse_cmd_inv {n : Nat} {s s1 : Server} {fd : Int} {msg : List Char} {len : Nat}
    {name0 : List Char} (hi : Inv n s)
    (h : parse_cmd s fd msg len name0 = Outcome.ok s1) : Inv n s1 := by
  unfold parse_cmd at h
  simp only at h
  split at h
  · simp at h
  · split at h
    · simp only [Outcome.ok.injEq] at h
      subst h
      exact hi
    · split at h
      · split at h
        · exact hi.of_wire_only (reply_wire_only h)
        · exact handle_nick_inv hi h
      · split at h
        · split at h
          · exact hi.of_wire_only (reply_wire_only h)
          · exact handle_user_inv hi h
        · split at h
          · split at h
            · exact hi.of_wire_only (reply_wire_only h)
            · exact handle_join_inv hi h
          · split at h
            · split at h
              · exact hi.of_wire_only (reply_wire_only h)
              · exact hi.of_wire_only (handle_who_wire_only h)
            · split at h
              · exact hi.of_wire_only (handle_list_wire_only h)
              · split at h
                · split at h
                  · exact hi.of_wire_only (reply_wire_only h)
                  · exact hi.of_wire_only (handle_privmsg_wire_only h)
                · split at h
                  · exact handle_part_inv hi h
                  · exact hi.of_wire_only
                      (for_each_wire_only _ (transfer_wire_only msg len) _ _ _ h)

theorem init_pool_inv (n : Nat) (listenfd : Int) : Inv n (init_pool n listenfd) := by
  unfold Inv init_pool
  simp only
  refine ⟨⟨by simp, by simp, ?_, ?_, ?_, ?_, ?_, ?_⟩, ⟨by simp, ?_, ?_, ?_, ?_⟩, ⟨?_, ?_⟩⟩
  all_goals
    intros
    simp_all [List.getElem?_replicate]

/-- The representation invariant holds in every reachable state. -/
theorem reachable_inv {n : Nat} {s : Server} (h : Reachable n s) : Inv n s := by
  induction h with
  | init listenfd => exact init_pool_inv n listenfd
  | select s ready _ _ ih => exact ih
  | accept s s1 connfd _ hc hfresh hadd ih => exact add_client_inv ih hc hfresh hadd
  | command s s1 fd msg len name0 _ hcmd ih => exact parse_cmd_inv ih hcmd
  | disconnect s s1 fd _ hq ih => exact handle_quit_inv ih hq


/-! ## What the handlers write -/

theorem for_each_events {α : Type} (body : Server → α → Outcome Server)
    (ev : α → List Syscall) :
    ∀ (l : List α) (s : Server),
      (∀ a ∈ l, ∀ w : List Syscall,
        body { s with wire := w } a = Outcome.ok { s with wire := w ++ ev a }) →
      for_each body l s = Outcome.ok { s with wire := s.wire ++ events_of ev l } := by
  intro l
  induction l with
  | nil => intro s _; simp [for_each, events_of]
  | cons a rest ih =>
    intro s h
    have h1 := h a (List.mem_cons_self a rest) s.wire
    simp only [for_each]
    rw [show body s a = Outcome.ok { s with wire := s.wire ++ ev a } from h1]
    simp only [Outcome.bind_ok]
    rw [ih { s with wire := s.wire ++ ev a }
      (fun b hb w => h b (List.mem_cons_of_mem a hb) w)]
    simp [events_of, List.append_assoc]

theorem privmsg_line_length (a b c : List Char) :
    (privmsg_line a b c).length = a.length + b.length + c.length + 14 := by
  simp [privmsg_line]
  omega

theorem Inv.follower_user {n : Nat} {s : Server} (hi : Inv n s) {j : Nat} {c : channel}
    (hC : s.channel_list[j]? = some (some c)) {f : Int} (hf : f ∈ c.follower) (h0 : 0 ≤ f) :
    ∃ d : user, s.user_list[f.toNat]? = some (some d) ∧ d.channel = (j : Int) := by
  obtain ⟨k, hk⟩ := List.mem_iff_getElem?.mp hf
  exact hi.link_ok.follower_ok j c k f hC hk h0

theorem name_bounds : MAX_NAME_LEN = 64 ∧ MAXLINE = 8192 ∧ MAX_MSG_LEN = 512 := ⟨rfl, rfl, rfl⟩

/-- What `handle_part` does, for a caller that follows no channel. -/
theorem handle_part_run_none {s : Server} {fd : Int} {uid : Nat} {u : user}
    (hfind : find_user_by_fd s fd = some (uid, u)) (hneg : u.channel < 0) :
    handle_part s fd = Outcome.ok { s with wire := s.wire ++
      [Syscall.writen fd "PART: You have not followed a channel\r\n".toList] } := by
  unfold handle_part
  rw [hfind]
  simp only
  rw [if_pos hneg]
  exact reply_ok_of_lt _ _ _ (by decide)

theorem Inv.find_fd {n : Nat} {s : Server} (hi : Inv n s) {i : Nat} {u : user}
    (hU : s.user_list[i]? = some (some u)) : find_user_by_fd s u.fd = some (i, u) := by
  unfold find_user_by_fd
  apply find_first_of_first _ _ _ _ hU (by simp)
  intro j b hj hb
  by_contra hne
  have hbf : b.fd = u.fd := by simpa using hne
  have := hi.users_ok.fd_inj j i b u hb hU hbf
  omega

theorem strchr_none_of_not_mem (c : Char) :
    ∀ (t : List Char), c ∉ t → strchr t c = none := by
  intro t
  induction t with
  | nil => intro _; rfl
  | cons x rest ih =>
    intro h
    simp only [List.mem_cons, not_or] at h
    simp only [strchr]
    rw [if_neg (fun e => h.1 e.symm), ih h.2]
    rfl

theorem strstr_lf_none : ∀ (t : List Char), '\n' ∉ t → strstr t ['\n'] = none := by
  intro t
  induction t with
  | nil => intro _; simp [strstr]
  | cons x rest ih =>
    intro h
    simp only [List.mem_cons, not_or] at h
    have hx : ('\n' == x) = false := by simpa using h.1
    simp [strstr, List.isPrefixOf, hx, ih h.2]

theorem strstr_crlf_none : ∀ (t : List Char), '\n' ∉ t → strstr t ['\r', '\n'] = none := by
  intro t
  induction t with
  | nil => intro _; simp [strstr]
  | cons x rest ih =>
    intro h
    simp only [List.mem_cons, not_or] at h
    have hpre : List.isPrefixOf ['\r', '\n'] (x :: rest) = false := by
      cases rest with
      | nil => simp [List.isPrefixOf]
      | cons y tl =>
        have hy : ('\n' == y) = false := by
          have := h.2
          simp only [List.mem_cons, not_or] at this
          simpa using this.1
        simp [List.isPrefixOf, hy]
    simp [strstr, hpre, ih h.2]

theorem get_msg_no_lf (t msg : List Char) (h : '\n' ∉ t) : get_msg t msg = (SIZE_MAX, msg) := by
  simp [get_msg, get_msg_end, strstr_crlf_none t h, strstr_lf_none t h]

theorem get_msg_length_le (m : List Char) : (get_msg m m).2.length ≤ m.length := by
  unfold get_msg
  split
  · simp only [List.length_take]
    omega
  · exact Nat.le_refl _

/-! ## The loops of `handle_privmsg` -/

theorem privmsg_relay_run {n : Nat} {s : Server} (hi : Inv n s) {j : Nat} {c : channel}
    (hC : s.channel_list[j]? = some (some c)) (line : List Char)
    (hlen : line.length < MAXLINE) :
    for_each (privmsg_relay line) c.follower s = Outcome.ok
      { s with wire := s.wire ++ events_of (relay_event s.user_list line) c.follower } := by
  apply for_each_events
  intro f hf w
  unfold privmsg_relay relay_event
  by_cases h0 : 0 ≤ f
  · obtain ⟨d, hd, _⟩ := hi.follower_user hC hf h0
    have hat : user_at { s with wire := w } f = Outcome.ok d := by simp [user_at, h0, hd]
    simp only [h0, if_true, hat, Outcome.bind_ok, hd]
    exact reply_ok_of_lt _ _ _ hlen
  · simp [h0]

theorem find_first_eq_none {α : Type} (pred : α → Bool) (l : List (Option α))
    (h : ∀ (j : Nat) (b : α), l[j]? = some (some b) → pred b = false) :
    find_first pred l = none := by
  cases hf : find_first pred l with
  | none => rfl
  | some r =>
    obtain ⟨h1, h2, _⟩ := find_first_some pred l r.1 r.2 hf
    rw [h r.1 r.2 h1] at h2
    exact absurd h2 (by simp)

theorem strchr_some_split (d : Char) :
    ∀ (line : List Char) (off : Nat), strchr line d = some off →
      line = line.take off ++ d :: line.drop (off + 1) ∧ d ∉ line.take off := by
  intro line
  induction line with
  | nil => intro off h; simp [strchr] at h
  | cons x rest ih =>
    intro off h
    simp only [strchr] at h
    by_cases hx : x = d
    · rw [if_pos hx] at h
      simp only [Option.some.injEq] at h
      subst h
      simp [hx]
    · rw [if_neg hx] at h
      simp only [Option.map_eq_some'] at h
      obtain ⟨o, ho, rfl⟩ := h
      obtain ⟨h1, h2⟩ := ih o ho
      constructor
      · simp only [List.take_succ_cons, List.drop_succ_cons, List.cons_append]
        rw [← h1]
      · simp only [List.take_succ_cons, List.mem_cons, not_or]
        exact ⟨fun e => hx e.symm, h2⟩

theorem strchr_none_not_mem (d : Char) :
    ∀ (line : List Char), strchr line d = none → d ∉ line := by
  intro line
  induction line with
  | nil => intro _; simp
  | cons x rest ih =>
    intro h
    simp only [strchr] at h
    by_cases hx : x = d
    · rw [if_pos hx] at h
      simp at h
    · rw [if_neg hx] at h
      simp only [Option.map_eq_none'] at h
      simp only [List.mem_cons, not_or]
      exact ⟨fun e => hx e.symm, ih h⟩

theorem strchr_append (d : Char) (cur : List Char) :
    ∀ (p : List Char), d ∉ p → strchr (p ++ d :: cur) d = some p.length := by
  intro p
  induction p with
  | nil => intro _; simp [strchr]
  | cons x rest ih =>
    intro h
    simp only [List.mem_cons, not_or] at h
    rw [List.cons_append, strchr, if_neg (fun e => h.1 e.symm), ih h.2]
    simp

/-- One round of the loop of `tokenize` on a line that holds the delimiter. -/
theorem tokenize_loop_step (d : Char) (k : Nat) (p cur : List Char) (hp : d ∉ p) :
    tokenize_loop d (k + 1) (p ++ d :: cur) =
      match cur with
      | ':' :: trailing => [p, trailing]
      | rest => p :: tokenize_loop d k rest := by
  simp only [tokenize_loop, strchr_append d cur p hp]
  have h1 : (p ++ d :: cur).take p.length = p := by simp
  have h2 : (p ++ d :: cur).drop (p.length + 1) = cur := by
    rw [← List.drop_drop]
    simp
  rw [h1, h2]

/-- One round of the loop of `tokenize` on a line without the delimiter. -/
theorem tokenize_loop_last (d : Char) (k : Nat) (p : List Char) (hp : d ∉ p) :
    tokenize_loop d (k + 1) p = [p] := by
  simp [tokenize_loop, strchr_none_of_not_mem d p hp]

theorem tokenize_loop_length_le (d : Char) :
    ∀ (k : Nat) (line : List Char), (tokenize_loop d k line).length ≤ k + 1 := by
  intro k
  induction k with
  | zero => intro line; simp [tokenize_loop]
  | succ k ih =>
    intro line
    cases h : strchr line d with
    | none =>
      rw [tokenize_loop_last d k line (strchr_none_not_mem d line h)]
      simp
    | some off =>
      obtain ⟨h1, h2⟩ := strchr_some_split d line off h
      rw [h1, tokenize_loop_step d k _ _ h2]
      split
      · simp
      · simp only [List.length_cons]
        have := ih (line.drop (off + 1))
        omega

theorem tokenize_loop_trailing (d : Char) (k : Nat) (p t : List Char) (hp : d ∉ p) :
    tokenize_loop d (k + 1) (p ++ d :: ':' :: t) = [p, t] := by
  rw [tokenize_loop_step d k p _ hp]
  rfl

theorem tokenize_loop_plain (d : Char) (k : Nat) (p cur : List Char) (hp : d ∉ p)
    (hcur : ∀ t, cur ≠ ':' :: t) :
    tokenize_loop d (k + 1) (p ++ d :: cur) = p :: tokenize_loop d k cur := by
  rw [tokenize_loop_step d k p _ hp]
  split
  · exact absurd rfl (hcur _)
  · rfl

theorem join_with_cons2 (d : Char) (p q : List Char) (r : List (List Char)) :
    join_with d (p :: q :: r) = p ++ d :: join_with d (q :: r) := rfl

theorem join_with_head (d : Char) (q : List Char) (r : List (List Char)) (tl : List Char)
    (hq : (q ++ [d]).head? ≠ some ':') (htl : tl = [] ∨ tl.head? = some d) :
    ∀ t, join_with d (q :: r) ++ tl ≠ ':' :: t := by
  intro t h
  cases q with
  | nil =>
    simp only [List.nil_append, List.head?_cons, ne_eq, Option.some.injEq] at hq
    cases r with
    | nil =>
      simp only [join_with, List.nil_append] at h
      rcases htl with h1 | h1
      · rw [h1] at h; simp at h
      · rw [h] at h1
        simp only [List.head?_cons, Option.some.injEq] at h1
        exact hq h1.symm
    | cons q2 r2 =>
      simp only [join_with, List.nil_append, List.cons_append, List.cons.injEq] at h
      exact hq h.1
  | cons x q1 =>
    simp only [List.cons_append, List.head?_cons, ne_eq, Option.some.injEq] at hq
    cases r with
    | nil =>
      simp only [join_with, List.cons_append, List.cons.injEq] at h
      exact hq h.1
    | cons q2 r2 =>
      simp only [join_with, List.cons_append, List.cons.injEq] at h
      exact hq h.1

/-- The loop of `tokenize` on fields joined by the delimiter: the fields. -/
theorem tokenize_loop_join (d : Char) :
    ∀ (ps : List (List Char)) (p : List Char) (k : Nat), ps.length < k →
      (∀ q ∈ p :: ps, d ∉ q) → (∀ q ∈ ps, (q ++ [d]).head? ≠ some ':') →
      tokenize_loop d k (join_with d (p :: ps)) = p :: ps := by
  intro ps
  induction ps with
  | nil =>
    intro p k hk hd _
    obtain ⟨k, rfl⟩ : ∃ j, k = j + 1 := ⟨k - 1, by simp at hk; omega⟩
    exact tokenize_loop_last d k p (hd p (by simp))
  | cons q r ih =>
    intro p k hk hd hc
    obtain ⟨k, rfl⟩ : ∃ j, k = j + 1 := ⟨k - 1, by simp at hk; omega⟩
    rw [join_with_cons2, tokenize_loop_plain d k p _ (hd p (by simp))]
    · rw [ih q k (by simp at hk ⊢; omega) (fun x hx => hd x (List.mem_cons_of_mem _ hx))
        (fun x hx => hc x (List.mem_cons_of_mem _ hx))]
    · intro t
      have := join_with_head d q r [] (hc q (by simp)) (Or.inl rfl) t
      simpa using this

/-- The loop of `tokenize` on fields joined by the delimiter and followed by the
delimiter, a colon and any text: the fields, then the text. -/
theorem tokenize_loop_join_trailing (d : Char) (rest : List Char) :
    ∀ (ps : List (List Char)) (p : List Char) (k : Nat), ps.length < k →
      (∀ q ∈ p :: ps, d ∉ q) → (∀ q ∈ ps, (q ++ [d]).head? ≠ some ':') →
      tokenize_loop d k (join_with d (p :: ps) ++ d :: ':' :: rest) = p :: ps ++ [rest] := by
  intro ps
  induction ps with
  | nil =>
    intro p k hk hd _
    obtain ⟨k, rfl⟩ : ∃ j, k = j + 1 := ⟨k - 1, by simp at hk; omega⟩
    simp only [join_with]
    rw [tokenize_loop_trailing d k p rest (hd p (by simp))]
    simp
  | cons q r ih =>
    intro p k hk hd hc
    obtain ⟨k, rfl⟩ : ∃ j, k = j + 1 := ⟨k - 1, by simp at hk; omega⟩
    rw [join_with_cons2, List.append_assoc, List.cons_append,
      tokenize_loop_plain d k p _ (hd p (by simp))]
    · rw [ih q k (by simp at hk ⊢; omega) (fun x hx => hd x (List.mem_cons_of_mem _ hx))
        (fun x hx => hc x (List.mem_cons_of_mem _ hx))]
      simp
    · exact join_with_head d q r _ (hc q (by simp)) (Or.inr rfl)

theorem delim_colon_split (d : Char) (cur : List Char) :
    ∀ (p : List Char), delim_colon d (p ++ d :: cur) = false →
      (∀ t, cur ≠ ':' :: t) ∧ delim_colon d cur = false := by
  intro p
  induction p with
  | nil =>
    intro h
    cases cur with
    | nil => simp [delim_colon]
    | cons y rest =>
      simp only [List.nil_append, delim_colon, Bool.or_eq_false_iff, Bool.and_eq_false_imp,
        beq_self_eq_true, true_implies] at h
      refine ⟨?_, h.2⟩
      intro t ht
      simp only [List.cons.injEq] at ht
      simp [ht.1] at h
  | cons x rest ih =>
    intro h
    cases rest with
    | nil =>
      simp only [List.cons_append, List.nil_append, delim_colon, Bool.or_eq_false_iff] at h
      exact ih h.2
    | cons y r2 =>
      simp only [List.cons_append, delim_colon, Bool.or_eq_false_iff] at h
      exact ih h.2

/-- The loop of `tokenize` on a line in which no delimiter is followed by a colon:
the first fields of the line. -/
theorem tokenize_loop_fields (d : Char) :
    ∀ (k : Nat) (line : List Char), delim_colon d line = false →
      tokenize_loop d k line = (line.splitOn d).take k := by
  intro k
  induction k with
  | zero => intro line _; simp [tokenize_loop]
  | succ k ih =>
    intro line hline
    cases h : strchr line d with
    | none =>
      have hd := strchr_none_not_mem d line h
      rw [tokenize_loop_last d k line hd]
      have : line.splitOn d = [line] := by
        rw [List.splitOn, List.splitOnP_eq_single]
        intro x hx
        simp only [beq_iff_eq]
        intro e
        exact hd (e ▸ hx)
      rw [this]
      simp
    | some off =>
      obtain ⟨h1, h2⟩ := strchr_some_split d line off h
      rw [h1] at hline
      obtain ⟨h3, h4⟩ := delim_colon_split d _ _ hline
      have hs : line.splitOn d = line.take off :: (line.drop (off + 1)).splitOn d := by
        conv_lhs => rw [h1]
        rw [List.splitOn, List.splitOnP_first]
        · rfl
        · intro x hx
          simp only [beq_iff_eq]
          intro e
          exact h2 (e ▸ hx)
        · simp
      rw [hs, List.take_succ_cons, ← ih _ h4]
      conv_lhs => rw [h1]
      exact tokenize_loop_plain d k _ _ h2 h3

theorem splitOn_length (d : Char) :
    ∀ (line : List Char), (line.splitOn d).length = line.count d + 1 := by
  intro line
  induction line with
  | nil => simp [List.splitOn]
  | cons x rest ih =>
    rw [List.splitOn, List.splitOnP_cons]
    by_cases hx : x = d
    · subst hx
      simp only [beq_self_eq_true, if_true, List.length_cons, List.count_cons_self]
      rw [← List.splitOn, ih]
    · have hb : (x == d) = false := by simpa using hx
      rw [hb]
      simp only [Bool.false_eq_true, if_false, List.length_modifyHead]
      rw [← List.splitOn, ih]
      simp [List.count_cons, hx]

theorem tokenize_call_ok {line : List Char} {d : Char} {toks : List (List Char)}
    (h : tokenize line d = toks) (hk : toks.length ≤ MAX_MSG_TOKENS)
    (hlen : ∀ t ∈ toks, t.length ≤ MAX_MSG_LEN) :
    tokenize_call line d = Outcome.ok toks := by
  unfold tokenize_call
  rw [h]
  have hfit : tokens_fit toks = true := by
    simp only [tokens_fit, Bool.and_eq_true, decide_eq_true_eq, List.all_eq_true]
    exact ⟨hk, hlen⟩
  rw [if_pos hfit]

theorem tokenize_call_long {line : List Char} {d : Char} {t : List Char}
    (ht : t ∈ tokenize line d) (hlong : MAX_MSG_LEN < t.length) :
    tokenize_call line d = Outcome.undefined := by
  unfold tokenize_call
  have hfit : tokens_fit (tokenize line d) = false := by
    simp only [tokens_fit, Bool.and_eq_false_imp, decide_eq_true_eq]
    intro _
    rw [List.all_eq_false]
    exact ⟨t, ht, by simpa using hlong⟩
  rw [hfit]
  simp

theorem space_not_mem_replicate (n : Nat) : ' ' ∉ List.replicate n 'a' := by
  simp [List.mem_replicate]

theorem tokenize_call_long_trailing (n : Nat) (hn : MAX_MSG_LEN < n) :
    tokenize_call (List.replicate n 'a' ++ " :x".toList) ' ' = Outcome.undefined := by
  have ht : tokenize (List.replicate n 'a' ++ " :x".toList) ' '
      = [List.replicate n 'a', "x".toList] :=
    tokenize_loop_join_trailing ' ' "x".toList [] (List.replicate n 'a') MAX_MSG_TOKENS
      (by decide)
      (by intro q hq; rw [List.mem_singleton.mp hq]; exact space_not_mem_replicate n)
      (by intro q hq; exact absurd hq (List.not_mem_nil q))
  exact tokenize_call_long (t := List.replicate n 'a')
    (by rw [ht]; exact List.mem_cons_self _ _) (by rw [List.length_replicate]; exact hn)

theorem tokenize_call_long_plain (n : Nat) (hn : MAX_MSG_LEN < n) :
    tokenize_call (List.replicate n 'a' ++ " b".toList) ' ' = Outcome.undefined := by
  have ht : tokenize (List.replicate n 'a' ++ " b".toList) ' '
      = [List.replicate n 'a', "b".toList] :=
    tokenize_loop_join ' ' ["b".toList] (List.replicate n 'a') MAX_MSG_TOKENS
      (by decide)
      (by
        intro q hq
        rcases List.mem_cons.mp hq with e | e
        · rw [e]; exact space_not_mem_replicate n
        · rw [List.mem_singleton.mp e]; decide)
      (by intro q hq; rw [List.mem_singleton.mp hq]; decide)
  exact tokenize_call_long (t := List.replicate n 'a')
    (by rw [ht]; exact List.mem_cons_self _ _) (by rw [List.length_replicate]; exact hn)

theorem delim_colon_replicate : ∀ (n : Nat),
    delim_colon ' ' (List.replicate n 'a' ++ " b".toList) = false
  | 0 => by decide
  | 1 => by decide
  | n + 2 => by
    have ih := delim_colon_replicate (n + 1)
    rw [List.replicate_succ, List.cons_append] at ih
    rw [List.replicate_succ, List.cons_append, List.replicate_succ, List.cons_append,
      delim_colon, ih]
    decide

/-- In a line that holds a line feed as its last byte at most, no token but the
last holds a line feed. -/
theorem tokenize_loop_inner_no_lf (d : Char) :
    ∀ (k : Nat) (line : List Char), '\n' ∉ line.dropLast →
      ∀ t ∈ (tokenize_loop d k line).dropLast, '\n' ∉ t := by
  intro k
  induction k with
  | zero => intro line _ t ht; simp [tokenize_loop] at ht
  | succ k ih =>
    intro line hline t ht
    cases h : strchr line d with
    | none =>
      rw [tokenize_loop_last d k line (strchr_none_not_mem d line h)] at ht
      simp at ht
    | some off =>
      obtain ⟨h1, h2⟩ := strchr_some_split d line off h
      have hdl : line.dropLast
          = line.take off ++ (d :: line.drop (off + 1)).dropLast := by
        conv_lhs => rw [h1]
        exact List.dropLast_append_of_ne_nil _ (by simp)
      have hp : '\n' ∉ line.take off := by
        intro hm
        exact hline (by rw [hdl]; exact List.mem_append_left _ hm)
      rw [h1, tokenize_loop_step d k _ _ h2] at ht
      split at ht
      · simp only [List.dropLast_cons₂, List.dropLast_single, List.mem_singleton] at ht
        rw [ht]
        exact hp
      · rename_i hcur
        cases hrec : tokenize_loop d k (line.drop (off + 1)) with
        | nil =>
          rw [hrec] at ht
          simp at ht
        | cons x xs =>
          rw [hrec, List.dropLast_cons₂, List.mem_cons] at ht
          rcases ht with ht | ht
          · rw [ht]; exact hp
          · have hsub : '\n' ∉ (line.drop (off + 1)).dropLast := by
              intro hm
              apply hline
              rw [hdl]
              apply List.mem_append_right
              cases hc : line.drop (off + 1) with
              | nil => rw [hc] at hm; simp at hm
              | cons y ys =>
                rw [hc] at hm
                rw [List.dropLast_cons₂]
                exact List.mem_cons_of_mem _ hm
            exact ih _ hsub t (by rw [hrec]; exact ht)

/-- The target that `parse_cmd` passes to `handle_privmsg` holds no line feed when
the line holds one as its last byte at most, as a line read by `Rio_readlineb`
does: the target is the second of at least three tokens. -/
theorem privmsg_target_no_lf (line : List Char) (hline : '\n' ∉ line.dropLast)
    (hargc : 3 ≤ (tokenize line ' ').length) :
    '\n' ∉ (tokenize line ' ').getD 1 [] := by
  apply tokenize_loop_inner_no_lf ' ' MAX_MSG_TOKENS line hline
  unfold tokenize at hargc ⊢
  match hm : tokenize_loop ' ' MAX_MSG_TOKENS line, hargc with
  | a :: b :: c :: rest, _ =>
    simp
  | [], h0 => simp at h0
  | [_], h0 => simp at h0
  | [_, _], h0 => simp at h0


/-! ## Framing -/

theorem occurs_at_succ (nd : List Char) (c : Char) (cs : List Char) (j : Nat) :
    occurs_at nd (c :: cs) (j + 1) = occurs_at nd cs j := by
  simp [occurs_at]

/-- What `strstr` finds is the first occurrence. -/
theorem strstr_some_spec (nd : List Char) :
    ∀ (hay : List Char) (e : Nat), strstr hay nd = some e →
      occurs_at nd hay e = true ∧ ∀ j, j < e → occurs_at nd hay j = false := by
  intro hay
  induction hay with
  | nil =>
    intro e h
    simp only [strstr] at h
    split at h
    · simp only [Option.some.injEq] at h
      subst h
      rename_i hnd
      subst hnd
      simp [occurs_at]
    · simp at h
  | cons c cs ih =>
    intro e h
    simp only [strstr] at h
    by_cases hp : nd.isPrefixOf (c :: cs) = true
    · rw [if_pos hp] at h
      simp only [Option.some.injEq] at h
      subst h
      simp [occurs_at, hp]
    · rw [if_neg hp] at h
      simp only [Option.map_eq_some'] at h
      obtain ⟨e1, he1, rfl⟩ := h
      obtain ⟨h1, h2⟩ := ih e1 he1
      refine ⟨by rw [occurs_at_succ]; exact h1, ?_⟩
      intro j hj
      cases j with
      | zero =>
        simp only [occurs_at, List.drop_zero]
        exact Bool.eq_false_iff.mpr hp
      | succ j => rw [occurs_at_succ]; exact h2 j (by omega)

/-- When `strstr` finds nothing there is no occurrence. -/
theorem strstr_none_spec (nd : List Char) :
    ∀ (hay : List Char), strstr hay nd = none → ∀ j, occurs_at nd hay j = false := by
  intro hay
  induction hay with
  | nil =>
    intro h j
    simp only [strstr] at h
    split at h
    · simp at h
    · rename_i hnd
      cases nd with
      | nil => exact absurd rfl hnd
      | cons x xs => simp [occurs_at, List.isPrefixOf]
  | cons c cs ih =>
    intro h j
    simp only [strstr] at h
    by_cases hp : nd.isPrefixOf (c :: cs) = true
    · rw [if_pos hp] at h
      simp at h
    · rw [if_neg hp] at h
      simp only [Option.map_eq_none'] at h
      cases j with
      | zero =>
        simp only [occurs_at, List.drop_zero]
        exact Bool.eq_false_iff.mpr hp
      | succ j => rw [occurs_at_succ]; exact ih h j

theorem strstr_lf_append (rest : List Char) : ∀ (y : List Char), '\n' ∉ y →
    strstr (y ++ '\r' :: '\n' :: rest) ['\r', '\n'] = some y.length := by
  intro y
  induction y with
  | nil => intro _; simp [strstr, List.isPrefixOf]
  | cons x r ih =>
    intro h
    simp only [List.mem_cons, not_or] at h
    have hpre : List.isPrefixOf ['\r', '\n'] (x :: (r ++ '\r' :: '\n' :: rest)) = false := by
      cases r with
      | nil =>
        simp only [List.nil_append, List.isPrefixOf, Bool.and_eq_false_imp, beq_iff_eq]
        intro _
        decide
      | cons y r2 =>
        simp only [List.cons_append, List.isPrefixOf, Bool.and_eq_false_imp, beq_iff_eq]
        intro _
        have hy : '\n' ≠ y := fun e => h.2 (e ▸ List.mem_cons_self _ _)
        simpa using hy
    rw [List.cons_append, strstr, hpre, ih h.2]
    simp

/-- One call of `get_msg` on a line followed by CR LF and more bytes. -/
theorem get_msg_line (l rest msg : List Char) (hl : '\n' ∉ l) :
    get_msg (l ++ '\r' :: '\n' :: rest) msg = (l.length + 2, l) := by
  simp [get_msg, get_msg_end, strstr_lf_append rest l hl]

theorem wire_lines_length_le (l : List Char) (ls : List (List Char)) :
    l.length + 2 + (wire_lines ls).length = (wire_lines (l :: ls)).length := by
  simp [wire_lines]
  omega

/-- The framing loop on lines written one after the other. -/
theorem frame_loop_lines :
    ∀ (lines : List (List Char)) (k : Nat), lines.length < k →
      (∀ l ∈ lines, '\n' ∉ l) → (wire_lines lines).length < 2 ^ 31 →
      frame_loop k (wire_lines lines) = (lines, []) := by
  intro lines
  induction lines with
  | nil =>
    intro k hk _ _
    obtain ⟨k, rfl⟩ : ∃ j, k = j + 1 := ⟨k - 1, by simp at hk; omega⟩
    simp [frame_loop, wire_lines, get_msg_no_lf]
  | cons l ls ih =>
    intro k hk hlf hlen
    obtain ⟨k, rfl⟩ : ∃ j, k = j + 1 := ⟨k - 1, by simp at hk; omega⟩
    have hg : get_msg (wire_lines (l :: ls)) [] = (l.length + 2, l) := by
      simp only [wire_lines, List.append_assoc, List.cons_append, List.nil_append]
      exact get_msg_line l _ [] (hlf l (by simp))
    have hne : l.length + 2 ≠ SIZE_MAX := by
      have := wire_lines_length_le l ls
      simp only [SIZE_MAX]
      omega
    have hdrop : (wire_lines (l :: ls)).drop (l.length + 2) = wire_lines ls := by
      simp only [wire_lines, List.append_assoc]
      rw [← List.append_assoc, List.drop_left']
      simp
    have hrec := ih k (by simp at hk ⊢; omega) (fun x hx => hlf x (List.mem_cons_of_mem _ hx))
      (by have := wire_lines_length_le l ls; omega)
    simp only [frame_loop, hg, if_neg hne, hdrop, hrec]

theorem wire_lines_count (lines : List (List Char)) :
    lines.length ≤ (wire_lines lines).length := by
  induction lines with
  | nil => simp
  | cons l ls ih =>
    have := wire_lines_length_le l ls
    simp only [List.length_cons]
    omega

theorem occurs_at_bound (nd hay : List Char) (e : Nat) (hnd : nd ≠ [])
    (h : occurs_at nd hay e = true) : e + nd.length ≤ hay.length := by
  simp only [occurs_at, List.isPrefixOf_iff_prefix] at h
  have h1 := h.length_le
  simp only [List.length_drop] at h1
  have h2 : 0 < nd.length := List.length_pos.mpr hnd
  omega


/-! ## Lists of targets -/

/-- One round of the outer loop of `handle_privmsg`, whatever was written before. -/
theorem privmsg_target_run {n : Nat} {s : Server} (hi : Inv n s) {fd : Int}
    {uid : Nat} {u : user} (hfind : find_user_by_fd s fd = some (uid, u))
    {t m : List Char} (hlf : '\n' ∉ t) (ht : t.length ≤ MAX_MSG_LEN)
    (hm : m.length ≤ MAX_MSG_LEN) (w : List Syscall) :
    privmsg_target fd u m { s with wire := w } t = Outcome.ok
      { s with wire := w ++ privmsg_events s fd u m t } := by
  obtain ⟨hU, _⟩ := find_user_by_fd_some hfind
  have hnl := hi.users_ok.name_len uid u hU
  have hb := name_bounds
  have hiw : Inv n { s with wire := w } := hi.of_wire_only ⟨rfl, rfl, rfl⟩
  unfold privmsg_target privmsg_events
  simp only [get_msg_no_lf t t hlf]
  have e1 : find_channel_by_name { s with wire := w } t = find_channel_by_name s t := rfl
  have e2 : find_user_by_nick { s with wire := w } t = find_user_by_nick s t := rfl
  rw [e1, e2]
  cases hfc : find_channel_by_name s t with
  | some r =>
    obtain ⟨j, c⟩ := r
    obtain ⟨hC, _⟩ := find_channel_by_name_some hfc
    have hcl := hi.chans_ok.chan_len j c hC
    simp only []
    have := privmsg_relay_run hiw (j := j) (c := c) hC
      (privmsg_line u.nickname c.channelname m) (by rw [privmsg_line_length]; omega)
    exact this
  | none =>
    simp only []
    cases hfn : find_user_by_nick s t with
    | some r =>
      obtain ⟨k, d⟩ := r
      obtain ⟨hD, hdn⟩ := find_user_by_nick_some hfn
      have hlen : (privmsg_line u.nickname d.nickname m).length < MAXLINE := by
        rw [privmsg_line_length, hdn]; omega
      simp only []
      rw [reply_ok_of_lt _ _ _ hlen]
      simp only [Outcome.bind_ok]
      rw [reply_ok_of_lt _ _ _ hlen]
      simp
    | none =>
      simp only []
      rw [reply_ok_of_lt _ _ _ (by simp; omega)]

theorem events_of_flatten {α : Type} (ev : α → List Syscall) :
    ∀ (l : List α), events_of ev l = (l.map ev).flatten := by
  intro l
  induction l with
  | nil => rfl
  | cons a rest ih => simp [events_of, ih]

/-- What `handle_privmsg` does for a list of targets. -/
theorem handle_privmsg_list_run {n : Nat} {s : Server} (hi : Inv n s) {fd : Int}
    {uid : Nat} {u : user} (hfind : find_user_by_fd s fd = some (uid, u))
    {t : List Char} {ts : List (List Char)} {m : List Char}
    (hk : (t :: ts).length ≤ MAX_MSG_TOKENS)
    (hcomma : ∀ q ∈ t :: ts, ',' ∉ q) (hlf : ∀ q ∈ t :: ts, '\n' ∉ q)
    (hcolon : ∀ q ∈ ts, q.head? ≠ some ':')
    (hlen : ∀ q ∈ t :: ts, q.length ≤ MAX_MSG_LEN) (hm : m.length ≤ MAX_MSG_LEN) :
    handle_privmsg s fd (join_with ',' (t :: ts)) m = Outcome.ok
      { s with wire := s.wire ++
          ((t :: ts).map (privmsg_events s fd u (get_msg m m).2)).flatten } := by
  have hml := get_msg_length_le m
  have htok : tokenize (join_with ',' (t :: ts)) ',' = t :: ts := by
    apply tokenize_loop_join ',' ts t MAX_MSG_TOKENS _ hcomma
    · intro q hq
      have := hcolon q hq
      cases q with
      | nil => simp
      | cons x r => simpa using this
    · simp only [List.length_cons] at hk
      omega
  have hfit : tokens_fit (t :: ts) = true := by
    simp only [tokens_fit, Bool.and_eq_true, decide_eq_true_eq, List.all_eq_true]
    exact ⟨hk, hlen⟩
  unfold handle_privmsg
  simp only [hfind, htok, hfit, if_true]
  rw [← events_of_flatten]
  apply for_each_events
  intro a ha w
  exact privmsg_target_run hi hfind (hlf a ha) (hlen a ha) (by omega) w


/-! ## What `handle_join` writes -/

theorem member_names_nil (users : List (Option user)) : member_names users [] = [] := rfl

theorem handle_nick_pool {s s1 : Server} {fd : Int} {nickname : List Char}
    (h : handle_nick s fd nickname = Outcome.ok s1) : s1.p = s.p := by
  obtain ⟨uid, u, _, hc⟩ := handle_nick_cases h
  rcases hc with ⟨_, e⟩ | ⟨_, _, hw⟩
  · rw [e]
  · exact hw.1

theorem handle_user_pool {s s1 : Server} {fd : Int} {username hostname realname : List Char}
    (h : handle_user s fd username hostname realname = Outcome.ok s1) : s1.p = s.p := by
  obtain ⟨uid, u, _, _, _, _, hw⟩ := handle_user_cases h
  exact hw.1

theorem handle_part_pool {s s1 : Server} {fd : Int}
    (h : handle_part s fd = Outcome.ok s1) : s1.p = s.p := by
  obtain ⟨uid, u, _, hc⟩ := handle_part_cases h
  rcases hc with ⟨_, e⟩ | ⟨_, c, _, e, _⟩
  · rw [e]
  · exact e

theorem join_add_pool {s s3 : Server} {fd : Int} {uid cid : Nat} {u : user} {c : channel}
    (h : join_add s fd uid cid u c = Outcome.ok s3) : s3.p = s.p := by
  unfold join_add at h
  split at h
  · simp only at h
    exact (reply_wire_only h).1
  · simp only [Outcome.ok.injEq] at h
    rw [← h]

theorem handle_join_pool {s s1 : Server} {fd : Int} {channelname name0 : List Char}
    (h : handle_join s fd channelname name0 = Outcome.ok s1) : s1.p = s.p := by
  unfold handle_join at h
  rw [if_neg sizeof_check] at h
  split at h
  · simp at h
  · obtain ⟨name, _, h⟩ := Outcome.bind_eq_ok.mp h
    obtain ⟨sc, hsc, h⟩ := Outcome.bind_eq_ok.mp h
    obtain ⟨s2, hs2, h⟩ := Outcome.bind_eq_ok.mp h
    obtain ⟨u, _, h⟩ := Outcome.bind_eq_ok.mp h
    obtain ⟨c, _, h⟩ := Outcome.bind_eq_ok.mp h
    obtain ⟨s3, hs3, h⟩ := Outcome.bind_eq_ok.mp h
    obtain ⟨u3, _, h⟩ := Outcome.bind_eq_ok.mp h
    obtain ⟨c3, _, h⟩ := Outcome.bind_eq_ok.mp h
    obtain ⟨s4, hs4, h⟩ := Outcome.bind_eq_ok.mp h
    obtain ⟨s5, hs5, h⟩ := Outcome.bind_eq_ok.mp h
    obtain ⟨s6, hs6, h⟩ := Outcome.bind_eq_ok.mp h
    obtain ⟨ep, _, _, _⟩ := join_channel_cases hsc
    have h2 : s2.p = sc.1.p := by
      split at hs2
      · exact handle_part_pool hs2
      · simp only [Outcome.ok.injEq] at hs2
        rw [← hs2]
    have hw := (reply_wire_only hs4).trans (((for_each_wire_only _
      (join_declare_wire_only fd u3 c3) _ _ _ hs5).trans (reply_wire_only hs6)).trans
      (reply_wire_only h))
    rw [hw.1, join_add_pool hs3, h2, ep]

/-- No command changes the pool: `parse_cmd` leaves `p` as it found it. -/
theorem parse_cmd_pool {s s1 : Server} {fd : Int} {msg : List Char} {len : Nat}
    {name0 : List Char} (h : parse_cmd s fd msg len name0 = Outcome.ok s1) : s1.p = s.p := by
  unfold parse_cmd at h
  simp only at h
  split at h
  · simp at h
  · split at h
    · simp only [Outcome.ok.injEq] at h
      rw [← h]
    · split at h
      · split at h
        · exact (reply_wire_only h).1
        · exact handle_nick_pool h
      · split at h
        · split at h
          · exact (reply_wire_only h).1
          · exact handle_user_pool h
        · split at h
          · split at h
            · exact (reply_wire_only h).1
            · exact handle_join_pool h
          · split at h
            · split at h
              · exact (reply_wire_only h).1
              · exact (handle_who_wire_only h).1
            · split at h
              · exact (handle_list_wire_only h).1
              · split at h
                · split at h
                  · exact (reply_wire_only h).1
                  · exact (handle_privmsg_wire_only h).1
                · split at h
                  · exact handle_part_pool h
                  · exact (for_each_wire_only _ (transfer_wire_only msg len) _ _ _ h).1

/-- A slot whose descriptor is not negative holds the record of that descriptor. -/
theorem Inv.slot_user {n : Nat} {s : Server} (hi : Inv n s) {i : Nat} {f : Int}
    (hf : s.p.clientfd[i]? = some f) (h0 : 0 ≤ f) :
    ∃ u : user, s.user_list[i]? = some (some u) ∧ u.index = i ∧ u.fd = f := by
  have hlt : i < n := by
    rw [← hi.users_ok.len_fd]
    exact (List.getElem?_eq_some.mp hf).1
  have hlt2 : i < s.user_list.length := by rw [hi.users_ok.len_users]; exact hlt
  cases hx : s.user_list[i]? with
  | none =>
    rw [List.getElem?_eq_none_iff] at hx
    omega
  | some x =>
    cases x with
    | none =>
      have := hi.users_ok.free_ok i hx
      rw [hf] at this
      simp only [Option.some.injEq] at this
      omega
    | some u =>
      obtain ⟨h1, h2, _⟩ := hi.users_ok.user_ok i u hx
      rw [hf] at h2
      simp only [Option.some.injEq] at h2
      exact ⟨u, rfl, h1, h2.symm⟩

/-- What `handle_quit` does for a user that follows no channel. -/
theorem handle_quit_run_none {n : Nat} {s : Server} (hi : Inv n s) {uid : Nat} {u : user}
    (hU : s.user_list[uid]? = some (some u)) (hneg : u.channel < 0) :
    handle_quit s u.fd = Outcome.ok
      { s with
          p := { s.p with read_set := s.p.read_set.filter (fun x => decide (x ≠ u.fd)),
                          clientfd := s.p.clientfd.set uid (-1) },
          user_list := s.user_list.set uid none,
          wire := s.wire ++
            [Syscall.writen u.fd "PART: You have not followed a channel\r\n".toList,
             Syscall.close u.fd] } := by
  have hfind := hi.find_fd hU
  unfold handle_quit
  rw [handle_part_run_none hfind hneg]
  simp only [Outcome.bind_ok]
  have hfind2 : find_user_by_fd { s with wire := s.wire ++
      [Syscall.writen u.fd "PART: You have not followed a channel\r\n".toList] } u.fd
      = some (uid, u) := hfind
  rw [hfind2]
  simp

theorem local_name_no_lf (arg name0 : List Char) (h : '\n' ∉ arg) :
    local_name arg name0 =
      if MAX_NAME_LEN ≤ name0.length then Outcome.undefined else Outcome.ok name0 := by
  unfold local_name
  have he : get_msg_end arg = none := by
    simp [get_msg_end, strstr_crlf_none arg h, strstr_lf_none arg h]
  simp [he, get_msg_no_lf arg name0 h]


/-! ## The sample states are reachable -/

theorem st_init_reachable : Reachable 2 st_init := Reachable.init 3

theorem st_one_reachable : Reachable 2 st_one :=
  Reachable.accept st_init st_one 4 st_init_reachable (by decide) (by decide) (by decide)

theorem st_two_reachable : Reachable 2 st_two :=
  Reachable.accept st_one st_two 5 st_one_reachable (by decide) (by decide) (by decide)

theorem st_joined_reachable : Reachable 2 st_joined :=
  Reachable.command st_one st_joined 4 "JOIN #x\r\n".toList 9 [] st_one_reachable (by decide)

theorem st_bob_reachable : Reachable 2 st_bob :=
  Reachable.command st_two st_bob 4 "NICK bob\r\n".toList 10 [] st_two_reachable (by decide)

theorem st_ready_reachable : Reachable 2 st_ready :=
  Reachable.select st_one [4] st_one_reachable (by decide)

theorem st_pair_first_reachable : Reachable 2 st_pair_first :=
  Reachable.command st_two st_pair_first 4 "JOIN #x\r\n".toList 9 [] st_two_reachable
    (by decide)

theorem st_first_ready_reachable : Reachable 2 st_first_ready :=
  Reachable.select st_two [4] st_two_reachable (by decide)

theorem st_split_reachable : Reachable 2 st_split :=
  Reachable.command st_pair_first st_split 5 "JOIN #y\r\n".toList 9 [] st_pair_first_reachable
    (by decide)

/-! ## The claims -/

/-- C1, the code at the failing input: the length test of `handle_nick` compares
`sizeof` of a pointer with `MAX_NAME_LEN` and never holds (the defect of C4), so
that a command line can break the invariant of membership.  The only client follows
`#x` and sends `NICK` with a nickname of 73 letters: `strcpy` writes 74 bytes to the
64-byte field `nickname`, over the fields `fd` and `index` that follow it in
`struct user`, so that the record no longer carries the index that the follower
array of `#x` holds while its `channel` field still names `#x`.  The call has no
defined result. -/
theorem membership_broken_by_long_nick :
    Reachable 2 st_joined ∧
    st_joined.user_list[0]? = some (some { fresh_user 0 4 with channel := 0 }) ∧
    st_joined.channel_list[0]? =
      some (some { channelname := "#x".toList, index := 0, follower := [0, -1] }) ∧
    ¬ (MAX_NAME_LEN < sizeof_char_ptr) ∧
    MAX_NAME_LEN ≤ (List.replicate 73 'a').length ∧
    handle_nick st_joined 4 (List.replicate 73 'a' ++ "\r\n".toList) = Outcome.undefined ∧
    parse_cmd st_joined 4 ("NICK ".toList ++ List.replicate 73 'a' ++ "\r\n".toList) 80 []
      = Outcome.undefined := by
  refine ⟨st_joined_reachable, rfl, rfl, by decide, by decide, by decide, by decide⟩

/-- The invariant of membership on the runs of `Reachable`, those in which every
call stays inside its arrays: for every connected user `u` and every existing
channel `c`, the index of `u` occurs in the follower array of `c` if and only if the
`channel` field of `u` equals the index of `c`. -/
theorem follower_iff_channel_field (n : Nat) (s : Server) (h : Reachable n s)
    (i : Nat) (u : user) (j : Nat) (c : channel)
    (hu : s.user_list[i]? = some (some u)) (hc : s.channel_list[j]? = some (some c)) :
    (u.index : Int) ∈ c.follower ↔ u.channel = (c.index : Int) := by
  have hi := reachable_inv h
  have hui := (hi.users_ok.user_ok i u hu).1
  have hcj := (hi.chans_ok.chan_ok j c hc).1
  rw [hui, hcj]
  constructor
  · intro hm
    obtain ⟨k, hk⟩ := List.mem_iff_getElem?.mp hm
    obtain ⟨w, hw, hwc⟩ := hi.link_ok.follower_ok j c k (i : Int) hc hk (by omega)
    simp only [Int.toNat_ofNat] at hw
    rw [hu] at hw
    simp only [Option.some.injEq] at hw
    subst hw
    exact hwc
  · intro hch
    obtain ⟨d, hd, hm⟩ := hi.link_ok.member_ok i u hu (by omega)
    rw [hch] at hd
    simp only [Int.toNat_ofNat] at hd
    rw [hc] at hd
    simp only [Option.some.injEq] at hd
    subst hd
    exact hm

/-- An instance of the invariant of membership: the client that joined `#x` in a
server of two slots. -/
theorem follower_iff_channel_field_witness :
    Reachable 2 st_joined ∧
    st_joined.user_list[0]? = some (some { fresh_user 0 4 with channel := 0 }) ∧
    st_joined.channel_list[0]? =
      some (some { channelname := "#x".toList, index := 0, follower := [0, -1] }) ∧
    (((0 : Nat) : Int) ∈ [(0 : Int), -1] ↔ (0 : Int) = ((0 : Nat) : Int)) :=
  ⟨st_joined_reachable, rfl, rfl,
    follower_iff_channel_field 2 st_joined st_joined_reachable 0
      { fresh_user 0 4 with channel := 0 } 0
      { channelname := "#x".toList, index := 0, follower := [0, -1] } rfl rfl⟩

/-- C2 as stated fails: after two clients connected, both hold the nickname that
`init_user` gives, so that it is not true that two connected users always hold
different nicknames. -/
theorem distinct_nicknames_fails :
    ¬ (∀ (n : Nat) (s : Server), Reachable n s → ∀ (i j : Nat) (u v : user),
        s.user_list[i]? = some (some u) → s.user_list[j]? = some (some v) → i ≠ j →
        u.nickname ≠ v.nickname) := by
  intro h
  exact h 2 st_two st_two_reachable 0 1 (fresh_user 0 4) (fresh_user 1 5) rfl rfl
    (by decide) rfl

/-- C2, amended. In every state that the server reaches through accepts, command
lines and disconnects whose calls all stay inside their arrays (`Reachable`: no
name of 64 bytes or more is copied into a record, whose effect is left open), two
distinct connected users that hold the same nickname both hold the default nickname
`ANONYMOUS`. -/
theorem distinct_nicknames_or_anonymous (n : Nat) (s : Server) (h : Reachable n s)
    (i j : Nat) (u v : user) (hu : s.user_list[i]? = some (some u))
    (hv : s.user_list[j]? = some (some v)) (hij : i ≠ j) (hn : u.nickname = v.nickname) :
    u.nickname = ANONYMOUS ∧ v.nickname = ANONYMOUS := by
  have hi := reachable_inv h
  rcases hi.users_ok.nick_inj i j u v hu hv hn with e | e
  · exact absurd e hij
  · exact ⟨e, by rw [← hn]; exact e⟩

/-- Witness of C2, amended: the two clients that just connected. -/
theorem distinct_nicknames_or_anonymous_witness :
    Reachable 2 st_two ∧ st_two.user_list[0]? = some (some (fresh_user 0 4)) ∧
    st_two.user_list[1]? = some (some (fresh_user 1 5)) ∧ (0 : Nat) ≠ 1 ∧
    (fresh_user 0 4).nickname = (fresh_user 1 5).nickname ∧
    (fresh_user 0 4).nickname = ANONYMOUS ∧ (fresh_user 1 5).nickname = ANONYMOUS :=
  ⟨st_two_reachable, rfl, rfl, by decide, rfl,
    distinct_nicknames_or_anonymous 2 st_two st_two_reachable 0 1 (fresh_user 0 4)
      (fresh_user 1 5) rfl rfl (by decide) rfl⟩

/-- C3 as stated fails: of two clients that both hold the default nickname, the one
in the lower slot may ask for that nickname, held by the other one too, and gets no
`NICKNAMEINUSE`; the call returns without writing anything. -/
theorem nick_in_use_fails :
    ¬ (∀ (s : Server) (fd : Int) (n : List Char) (uid : Nat) (u : user) (k : Nat) (v : user),
        find_user_by_fd s fd = some (uid, u) → s.user_list[k]? = some (some v) →
        v.fd ≠ fd → v.nickname = n →
        handle_nick s fd n = Outcome.ok
          { s with wire := s.wire ++ [Syscall.writen fd "NICKNAMEINUSE\r\n".toList] }) := by
  intro h
  have h1 := h st_two 4 ANONYMOUS 0 (fresh_user 0 4) 1 (fresh_user 1 5) (by decide) rfl
    (by decide) rfl
  have h2 : handle_nick st_two 4 ANONYMOUS = Outcome.ok st_two := by decide
  rw [h2] at h1
  exact absurd h1 (by decide)

/-- C3, amended. For every state, every connected caller and every nickname
argument such that the first user of `user_list` holding the nickname (the
argument stripped of its line terminator) is on another connection, `handle_nick`
writes the one line `NICKNAMEINUSE` to the caller and nothing else, and changes no
user or channel record. -/
theorem nick_in_use_rejected (s : Server) (fd : Int) (nickname : List Char)
    (uid : Nat) (u : user) (k : Nat) (v : user)
    (hB : find_user_by_fd s fd = some (uid, u))
    (hn : find_user_by_nick s (get_msg nickname nickname).2 = some (k, v))
    (hv : v.fd ≠ fd) :
    handle_nick s fd nickname = Outcome.ok
      { s with wire := s.wire ++ [Syscall.writen fd "NICKNAMEINUSE\r\n".toList] } := by
  unfold handle_nick
  rw [if_neg sizeof_check, hB]
  simp only [hn, hv, ne_eq, not_false_eq_true, decide_True, if_true]
  exact reply_ok_of_lt s fd _ (by decide)

/-- Witness of C3, amended: the second client asks for `bob`, held by the first. -/
theorem nick_in_use_rejected_witness :
    find_user_by_fd st_bob 5 = some (1, fresh_user 1 5) ∧
    find_user_by_nick st_bob (get_msg "bob\r\n".toList "bob\r\n".toList).2
      = some (0, { fresh_user 0 4 with nickname := "bob".toList }) ∧
    ({ fresh_user 0 4 with nickname := "bob".toList } : user).fd ≠ 5 ∧
    handle_nick st_bob 5 "bob\r\n".toList = Outcome.ok
      { st_bob with wire := st_bob.wire ++ [Syscall.writen 5 "NICKNAMEINUSE\r\n".toList] } :=
  ⟨by decide, by decide, by decide,
    nick_in_use_rejected st_bob 5 "bob\r\n".toList 1 (fresh_user 1 5) 0
      { fresh_user 0 4 with nickname := "bob".toList } (by decide) (by decide) (by decide)⟩

/-- C4, the code at the failing inputs: a nickname, a username, a hostname or a
realname of 65 characters is not answered by a "too long" line.  The length tests
compare `sizeof` of a pointer with `MAX_NAME_LEN`, never hold, and the name is
copied past the end of its 64-byte field. -/
theorem long_names_not_rejected :
    parse_cmd st_one 4 ("NICK ".toList ++ List.replicate 65 'a' ++ "\r\n".toList) 72 []
      = Outcome.undefined ∧
    parse_cmd st_one 4 ("USER ".toList ++ List.replicate 65 'a' ++ " h r\r\n".toList) 76 []
      = Outcome.undefined ∧
    parse_cmd st_one 4 ("USER u ".toList ++ List.replicate 65 'a' ++ " r\r\n".toList) 76 []
      = Outcome.undefined ∧
    parse_cmd st_one 4 ("USER u h ".toList ++ List.replicate 65 'a' ++ "\r\n".toList) 76 []
      = Outcome.undefined := by
  refine ⟨?_, ?_, ?_, ?_⟩ <;> decide

/-- C5, the code at the failing input: after `USER a b c` CR LF the realname of the
caller is `c` followed by CR LF, not `c`: `handle_user` copies its last argument
without stripping the line terminator that `parse_cmd` leaves on the last token. -/
theorem user_realname_keeps_terminator :
    parse_cmd st_one 4 "USER a b c\r\n".toList 12 [] = Outcome.ok
      { st_one with user_list :=
          [some { fresh_user 0 4 with username := "a".toList, hostname := "b".toList,
                                      realname := "c\r\n".toList }, none] } := by
  decide

/-- C8, the code at the failing input: `parse_cmd` has no branch for `QUIT`.  The
line `QUIT` CR LF is relayed to the ready clients like any unknown command and the
caller stays connected, whereas `handle_quit` (the end-of-stream path) empties the
slot of the caller. -/
theorem quit_line_is_relayed :
    parse_cmd st_ready 4 "QUIT\r\n".toList 6 [] = Outcome.ok
      { st_ready with wire := [Syscall.writen 4 "QUIT\r\n".toList] } ∧
    handle_quit st_ready 4 = Outcome.ok
      { st_ready with
          p := { st_ready.p with read_set := [3], clientfd := [-1, -1] },
          user_list := [none, none],
          wire := [Syscall.writen 4 "PART: You have not followed a channel\r\n".toList,
                   Syscall.close 4] } := by
  constructor <;> decide

/-- C11. For every state that satisfies the representation invariant, connected
sender on descriptor `fd`, message `m` of at most `MAX_MSG_LEN` bytes and targets
`t1, ..., tk` with `1 ≤ k ≤ 10`, each without comma and line feed, not beginning
with a colon and of at most `MAX_MSG_LEN` bytes: `handle_privmsg` returns for each
single target and for the comma-joined list, and the calls it makes for the list
are those it makes for `t1`, then those for `t2`, and so on to `tk`; a target that
names no channel and no user contributes exactly its own `not found` line. -/
theorem privmsg_targets_independent (n : Nat) (s : Server) (hi : Inv n s) (fd : Int)
    (uid : Nat) (u : user) (ts : List (List Char)) (m : List Char)
    (hfind : find_user_by_fd s fd = some (uid, u))
    (hk1 : 1 ≤ ts.length) (hk10 : ts.length ≤ 10)
    (hcomma : ∀ t ∈ ts, ',' ∉ t) (hlf : ∀ t ∈ ts, '\n' ∉ t)
    (hcolon : ∀ t ∈ ts, t.head? ≠ some ':')
    (hlen : ∀ t ∈ ts, t.length ≤ MAX_MSG_LEN) (hm : m.length ≤ MAX_MSG_LEN) :
    ∃ out : List Char → List Syscall,
      (∀ t ∈ ts, handle_privmsg s fd t m = Outcome.ok { s with wire := s.wire ++ out t }) ∧
      handle_privmsg s fd (join_with ',' ts) m
        = Outcome.ok { s with wire := s.wire ++ (ts.map out).flatten } ∧
      (∀ t ∈ ts,
        (∀ (j : Nat) (c : channel), s.channel_list[j]? = some (some c) → c.channelname ≠ t) →
        (∀ (k : Nat) (d : user), s.user_list[k]? = some (some d) → d.nickname ≠ t) →
        out t = [Syscall.writen fd ("PRIVMSG: ".toList ++ t ++ " not found\r\n".toList)]) := by
  refine ⟨privmsg_events s fd u (get_msg m m).2, ?_, ?_, ?_⟩
  · intro t ht
    have h : handle_privmsg s fd (join_with ',' [t]) m = Outcome.ok
        { s with wire := s.wire ++
            ([t].map (privmsg_events s fd u (get_msg m m).2)).flatten } :=
      handle_privmsg_list_run hi hfind
      (by simp [MAX_MSG_TOKENS])
      (by intro q hq; rw [List.mem_singleton.mp hq]; exact hcomma t ht)
      (by intro q hq; rw [List.mem_singleton.mp hq]; exact hlf t ht)
      (by simp)
      (by intro q hq; rw [List.mem_singleton.mp hq]; exact hlen t ht) hm
    simpa [join_with] using h
  · obtain ⟨t, rest, rfl⟩ : ∃ t rest, ts = t :: rest := by
      cases ts with
      | nil => simp at hk1
      | cons t rest => exact ⟨t, rest, rfl⟩
    exact handle_privmsg_list_run hi hfind hk10 hcomma hlf
      (fun q hq => hcolon q (List.mem_cons_of_mem _ hq)) hlen hm
  · intro t _ hno hnu
    have hfc : find_channel_by_name s t = none := by
      apply find_first_eq_none
      intro j b hb
      have := hno j b hb
      simpa using fun e => this e.symm
    have hfn : find_user_by_nick s t = none := by
      apply find_first_eq_none
      intro j b hb
      have := hnu j b hb
      simpa using this
    simp [privmsg_events, hfc, hfn]

/-- Witness of C11: with the first client holding the nickname `bob`, the second
client sends `hi` to the list `nobody,bob`; the `not found` line for `nobody` is
followed by the two copies for `bob`. -/
theorem privmsg_targets_independent_witness :
    Inv 2 st_bob ∧ find_user_by_fd st_bob 5 = some (1, fresh_user 1 5) ∧
    join_with ',' ["nobody".toList, "bob".toList] = "nobody,bob".toList ∧
    handle_privmsg st_bob 5 "nobody,bob".toList "hi".toList = Outcome.ok
      { st_bob with wire := st_bob.wire ++
          [Syscall.writen 5 "PRIVMSG: nobody not found\r\n".toList,
           Syscall.writen 5 ":ANONYMOUS PRIVMSG bob :hi\r\n".toList,
           Syscall.writen 4 ":ANONYMOUS PRIVMSG bob :hi\r\n".toList] } ∧
    ∃ out : List Char → List Syscall,
      (∀ t ∈ ["nobody".toList, "bob".toList],
        handle_privmsg st_bob 5 t "hi".toList
          = Outcome.ok { st_bob with wire := st_bob.wire ++ out t }) ∧
      handle_privmsg st_bob 5 (join_with ',' ["nobody".toList, "bob".toList]) "hi".toList
        = Outcome.ok { st_bob with wire := st_bob.wire
            ++ (["nobody".toList, "bob".toList].map out).flatten } ∧
      (∀ t ∈ ["nobody".toList, "bob".toList],
        (∀ (j : Nat) (c : channel), st_bob.channel_list[j]? = some (some c) →
          c.channelname ≠ t) →
        (∀ (k : Nat) (d : user), st_bob.user_list[k]? = some (some d) → d.nickname ≠ t) →
        out t = [Syscall.writen 5 ("PRIVMSG: ".toList ++ t ++ " not found\r\n".toList)]) :=
  ⟨reachable_inv st_bob_reachable, by decide, by decide, by decide,
    privmsg_targets_independent 2 st_bob (reachable_inv st_bob_reachable) 5 1
      (fresh_user 1 5) ["nobody".toList, "bob".toList] "hi".toList (by decide) (by decide)
      (by decide) (by decide) (by decide) (by decide) (by decide) (by decide)⟩

/-- C12 fails. Two clients are connected, on descriptors 4 and 5, and `Select`
reported only descriptor 4 ready.  The client on 4 sends `hello`, which is no
command: the line is written to descriptor 4 alone, and the client on 5 gets
nothing, because the loop skips every slot whose descriptor is not in `ready_set`. -/
theorem fallback_skips_idle_clients :
    Reachable 2 st_first_ready ∧
    find_user_by_fd st_first_ready 4 = some (0, fresh_user 0 4) ∧
    find_user_by_fd st_first_ready 5 = some (1, fresh_user 1 5) ∧
    parse_cmd st_first_ready 4 "hello\r\n".toList 7 [] = Outcome.ok
      { st_first_ready with wire := [Syscall.writen 4 "hello\r\n".toList] } ∧
    sent_to 5 [Syscall.writen 4 "hello\r\n".toList] = [] := by
  exact ⟨st_first_ready_reachable, by decide, by decide, by decide, by decide⟩

/-- C13. For every state and caller `fd`, a line whose tokens fit their slots and
whose first token, stripped of its terminator, is `NICK`, `JOIN` or `WHO` with
fewer than 2 tokens, `USER` with fewer than 4 tokens, or `PRIVMSG` with fewer than
3 tokens: `parse_cmd` returns, the only write is one line to `fd` that begins with
`Usage: ` followed by the command name and ends with CR LF, with no other CR or LF
in it, and every user and channel record is unchanged. -/
theorem usage_error (s : Server) (fd : Int) (msg : List Char) (n : Nat) (name0 : List Char)
    (cmd : List Char) (hfit : tokens_fit (tokenize (cstr msg) ' ') = true)
    (hcmd : (get_msg ((tokenize (cstr msg) ' ').getD 0 [])
      ((tokenize (cstr msg) ' ').getD 0 [])).2 = cmd)
    (hargs : (cmd = "NICK".toList ∨ cmd = "JOIN".toList ∨ cmd = "WHO".toList) ∧
        (tokenize (cstr msg) ' ').length < 2 ∨
      cmd = "USER".toList ∧ (tokenize (cstr msg) ' ').length < 4 ∨
      cmd = "PRIVMSG".toList ∧ (tokenize (cstr msg) ' ').length < 3) :
    ∃ usage : List Char, '\r' ∉ usage ∧ '\n' ∉ usage ∧
      parse_cmd s fd msg n name0 = Outcome.ok
        { s with wire := s.wire ++
            [Syscall.writen fd ("Usage: ".toList ++ cmd ++ usage ++ "\r\n".toList)] } := by
  have hne : (tokenize (cstr msg) ' ').length ≠ 0 := by
    simp only [tokenize, MAX_MSG_TOKENS, tokenize_loop]
    split
    · split <;> simp
    · simp
  rcases hargs with ⟨h1 | h1 | h1, h2⟩ | ⟨h1, h2⟩ | ⟨h1, h2⟩
  · subst h1
    refine ⟨" <nickname>".toList, by decide, by decide, ?_⟩
    simp only [parse_cmd, hfit, hcmd, if_neg hne, if_pos h2]
    rfl
  · subst h1
    refine ⟨" <channel>".toList, by decide, by decide, ?_⟩
    simp only [parse_cmd, hfit, hcmd, if_neg hne, if_pos h2]
    rfl
  · subst h1
    refine ⟨" <channel>".toList, by decide, by decide, ?_⟩
    simp only [parse_cmd, hfit, hcmd, if_neg hne, if_pos h2]
    rfl
  · subst h1
    refine ⟨" <username> <hostname> <realname>".toList, by decide, by decide, ?_⟩
    simp only [parse_cmd, hfit, hcmd, if_neg hne, if_pos h2]
    rfl
  · subst h1
    refine ⟨" <to> <message>".toList, by decide, by decide, ?_⟩
    simp only [parse_cmd, hfit, hcmd, if_neg hne, if_pos h2]
    rfl

/-- Witness of C13: the only client sends `NICK` alone, then `USER a b`. -/
theorem usage_error_witness :
    (tokens_fit (tokenize (cstr "NICK\r\n".toList) ' ') = true ∧
      (tokenize (cstr "NICK\r\n".toList) ' ').length < 2 ∧
      ∃ usage : List Char, '\r' ∉ usage ∧ '\n' ∉ usage ∧
        parse_cmd st_one 4 "NICK\r\n".toList 6 [] = Outcome.ok
          { st_one with wire := st_one.wire ++
              [Syscall.writen 4 ("Usage: ".toList ++ "NICK".toList ++ usage
                ++ "\r\n".toList)] }) ∧
    (tokens_fit (tokenize (cstr "USER a b\r\n".toList) ' ') = true ∧
      (tokenize (cstr "USER a b\r\n".toList) ' ').length < 4 ∧
      ∃ usage : List Char, '\r' ∉ usage ∧ '\n' ∉ usage ∧
        parse_cmd st_one 4 "USER a b\r\n".toList 10 [] = Outcome.ok
          { st_one with wire := st_one.wire ++
              [Syscall.writen 4 ("Usage: ".toList ++ "USER".toList ++ usage
                ++ "\r\n".toList)] }) :=
  ⟨⟨by decide, by decide,
      usage_error st_one 4 "NICK\r\n".toList 6 [] "NICK".toList (by decide) (by decide)
        (by decide)⟩,
    ⟨by decide, by decide,
      usage_error st_one 4 "USER a b\r\n".toList 10 [] "USER".toList (by decide) (by decide)
        (by decide)⟩⟩

/-- C14 fails. The line `a b c d e f g h i j :k`, cut at spaces: the tenth space is
followed by a colon, so the round of the loop that fills slot 9 also copies the
trailing text `k` to slot 10, one past the last row of `tokens`, and the count
returned is 11.  No line makes `tokenize` return more than 11.  A connected client
that sends this line makes `parse_cmd` run into the overrun. -/
theorem tokenize_eleven_tokens :
    (tokenize "a b c d e f g h i j :k".toList ' ').length = 11 ∧
    (tokenize "a b c d e f g h i j :k".toList ' ')[10]? = some "k".toList ∧
    tokens_fit (tokenize "a b c d e f g h i j :k".toList ' ') = false ∧
    (∀ (line : List Char) (d : Char), (tokenize line d).length ≤ MAX_MSG_TOKENS + 1) ∧
    Reachable 2 st_one ∧
    parse_cmd st_one 4 "a b c d e f g h i j :k\r\n".toList 24 [] = Outcome.undefined := by
  refine ⟨by decide, by decide, by decide, ?_, st_one_reachable, by decide⟩
  intro line d
  exact tokenize_loop_length_le d MAX_MSG_TOKENS line

/-- C15 as stated fails.  The claim is for strings of any length, and `tokenize`
copies each string into a row of 513 bytes without looking at its length.  For the
delimiter space, `p1` of 513 letters and `rest = x` the copy of `p1` fills row 0
and its terminator falls on the first byte of row 1, where the copy of `rest` then
lands: the call has no defined result, and what row 0 holds does not end where `p1`
ends.  Besides, for the colon as delimiter and an empty `p2`, the line `a:::r`
gives the two tokens `a` and `:r`, not `a`, the empty string and `r`. -/
theorem trailing_token_fails :
    (¬ ∀ (d : Char) (ps : List (List Char)) (rest : List Char),
        1 ≤ ps.length → ps.length ≤ 9 → (∀ p ∈ ps, d ∉ p) →
        (∀ p ∈ ps.tail, p.head? ≠ some ':') →
        tokenize_call (join_with d ps ++ d :: ':' :: rest) d = Outcome.ok (ps ++ [rest])) ∧
    tokenize_call (List.replicate 513 'a' ++ " :x".toList) ' ' = Outcome.undefined ∧
    tokenize_call "a:::r".toList ':' = Outcome.ok ["a".toList, ":r".toList] := by
  have hlong := tokenize_call_long_trailing 513 (by decide)
  refine ⟨?_, hlong, by decide⟩
  intro h
  have h1 := h ' ' [List.replicate 513 'a'] "x".toList (by decide) (by decide)
    (by intro p hp; rw [List.mem_singleton.mp hp]; exact space_not_mem_replicate 513)
    (by intro p hp; exact absurd hp (List.not_mem_nil p))
  have h2 : join_with ' ' [List.replicate 513 'a'] ++ ' ' :: ':' :: "x".toList
      = List.replicate 513 'a' ++ " :x".toList := rfl
  rw [h2, hlong] at h1
  exact Outcome.noConfusion h1

/-- C15, amended. For every delimiter `d` other than the string terminator, every
`k` with `1 ≤ k ≤ 9`, all strings `p1..pk` of at most `MAX_MSG_LEN` bytes that
contain no `d`, where each of `p2..pk` followed by `d` does not begin with a colon
(none begins with a colon, and none is empty when `d` is the colon), and every
string `rest` of at most `MAX_MSG_LEN` bytes: the call of `tokenize` on
`p1 d p2 d ... pk d : rest` stays inside the token array and returns `k + 1`, and
the tokens are `p1, ..., pk` followed by `rest` taken verbatim. -/
theorem trailing_token_rule (d : Char) (ps : List (List Char)) (rest : List Char)
    (_hd : d ≠ Char.ofNat 0) (hk1 : 1 ≤ ps.length) (hk9 : ps.length ≤ 9)
    (hps : ∀ p ∈ ps, d ∉ p) (hcolon : ∀ p ∈ ps.tail, (p ++ [d]).head? ≠ some ':')
    (hlen : ∀ p ∈ ps, p.length ≤ MAX_MSG_LEN) (hrest : rest.length ≤ MAX_MSG_LEN) :
    tokenize_call (join_with d ps ++ d :: ':' :: rest) d = Outcome.ok (ps ++ [rest]) ∧
    (ps ++ [rest]).length = ps.length + 1 := by
  obtain ⟨p, qs, rfl⟩ : ∃ p qs, ps = p :: qs := by
    cases ps with
    | nil => simp at hk1
    | cons p qs => exact ⟨p, qs, rfl⟩
  have ht : tokenize (join_with d (p :: qs) ++ d :: ':' :: rest) d = p :: qs ++ [rest] :=
    tokenize_loop_join_trailing d rest qs p MAX_MSG_TOKENS
      (by simp only [List.length_cons] at hk9; simp only [MAX_MSG_TOKENS]; omega) hps hcolon
  refine ⟨tokenize_call_ok ht ?_ ?_, by simp⟩
  · simp only [List.length_append, List.length_cons, List.length_nil, MAX_MSG_TOKENS] at hk9 ⊢
    omega
  · intro t ht2
    simp only [List.mem_append, List.mem_singleton] at ht2
    rcases ht2 with ht2 | ht2
    · exact hlen t ht2
    · rw [ht2]; exact hrest

/-- Witness of C15, amended: `PRIVMSG bob :hello there friend` cut at spaces. -/
theorem trailing_token_rule_witness :
    ' ' ≠ Char.ofNat 0 ∧ 1 ≤ ["PRIVMSG".toList, "bob".toList].length ∧
    ["PRIVMSG".toList, "bob".toList].length ≤ 9 ∧
    (∀ p ∈ ["PRIVMSG".toList, "bob".toList], ' ' ∉ p) ∧
    (∀ p ∈ ["PRIVMSG".toList, "bob".toList].tail, (p ++ [' ']).head? ≠ some ':') ∧
    (∀ p ∈ ["PRIVMSG".toList, "bob".toList], p.length ≤ MAX_MSG_LEN) ∧
    "hello there friend".toList.length ≤ MAX_MSG_LEN ∧
    join_with ' ' ["PRIVMSG".toList, "bob".toList] ++ ' ' :: ':' :: "hello there friend".toList
      = "PRIVMSG bob :hello there friend".toList ∧
    tokenize_call "PRIVMSG bob :hello there friend".toList ' '
      = Outcome.ok ["PRIVMSG".toList, "bob".toList, "hello there friend".toList] ∧
    (["PRIVMSG".toList, "bob".toList] ++ ["hello there friend".toList]).length = 3 := by
  have h := trailing_token_rule ' ' ["PRIVMSG".toList, "bob".toList]
    "hello there friend".toList (by decide) (by decide) (by decide) (by decide) (by decide)
    (by decide) (by decide)
  exact ⟨by decide, by decide, by decide, by decide, by decide, by decide, by decide,
    by decide, h.1, h.2⟩

/-- C16 as stated fails.  The claim is for every line, and `tokenize` copies each
field into a row of 513 bytes without looking at its length.  For the line of 600
letters followed by a space and `b`, cut at spaces, the copy of the first field
runs over row 0 into row 1, and the copy of `b` then lands on row 1, in the middle
of it: the call has no defined result, and row 0 does not hold the first field. -/
theorem plain_fields_fail :
    (¬ ∀ (d : Char) (line : List Char), delim_colon d line = false →
        tokenize_call line d = Outcome.ok
          ((line.splitOn d).take (min (line.count d + 1) MAX_MSG_TOKENS))) ∧
    delim_colon ' ' (List.replicate 600 'a' ++ " b".toList) = false ∧
    tokenize_call (List.replicate 600 'a' ++ " b".toList) ' ' = Outcome.undefined := by
  have hdc := delim_colon_replicate 600
  have hlong := tokenize_call_long_plain 600 (by decide)
  refine ⟨?_, hdc, hlong⟩
  intro h
  have h1 := h ' ' (List.replicate 600 'a' ++ " b".toList) hdc
  rw [hlong] at h1
  exact Outcome.noConfusion h1

/-- C16, amended. For every delimiter `d` other than the string terminator and
every line in which no occurrence of `d` is immediately followed by a colon, with
`n` the number of occurrences of `d` plus 1, when none of the first `min(n, 10)`
of the `d`-separated fields of the line is longer than `MAX_MSG_LEN` bytes: the
call of `tokenize` stays inside the token array and returns `min(n, 10)`, and the
tokens are exactly those first `min(n, 10)` fields in order; the text after the
tenth field is dropped. -/
theorem tokenize_plain_fields (d : Char) (line : List Char) (_hd : d ≠ Char.ofNat 0)
    (hline : delim_colon d line = false)
    (hlen : ∀ t ∈ (line.splitOn d).take (min (line.count d + 1) MAX_MSG_TOKENS),
      t.length ≤ MAX_MSG_LEN) :
    tokenize_call line d = Outcome.ok
      ((line.splitOn d).take (min (line.count d + 1) MAX_MSG_TOKENS)) ∧
    ((line.splitOn d).take (min (line.count d + 1) MAX_MSG_TOKENS)).length
      = min (line.count d + 1) MAX_MSG_TOKENS := by
  have ht : tokenize line d = (line.splitOn d).take MAX_MSG_TOKENS :=
    tokenize_loop_fields d MAX_MSG_TOKENS line hline
  have hn := splitOn_length d line
  have hmin : (line.splitOn d).take (min (line.count d + 1) MAX_MSG_TOKENS)
      = (line.splitOn d).take MAX_MSG_TOKENS := by
    rw [← hn, List.take_eq_take]
    simp [Nat.min_comm]
  rw [hmin] at hlen ⊢
  refine ⟨tokenize_call_ok ht ?_ hlen, ?_⟩
  · rw [List.length_take]
    exact Nat.min_le_left _ _
  · rw [List.length_take, hn, Nat.min_comm]

/-- Witness of C16, amended: `JOIN #x` has two fields and both are kept; a line of
twelve fields is cut after the tenth. -/
theorem tokenize_plain_fields_witness :
    (' ' ≠ Char.ofNat 0 ∧ delim_colon ' ' "JOIN #x".toList = false ∧
      (∀ t ∈ ("JOIN #x".toList.splitOn ' ').take
          (min ("JOIN #x".toList.count ' ' + 1) MAX_MSG_TOKENS), t.length ≤ MAX_MSG_LEN) ∧
      tokenize_call "JOIN #x".toList ' ' = Outcome.ok ["JOIN".toList, "#x".toList]) ∧
    (' ' ≠ Char.ofNat 0 ∧ delim_colon ' ' "a b c d e f g h i j k l".toList = false ∧
      (∀ t ∈ ("a b c d e f g h i j k l".toList.splitOn ' ').take
          (min ("a b c d e f g h i j k l".toList.count ' ' + 1) MAX_MSG_TOKENS),
        t.length ≤ MAX_MSG_LEN) ∧
      tokenize_call "a b c d e f g h i j k l".toList ' ' = Outcome.ok
        ["a".toList, "b".toList, "c".toList, "d".toList, "e".toList, "f".toList,
         "g".toList, "h".toList, "i".toList, "j".toList]) := by
  have h1 := tokenize_plain_fields ' ' "JOIN #x".toList (by decide) (by decide) (by decide)
  have h2 := tokenize_plain_fields ' ' "a b c d e f g h i j k l".toList (by decide)
    (by decide) (by decide)
  refine ⟨⟨by decide, by decide, by decide, ?_⟩, by decide, by decide, by decide, ?_⟩
  · rw [h1.1]
    decide
  · rw [h2.1]
    decide

/-- C17. For every buffer `buf` (shorter than 2^31 bytes, so that the `int`
variable `len` holds the count) and every content `msg` of the output buffer: if CR
LF occurs in `buf`, with `e` the offset of its first occurrence, `get_msg` yields
the `e` bytes before it and returns `e + 2`; otherwise, if LF occurs in `buf`, with
`e` the offset of its first occurrence, `get_msg` yields the `e` bytes before it and
returns `e + 1`; otherwise `get_msg` returns `(size_t)-1` and the output buffer
holds what it held.  A count returned for a line is below 2^31, hence never the
signal. -/
theorem get_msg_contract (buf msg : List Char) (hlen : buf.length < 2 ^ 31) :
    ((∃ i, occurs_at ['\r', '\n'] buf i = true) →
      ∃ e, occurs_at ['\r', '\n'] buf e = true ∧
        (∀ j, j < e → occurs_at ['\r', '\n'] buf j = false) ∧
        get_msg buf msg = (e + 2, buf.take e) ∧ e + 2 < 2 ^ 31) ∧
    ((∀ i, occurs_at ['\r', '\n'] buf i = false) → (∃ i, occurs_at ['\n'] buf i = true) →
      ∃ e, occurs_at ['\n'] buf e = true ∧
        (∀ j, j < e → occurs_at ['\n'] buf j = false) ∧
        get_msg buf msg = (e + 1, buf.take e) ∧ e + 1 < 2 ^ 31) ∧
    ((∀ i, occurs_at ['\r', '\n'] buf i = false) → (∀ i, occurs_at ['\n'] buf i = false) →
      get_msg buf msg = (SIZE_MAX, msg)) := by
  refine ⟨?_, ?_, ?_⟩
  · rintro ⟨i, hi⟩
    cases h : strstr buf ['\r', '\n'] with
    | none => rw [strstr_none_spec _ buf h i] at hi; simp at hi
    | some e =>
      obtain ⟨h1, h2⟩ := strstr_some_spec _ buf e h
      have hb := occurs_at_bound _ buf e (by simp) h1
      refine ⟨e, h1, h2, by simp [get_msg, get_msg_end, h], ?_⟩
      simp only [List.length_cons, List.length_nil] at hb
      omega
  · rintro hno ⟨i, hi⟩
    have hcr : strstr buf ['\r', '\n'] = none := by
      cases h : strstr buf ['\r', '\n'] with
      | none => rfl
      | some e =>
        have := (strstr_some_spec _ buf e h).1
        rw [hno e] at this
        simp at this
    cases h : strstr buf ['\n'] with
    | none => rw [strstr_none_spec _ buf h i] at hi; simp at hi
    | some e =>
      obtain ⟨h1, h2⟩ := strstr_some_spec _ buf e h
      have hb := occurs_at_bound _ buf e (by simp) h1
      refine ⟨e, h1, h2, by simp [get_msg, get_msg_end, h, hcr], ?_⟩
      simp only [List.length_cons, List.length_nil] at hb
      omega
  · intro hno hnl
    have hcr : strstr buf ['\r', '\n'] = none := by
      cases h : strstr buf ['\r', '\n'] with
      | none => rfl
      | some e =>
        have := (strstr_some_spec _ buf e h).1
        rw [hno e] at this
        simp at this
    have hlf : strstr buf ['\n'] = none := by
      cases h : strstr buf ['\n'] with
      | none => rfl
      | some e =>
        have := (strstr_some_spec _ buf e h).1
        rw [hnl e] at this
        simp at this
    simp [get_msg, get_msg_end, hcr, hlf]

/-- Witness of C17: a buffer with CR LF after `NICK alice`, one with a bare LF
after `JOIN #x`, and one without a terminator. -/
theorem get_msg_contract_witness :
    ("NICK alice\r\nJOIN #x\r\n".toList.length < 2 ^ 31 ∧
      occurs_at ['\r', '\n'] "NICK alice\r\nJOIN #x\r\n".toList 10 = true ∧
      ∃ e, occurs_at ['\r', '\n'] "NICK alice\r\nJOIN #x\r\n".toList e = true ∧
        (∀ j, j < e → occurs_at ['\r', '\n'] "NICK alice\r\nJOIN #x\r\n".toList j = false) ∧
        get_msg "NICK alice\r\nJOIN #x\r\n".toList []
          = (e + 2, "NICK alice\r\nJOIN #x\r\n".toList.take e) ∧ e + 2 < 2 ^ 31) ∧
    ("JOIN #x\n".toList.length < 2 ^ 31 ∧
      (∀ i, occurs_at ['\r', '\n'] "JOIN #x\n".toList i = false) ∧
      occurs_at ['\n'] "JOIN #x\n".toList 7 = true ∧
      ∃ e, occurs_at ['\n'] "JOIN #x\n".toList e = true ∧
        (∀ j, j < e → occurs_at ['\n'] "JOIN #x\n".toList j = false) ∧
        get_msg "JOIN #x\n".toList [] = (e + 1, "JOIN #x\n".toList.take e) ∧
        e + 1 < 2 ^ 31) ∧
    ("PART".toList.length < 2 ^ 31 ∧
      (∀ i, occurs_at ['\r', '\n'] "PART".toList i = false) ∧
      (∀ i, occurs_at ['\n'] "PART".toList i = false) ∧
      get_msg "PART".toList "old".toList = (SIZE_MAX, "old".toList)) := by
  have hcr : ∀ i, occurs_at ['\r', '\n'] "PART".toList i = false :=
    strstr_none_spec _ _ (by decide)
  have hlf : ∀ i, occurs_at ['\n'] "PART".toList i = false :=
    strstr_none_spec _ _ (by decide)
  have hjoin : ∀ i, occurs_at ['\r', '\n'] "JOIN #x\n".toList i = false :=
    strstr_none_spec _ _ (by decide)
  exact ⟨⟨by decide, by decide,
      (get_msg_contract "NICK alice\r\nJOIN #x\r\n".toList [] (by decide)).1
        ⟨10, by decide⟩⟩,
    ⟨by decide, hjoin, by decide,
      (get_msg_contract "JOIN #x\n".toList [] (by decide)).2.1 hjoin ⟨7, by decide⟩⟩,
    ⟨by decide, hcr, hlf, (get_msg_contract "PART".toList "old".toList (by decide)).2.2 hcr hlf⟩⟩

/-- C18. For every finite list of lines, each containing no LF (a CR inside a line
does no harm), whose concatenation, each line followed by CR LF, is shorter than
2^31 bytes: applying `get_msg` repeatedly to that buffer, advanced each time by
the count returned, yields exactly those lines in order and leaves zero bytes, on
which `get_msg` returns `(size_t)-1` and leaves the output buffer as it was. -/
theorem framing_round_trip (lines : List (List Char)) (msg : List Char)
    (hlf : ∀ l ∈ lines, '\n' ∉ l) (hlen : (wire_lines lines).length < 2 ^ 31) :
    frame_all (wire_lines lines) = (lines, []) ∧
    get_msg (frame_all (wire_lines lines)).2 msg = (SIZE_MAX, msg) := by
  have h : frame_all (wire_lines lines) = (lines, []) :=
    frame_loop_lines lines _ (by have := wire_lines_count lines; omega) hlf hlen
  rw [h]
  exact ⟨rfl, get_msg_no_lf [] msg (by simp)⟩

/-- Witness of C18: the buffer `NICK alice` CR LF `JOIN #x` CR LF. -/
theorem framing_round_trip_witness :
    wire_lines ["NICK alice".toList, "JOIN #x".toList] = "NICK alice\r\nJOIN #x\r\n".toList ∧
    (∀ l ∈ ["NICK alice".toList, "JOIN #x".toList], '\n' ∉ l) ∧
    (wire_lines ["NICK alice".toList, "JOIN #x".toList]).length < 2 ^ 31 ∧
    frame_all (wire_lines ["NICK alice".toList, "JOIN #x".toList])
      = (["NICK alice".toList, "JOIN #x".toList], []) ∧
    get_msg (frame_all (wire_lines ["NICK alice".toList, "JOIN #x".toList])).2 []
      = (SIZE_MAX, []) :=
  ⟨by decide, by decide, by decide,
    framing_round_trip ["NICK alice".toList, "JOIN #x".toList] [] (by decide) (by decide)⟩

/-- C19 fails. `handle_list` writes the row of a channel without CR LF and, after
the last row, one CR LF alone.  With no channel the caller gets three lines, the
second of them empty; with the two channels `#x` and `#y` the caller gets three
lines again, the second holding both rows glued together. -/
theorem list_rows_not_lines :
    Reachable 2 st_one ∧
    handle_list st_one 4 = Outcome.ok
      { st_one with wire :=
          [Syscall.writen 4 ":LIST 321 ANONYMOUS Channel :Users Name\r\n".toList,
           Syscall.writen 4 "\r\n".toList,
           Syscall.writen 4 ":LIST 323 ANONYMOUS :End of /LIST\r\n".toList] } ∧
    Reachable 2 st_split ∧
    handle_list st_split 4 = Outcome.ok
      { st_split with wire := st_split.wire ++
          [Syscall.writen 4 ":LIST 321 ANONYMOUS Channel :Users Name\r\n".toList,
           Syscall.writen 4 ":LIST 322 ANONYMOUS #x 1".toList,
           Syscall.writen 4 ":LIST 322 ANONYMOUS #y 1".toList,
           Syscall.writen 4 "\r\n".toList,
           Syscall.writen 4 ":LIST 323 ANONYMOUS :End of /LIST\r\n".toList] } ∧
    (sent_to 4
        [Syscall.writen 4 ":LIST 321 ANONYMOUS Channel :Users Name\r\n".toList,
         Syscall.writen 4 ":LIST 322 ANONYMOUS #x 1".toList,
         Syscall.writen 4 ":LIST 322 ANONYMOUS #y 1".toList,
         Syscall.writen 4 "\r\n".toList,
         Syscall.writen 4 ":LIST 323 ANONYMOUS :End of /LIST\r\n".toList]).flatten
      = (":LIST 321 ANONYMOUS Channel :Users Name\r\n" ++
         ":LIST 322 ANONYMOUS #x 1:LIST 322 ANONYMOUS #y 1\r\n" ++
         ":LIST 323 ANONYMOUS :End of /LIST\r\n").toList := by
  exact ⟨st_one_reachable, by decide, st_split_reachable, by decide, by decide⟩

/-- C21, the code at the failing inputs: the length test of `handle_nick` compares
`sizeof` of a pointer with `MAX_NAME_LEN` and never holds (the defect of C4), so
that a command line can change the `fd` and the `index` of a record.  Of two connected
clients, the one on descriptor 5 sends `NICK` with a nickname of 64 letters:
`strcpy` writes 65 bytes to the 64-byte field `nickname`, the last of them on the
field `fd` that follows it in `struct user`, so that the `fd` of the record is no
longer the descriptor of its slot in `p->clientfd`; with 73 letters the bytes
reach the field `index`.  Neither call has a defined result. -/
theorem slot_record_broken_by_long_nick :
    Reachable 2 st_two ∧
    st_two.user_list[1]? = some (some (fresh_user 1 5)) ∧ st_two.p.clientfd[1]? = some 5 ∧
    ¬ (MAX_NAME_LEN < sizeof_char_ptr) ∧
    MAX_NAME_LEN ≤ (List.replicate 64 'b').length ∧
    parse_cmd st_two 5 ("NICK ".toList ++ List.replicate 64 'b' ++ "\r\n".toList) 71 []
      = Outcome.undefined ∧
    parse_cmd st_two 5 ("NICK ".toList ++ List.replicate 73 'b' ++ "\r\n".toList) 80 []
      = Outcome.undefined := by
  refine ⟨st_two_reachable, rfl, rfl, by decide, by decide, by decide, by decide⟩

/-- The identity of slots on the runs of `Reachable`, those in which every call
stays inside its arrays.  For every slot `i`: `p->clientfd[i]` holds a
descriptor (a value that is not negative; an empty slot holds -1) if and only if
`user_list[i]` holds a user record, and then the `fd` of that record is
`p->clientfd[i]` and its `index` is `i`.  A step of the server that returns, be it
`parse_cmd` on any line from any descriptor, `add_client` for a new connection or
`handle_quit` for another descriptor, leaves a record in slot `i` with the same
`index` and the same `fd`. -/
theorem slot_identity (n : Nat) (s : Server) (h : Reachable n s) (i : Nat) :
    ((∃ fd : Int, s.p.clientfd[i]? = some fd ∧ 0 ≤ fd) ↔
      ∃ u : user, s.user_list[i]? = some (some u)) ∧
    (s.user_list[i]? = some none → s.p.clientfd[i]? = some (-1)) ∧
    ∀ u : user, s.user_list[i]? = some (some u) →
      s.p.clientfd[i]? = some u.fd ∧ u.index = i ∧
      (∀ (fd : Int) (msg : List Char) (len : Nat) (name0 : List Char) (s1 : Server),
        parse_cmd s fd msg len name0 = Outcome.ok s1 →
        ∃ u1 : user, s1.user_list[i]? = some (some u1) ∧ u1.index = u.index ∧ u1.fd = u.fd) ∧
      (∀ (connfd : Int) (s1 : Server), 0 ≤ connfd → connfd ∉ s.p.clientfd →
        add_client s connfd = Outcome.ok s1 →
        ∃ u1 : user, s1.user_list[i]? = some (some u1) ∧ u1.index = u.index ∧ u1.fd = u.fd) ∧
      (∀ (fd : Int) (s1 : Server), fd ≠ u.fd → handle_quit s fd = Outcome.ok s1 →
        ∃ u1 : user, s1.user_list[i]? = some (some u1) ∧ u1.index = u.index ∧ u1.fd = u.fd) := by
  have hi := reachable_inv h
  refine ⟨⟨?_, ?_⟩, hi.users_ok.free_ok i, ?_⟩
  · rintro ⟨fd, hf, h0⟩
    obtain ⟨u, hu, _⟩ := hi.slot_user hf h0
    exact ⟨u, hu⟩
  · rintro ⟨u, hu⟩
    obtain ⟨_, h2, h3⟩ := hi.users_ok.user_ok i u hu
    exact ⟨u.fd, h2, h3⟩
  · intro u hu
    obtain ⟨hidx, hfd, h0⟩ := hi.users_ok.user_ok i u hu
    refine ⟨hfd, hidx, ?_, ?_, ?_⟩
    · intro fd msg len name0 s1 hs1
      have hp := parse_cmd_pool hs1
      obtain ⟨u1, hu1, e1, e2⟩ := (parse_cmd_inv hi hs1).slot_user (f := u.fd)
        (by rw [hp]; exact hfd) h0
      exact ⟨u1, hu1, by rw [e1, hidx], e2⟩
    · intro connfd s1 hc hfresh hs1
      obtain ⟨k, f0, _, hf0, hneg, e1, _⟩ := add_client_cases hs1
      have hk : i ≠ k := by
        intro e
        rw [e, hf0] at hfd
        simp only [Option.some.injEq] at hfd
        omega
      obtain ⟨u1, hu1, e2, e3⟩ := (add_client_inv hi hc hfresh hs1).slot_user (f := u.fd)
        (by rw [e1, set_other _ _ _ _ hk]; exact hfd) h0
      exact ⟨u1, hu1, by rw [e2, hidx], e3⟩
    · intro fd s1 hne hs1
      obtain ⟨s0, uid, u0, hpart, hfind, _, e1, _⟩ := handle_quit_cases hs1
      have hi0 := handle_part_inv hi hpart
      obtain ⟨hU0, hfd0⟩ := find_user_by_fd_some hfind
      have hcf0 := (hi0.users_ok.user_ok uid u0 hU0).2.1
      have hp0 := handle_part_pool hpart
      have hk : i ≠ uid := by
        intro e
        rw [hp0, ← e, hfd] at hcf0
        simp only [Option.some.injEq] at hcf0
        exact hne (by rw [← hfd0, hcf0])
      obtain ⟨u1, hu1, e2, e3⟩ := (handle_quit_inv hi hs1).slot_user (f := u.fd)
        (by rw [e1, set_other _ _ _ _ hk, hp0]; exact hfd) h0
      exact ⟨u1, hu1, by rw [e2, hidx], e3⟩

/-- An instance of the identity of slots: slot 0 of the server with two clients, the first named `bob`. -/
theorem slot_identity_witness :
    Reachable 2 st_bob ∧
    st_bob.user_list[0]? = some (some { fresh_user 0 4 with nickname := "bob".toList }) ∧
    st_bob.p.clientfd[0]? = some 4 ∧
    (∀ (fd : Int) (s1 : Server), fd ≠ 4 → handle_quit st_bob fd = Outcome.ok s1 →
      ∃ u1 : user, s1.user_list[0]? = some (some u1) ∧ u1.index = 0 ∧ u1.fd = 4) ∧
    (∀ (fd : Int) (msg : List Char) (len : Nat) (name0 : List Char) (s1 : Server),
      parse_cmd st_bob fd msg len name0 = Outcome.ok s1 →
      ∃ u1 : user, s1.user_list[0]? = some (some u1) ∧ u1.index = 0 ∧ u1.fd = 4) :=
  ⟨st_bob_reachable, rfl, rfl,
    ((slot_identity 2 st_bob st_bob_reachable 0).2.2
      { fresh_user 0 4 with nickname := "bob".toList } rfl).2.2.2.2,
    ((slot_identity 2 st_bob st_bob_reachable 0).2.2
      { fresh_user 0 4 with nickname := "bob".toList } rfl).2.2.1⟩

/-- C22 fails. `handle_quit` calls `handle_part` whatever the caller follows, and
`handle_part` answers a caller that follows no channel with a line of its own.  Of
two connected clients in no channel, the one on descriptor 4 reaches the end of its
stream: the line `PART: You have not followed a channel` is written to descriptor 4
before it is closed.  The same holds in every reachable state for every connected
user that follows no channel; nothing is written to any other descriptor. -/
theorem quit_outside_channel_writes :
    Reachable 2 st_two ∧
    st_two.user_list[0]? = some (some (fresh_user 0 4)) ∧ (fresh_user 0 4).channel = -1 ∧
    handle_quit st_two 4 = Outcome.ok
      { st_two with
          p := { st_two.p with read_set := [5, 3], clientfd := [-1, 5] },
          user_list := [none, some (fresh_user 1 5)],
          wire := [Syscall.writen 4 "PART: You have not followed a channel\r\n".toList,
                   Syscall.close 4] } ∧
    (∀ (n : Nat) (s : Server) (uid : Nat) (u : user), Reachable n s →
      s.user_list[uid]? = some (some u) → u.channel < 0 →
      ∃ s1 : Server, handle_quit s u.fd = Outcome.ok s1 ∧
        s1.wire = s.wire ++
          [Syscall.writen u.fd "PART: You have not followed a channel\r\n".toList,
           Syscall.close u.fd] ∧
        s1.user_list = s.user_list.set uid none ∧
        s1.p.clientfd = s.p.clientfd.set uid (-1) ∧
        s1.channel_list = s.channel_list) := by
  refine ⟨st_two_reachable, rfl, rfl, by decide, ?_⟩
  intro n s uid u h hU hneg
  exact ⟨_, handle_quit_run_none (reachable_inv h) hU hneg, rfl, rfl, rfl, rfl⟩

/-- C23 fails. `get_msg` returns a `size_t`, so that the test `get_msg(...) < 0` of
`handle_join` and `handle_who` is never true and the copy of the argument into
`name` is never made: for an argument without line feed `get_msg` does signal "no
complete line", and `name` is left holding what the stack held (`name0`).  The only
client sends `JOIN #x extra`: with `zz` on the stack it joins a new channel named
`zz`, and no channel is named `#x`; with 64 bytes other than NUL on the stack the
buffer holds no string at all.  A member of `#x` that sends `WHO #x extra` is told
that there is no such channel. -/
theorem channel_argument_not_used :
    tokenize (cstr "JOIN #x extra\r\n".toList) ' '
      = ["JOIN".toList, "#x".toList, "extra\r\n".toList] ∧
    get_msg "#x".toList "zz".toList = (SIZE_MAX, "zz".toList) ∧
    (∀ arg name0 : List Char, '\n' ∉ arg →
      get_msg arg name0 = (SIZE_MAX, name0) ∧
      local_name arg name0 =
        if MAX_NAME_LEN ≤ name0.length then Outcome.undefined else Outcome.ok name0) ∧
    Reachable 2 st_one ∧
    parse_cmd st_one 4 "JOIN #x extra\r\n".toList 15 "zz".toList = Outcome.ok
      { st_joined with
          channel_list := [some { channelname := "zz".toList, index := 0, follower := [0, -1] },
                           none],
          wire := [Syscall.writen 4 ":ANONYMOUS JOIN zz\r\n".toList,
                   Syscall.writen 4 ":JOIN 353 ANONYMOUS = zz : ".toList,
                   Syscall.writen 4 "ANONYMOUS ".toList,
                   Syscall.writen 4 "\r\n".toList,
                   Syscall.writen 4 ":JOIN 366 ANONYMOUS zz :End of /NAMES list\r\n".toList] } ∧
    parse_cmd st_one 4 "JOIN #x extra\r\n".toList 15 (List.replicate 64 'a')
      = Outcome.undefined ∧
    Reachable 2 st_joined ∧
    find_channel_by_name st_joined "#x".toList
      = some (0, { channelname := "#x".toList, index := 0, follower := [0, -1] }) ∧
    parse_cmd st_joined 4 "WHO #x extra\r\n".toList 14 "zz".toList = Outcome.ok
      { st_joined with wire := st_joined.wire ++
          [Syscall.writen 4 "WHO: No such channel\r\n".toList] } := by
  refine ⟨by decide, by decide, ?_, st_one_reachable, by decide, by decide,
    st_joined_reachable, by decide, by decide⟩
  intro arg name0 h
  exact ⟨get_msg_no_lf arg name0 h, local_name_no_lf arg name0 h⟩

/-- C24 fails. `check_clients` makes one call of `Rio_readlineb` for a ready
descriptor, on a copy of `p->clientrio[i]` that it does not store back.  The
descriptor of the only client delivers `NICK alice` CR LF `JOIN #x` CR LF in one
`read`: both lines leave the descriptor, the first is handed to `parse_cmd`, the
second stays in the read buffer of the copy and is lost with it.  In the next
round, on the line `LIST`, that line is handed over and `JOIN #x` never is: no
channel exists. -/
theorem second_line_is_dropped :
    Reachable 2 st_ready ∧
    frame_all "NICK alice\r\nJOIN #x\r\n".toList
      = (["NICK alice".toList, "JOIN #x".toList], []) ∧
    Rio_readlineb (Rio_readinitb 4) w_two_lines.net MAXLINE
      = some ("NICK alice\r\n".toList,
          { rio_fd := 4, rio_buf := "JOIN #x\r\n".toList }, [(4, [])]) ∧
    check_clients [] w_two_lines = some (Outcome.ok
      { srv := st_alice, net := [(4, [])], handed := [(4, "NICK alice\r\n".toList)] }) ∧
    check_clients [] w_next_round = some (Outcome.ok
      { srv := { st_alice with wire :=
                  [Syscall.writen 4 ":LIST 321 alice Channel :Users Name\r\n".toList,
                   Syscall.writen 4 "\r\n".toList,
                   Syscall.writen 4 ":LIST 323 alice :End of /LIST\r\n".toList] },
        net := [(4, [])],
        handed := [(4, "NICK alice\r\n".toList), (4, "LIST\r\n".toList)] }) := by
  exact ⟨st_ready_reachable, by decide, by decide, by decide, by decide⟩


end Sircd
